import Mathlib

/-!
Bit cursors of `src/common/bit_cursor.h` and packets of `src/merge/packet.h`.

A shallow embedding of `bit_reader_c`, `bit_writer_c` and `packet_t`,
followed by the properties proved about them.

Conventions of the embedding.

* A buffer is a list of bytes. The three pointers of the C++ classes are kept
  as offsets from `m_start_of_data`: `m_start_of_data` is offset `0`,
  `m_end_of_data` is the length of the list and `m_byte_position` is a natural
  number.
* A member function that can throw returns a pair: what the call produced
  (a value, or the exception that left it) and the object as the call leaves
  it. The object is part of the result on both paths, because a C++ exception
  does not undo the assignments made before it was thrown.
* `std::size_t` and `uint64_t` values are natural numbers. Where the source
  computes modulo `2 ^ 64` (the accumulator of `get_bits`) or in a 32-bit
  type (the shifts of `put_bits` and of the Golomb readers) the embedding
  says so explicitly.
* `get_bit_position` and `get_remaining_bits` return a 32-bit `int`. The
  value of the expression they return is kept apart from the result
  (`bit_offset`, `bits_left`); the result is that value converted to `int`
  (`to_int32`). The two agree while the value is below `2 ^ 31`, which it is
  over every buffer shorter than `2 ^ 28` bytes.
* Buffers too long for a 32-bit count (`big_buffer`, `bigger_buffer`,
  `huge_buffer`) are lists given by `List.replicate`; what is proved over
  them is proved from the general lemmas and the length of the list.
-/

/-- What ends a call early. `end_of_file_x` and `seek_x` are the two
exceptions of `mtx::mm_io` thrown by the cursors. `undefined_shift` is not an
exception: it marks a call that evaluates a shift of a 32-bit operand by 32 or
more, for which C++ defines no result. -/
inductive cursor_x where
  | end_of_file_x
  | seek_x
  | undefined_shift
  deriving DecidableEq, Repr

deriving instance DecidableEq for Except

/-- State of a `bit_reader_c`: the buffer it reads and its four mutable
members. -/
structure bit_reader_c where
  data : List (Fin 256)
  m_byte_position : Nat
  m_bits_valid : Nat
  m_out_of_data : Bool
  deriving DecidableEq, Repr

/-- State of a `bit_writer_c`: the buffer it writes to and its mutable
members. -/
structure bit_writer_c where
  data : List (Fin 256)
  m_byte_position : Nat
  m_mask : Nat
  m_out_of_data : Bool
  deriving DecidableEq, Repr

/-- Conversion of a signed value to `uint64_t`. -/
def to_uint64 (x : Int) : Nat :=
  (x % 2 ^ 64).toNat

/-- Conversion of an integer value to the 32-bit `int`: the value modulo
`2 ^ 32`, taken between `-2 ^ 31` and `2 ^ 31 - 1`. -/
def to_int32 (x : Int) : Int :=
  (x + 2 ^ 31) % 2 ^ 32 - 2 ^ 31

/-- Conversion of a `uint64_t` value to `int64_t`. -/
def to_int64 (u : Nat) : Int :=
  if u % 2 ^ 64 < 2 ^ 63 then ((u % 2 ^ 64 : Nat) : Int) else ((u % 2 ^ 64 : Nat) : Int) - 2 ^ 64

/-- The expression `1u << n` on a 32-bit `unsigned int`: defined for shift
counts below 32 only. -/
def shl_unsigned_one (n : Nat) : Option Nat :=
  if n < 32 then some ((1 <<< n) % 2 ^ 32) else none

/-- The expression `1 << k` on a 32-bit `int`: `2 ^ k` for `k < 31`, the most
negative `int` for `k = 31`, and no defined result from 32 on. -/
def shl_int_one (k : Nat) : Option Int :=
  if k < 31 then some (2 ^ k) else if k = 31 then some (-(2 ^ 31)) else none

/-- The expression `(1 << n) - 1` on a 32-bit `int`: `2 ^ n - 1` for
`n < 31`. For `n = 31` the subtraction from the most negative `int` is done
modulo `2 ^ 32`, as the two's complement subtraction of the compiled code
does it, and gives `2 ^ 31 - 1`. From 32 on the shift has no defined
result. -/
def shl_int_one_minus_one (n : Nat) : Except cursor_x Int :=
  match shl_int_one n with
  | none => .error .undefined_shift
  | some m => .ok (to_int32 (m - 1))

namespace bit_reader_c

/-- Member `init` (also the constructor): binds the reader to a buffer. -/
def init (data : List (Fin 256)) : bit_reader_c :=
  { data := data
    m_byte_position := 0
    m_bits_valid := if data.length ≠ 0 then 8 else 0
    m_out_of_data := decide (0 ≥ data.length) }

/-- Member `eof`. -/
def eof (r : bit_reader_c) : Bool :=
  r.m_out_of_data

/-- The `while (n > 0)` loop of `get_bits`, with the accumulator `r` of the
source as `acc`. The first argument bounds the number of passes; `get_bits`
starts it at `n + 1`, which the loop never uses up (`get_bits_loop_fuel`):
every pass takes at least one bit, except a pass entered with
`m_bits_valid = 0`, which only moves to the next byte and leaves
`m_bits_valid = 8`. -/
def get_bits_loop : Nat → bit_reader_c → Nat → Nat → Except cursor_x Nat × bit_reader_c
  | 0, r, _, acc => (.ok acc, r)
  | fuel + 1, r, n, acc =>
    if n = 0 then (.ok acc, r)
    else if r.m_byte_position ≥ r.data.length then
      (.error .end_of_file_x, { r with m_out_of_data := true })
    else
      let b := min (min 8 n) r.m_bits_valid
      let rshift := r.m_bits_valid - b
      let byte := (r.data.getD r.m_byte_position 0).val
      let acc1 := ((acc <<< b) % 2 ^ 64) ||| ((byte >>> rshift) &&& (0xff >>> (8 - b)))
      let bits_valid := r.m_bits_valid - b
      if bits_valid = 0 then
        get_bits_loop fuel
          { r with m_bits_valid := 8, m_byte_position := r.m_byte_position + 1 } (n - b) acc1
      else
        get_bits_loop fuel { r with m_bits_valid := bits_valid } (n - b) acc1

/-- Member `get_bits`. -/
def get_bits (r : bit_reader_c) (n : Nat) : Except cursor_x Nat × bit_reader_c :=
  get_bits_loop (n + 1) r n 0

/-- Member `get_bit`. -/
def get_bit (r : bit_reader_c) : Except cursor_x Nat × bit_reader_c :=
  get_bits r 1

/-- The loop `while (get_bit() == 0) ++n;` of `get_unsigned_golomb`: returns
the number of zero bits read before the first one bit, which is read as well.
The first argument bounds the number of passes; `get_unsigned_golomb` starts
it at `golomb_fuel`, which the loop never uses up (`golomb_zeros_fuel`), so
the first equation is never reached from there. -/
def golomb_zeros : Nat → bit_reader_c → Nat → Except cursor_x Nat × bit_reader_c
  | 0, r, _ => (.error .end_of_file_x, { r with m_out_of_data := true })
  | fuel + 1, r, n =>
    match get_bit r with
    | (.error e, r1) => (.error e, r1)
    | (.ok bit, r1) => if bit = 0 then golomb_zeros fuel r1 (n + 1) else (.ok n, r1)

/-- Number of passes that the loops reading until an exception or a stop
bit are given (`golomb_zeros`, `get_bytes_loop`): one more than the number of
bits the reader can still deliver, each pass but the last reading at least
one. -/
def golomb_fuel (r : bit_reader_c) : Nat :=
  8 * (r.data.length - r.m_byte_position) + r.m_bits_valid + 1

/-- Member `get_unsigned_golomb`. The counter `n` is an `int` in the source
and a natural number here; the two agree while fewer than `2 ^ 31` zero bits
are counted. No count from 32 on leads to a value: `get_bits` raises, or the
call is marked `undefined_shift` for its `1u << n`. -/
def get_unsigned_golomb (r : bit_reader_c) : Except cursor_x Nat × bit_reader_c :=
  match golomb_zeros (golomb_fuel r) r 0 with
  | (.error e, r1) => (.error e, r1)
  | (.ok n, r1) =>
    match get_bits r1 n with
    | (.error e, r2) => (.error e, r2)
    | (.ok bits, r2) =>
      match shl_unsigned_one n with
      | none => (.error .undefined_shift, r2)
      | some p => (.ok (((p + 2 ^ 32 - 1) % 2 ^ 32 + bits) % 2 ^ 64), r2)

/-- Member `get_signed_golomb`. -/
def get_signed_golomb (r : bit_reader_c) : Except cursor_x Int × bit_reader_c :=
  match get_unsigned_golomb r with
  | (.error e, r1) => (.error e, r1)
  | (.ok u, r1) =>
    let v := to_int64 u
    (.ok (if v % 2 ≠ 0 then Int.tdiv (v + 1) 2 else -(Int.tdiv v 2)), r1)

/-- The loop of `peek_bits`: that of `get_bits` on the two local copies
`tmp_byte_position` and `tmp_bits_valid`. -/
def peek_bits_loop : Nat → List (Fin 256) → Nat → Nat → Nat → Nat → Except cursor_x Nat
  | 0, _, _, _, _, acc => .ok acc
  | fuel + 1, data, tmp_byte_position, tmp_bits_valid, n, acc =>
    if n = 0 then .ok acc
    else if tmp_byte_position ≥ data.length then .error .end_of_file_x
    else
      let b := min (min 8 n) tmp_bits_valid
      let rshift := tmp_bits_valid - b
      let byte := (data.getD tmp_byte_position 0).val
      let acc1 := ((acc <<< b) % 2 ^ 64) ||| ((byte >>> rshift) &&& (0xff >>> (8 - b)))
      let bits_valid := tmp_bits_valid - b
      if bits_valid = 0 then
        peek_bits_loop fuel data (tmp_byte_position + 1) 8 (n - b) acc1
      else
        peek_bits_loop fuel data tmp_byte_position bits_valid (n - b) acc1

/-- Member `peek_bits`. No member is assigned, so the reader is handed back as
it came. -/
def peek_bits (r : bit_reader_c) (n : Nat) : Except cursor_x Nat × bit_reader_c :=
  (peek_bits_loop (n + 1) r.data r.m_byte_position r.m_bits_valid n 0, r)

/-- Member `set_bit_position`. -/
def set_bit_position (r : bit_reader_c) (pos : Nat) : Except cursor_x Unit × bit_reader_c :=
  if pos > r.data.length * 8 then
    (.error .end_of_file_x, { r with m_byte_position := r.data.length, m_out_of_data := true })
  else
    (.ok (), { r with m_byte_position := pos / 8, m_bits_valid := 8 - pos % 8 })

/-- The bit offset of the cursor from the start of the buffer: the value of
the expression `(m_byte_position - m_start_of_data) * 8 + 8 - m_bits_valid`
that `get_bit_position` returns, before its conversion to `int`. -/
def bit_offset (r : bit_reader_c) : Int :=
  (r.m_byte_position : Int) * 8 + 8 - r.m_bits_valid

/-- Member `get_bit_position`. The result is a 32-bit `int`. -/
def get_bit_position (r : bit_reader_c) : Int :=
  to_int32 r.bit_offset

/-- The number of bits from the cursor to the end of the buffer: the value of
the expression `(m_end_of_data - m_byte_position) * 8 - 8 + m_bits_valid`
that `get_remaining_bits` returns, before its conversion to `int`. -/
def bits_left (r : bit_reader_c) : Int :=
  ((r.data.length : Int) - r.m_byte_position) * 8 - 8 + r.m_bits_valid

/-- Member `get_remaining_bits`. The result is a 32-bit `int`. -/
def get_remaining_bits (r : bit_reader_c) : Int :=
  to_int32 r.bits_left

/-- The states a reader can be in: the byte position is inside the buffer or at
its end, `m_bits_valid` is at most 8, and it is at least 1 while there is a
current byte. `init` produces such a state and every member function keeps
the reader in one (`valid_init`, `valid_get_bits`, `valid_set_bit_position`). -/
def valid (r : bit_reader_c) : Prop :=
  r.m_byte_position ≤ r.data.length ∧ r.m_bits_valid ≤ 8 ∧
    (r.m_byte_position < r.data.length → 1 ≤ r.m_bits_valid)

instance (r : bit_reader_c) : Decidable r.valid := by
  unfold valid
  exact inferInstance

/-- The loop `for (i = 0; (i < len) && get_bit() != stop; ++i)` of
`get_unary`. The first argument is `len - i`, the number of passes that the
test `i < len` still admits. -/
def get_unary_loop : Nat → bit_reader_c → Bool → Nat → Except cursor_x Nat × bit_reader_c
  | 0, r, _, i => (.ok i, r)
  | left + 1, r, stop, i =>
    match r.get_bit with
    | (.error e, r1) => (.error e, r1)
    | (.ok bit, r1) => if bit ≠ stop.toNat then get_unary_loop left r1 stop (i + 1) else (.ok i, r1)

/-- Member `get_unary`. -/
def get_unary (r : bit_reader_c) (stop : Bool) (len : Int) : Except cursor_x Int × bit_reader_c :=
  match get_unary_loop len.toNat r stop 0 with
  | (.error e, r1) => (.error e, r1)
  | (.ok i, r1) => (.ok (i : Int), r1)

/-- Member `get_012`. -/
def get_012 (r : bit_reader_c) : Except cursor_x Nat × bit_reader_c :=
  match r.get_bit with
  | (.error e, r1) => (.error e, r1)
  | (.ok bit, r1) =>
    if bit = 0 then (.ok 0, r1)
    else
      match r1.get_bits 1 with
      | (.error e, r2) => (.error e, r2)
      | (.ok value, r2) => (.ok (value + 1), r2)

/-- Member `get_bytes_byte_aligned`. Besides the outcome and the reader, the
result holds the bytes that were stored into `buf`, in order. -/
def get_bytes_byte_aligned (r : bit_reader_c) (n : Nat) :
    Except cursor_x Unit × List (Fin 256) × bit_reader_c :=
  let bytes_to_copy := min n (r.data.length - r.m_byte_position)
  let buf := (r.data.drop r.m_byte_position).take bytes_to_copy
  if bytes_to_copy < n then
    (.error .end_of_file_x, buf,
      { r with m_byte_position := r.m_byte_position + bytes_to_copy, m_out_of_data := true })
  else
    (.ok (), buf, { r with m_byte_position := r.m_byte_position + bytes_to_copy })

/-- The assignment `buf[idx] = value`, on the bytes stored into `buf` so
far: the byte at index `idx` is replaced, or added when `idx` is the number
of bytes stored. -/
def store_byte (buf : List (Fin 256)) (idx : Nat) (value : Fin 256) : List (Fin 256) :=
  buf.take idx ++ [value] ++ buf.drop (idx + 1)

/-- The loop `for (auto idx = 0u; idx < n; ++idx) buf[idx] = get_bits(8);`
of `get_bytes`. The index `idx` is a 32-bit `unsigned int` and `n` a
`std::size_t`: the increment is done modulo `2 ^ 32`, so that for
`n ≥ 2 ^ 32` the test `idx < n` never fails and the loop is left by an
exception of `get_bits` only. The first argument bounds the number of
passes; `get_bytes` starts it at `golomb_fuel`, which the loop never uses up
(`get_bytes_loop_fuel`), every pass but the last reading 8 bits. The last
argument holds the bytes stored into `buf` so far. -/
def get_bytes_loop : Nat → bit_reader_c → Nat → Nat → List (Fin 256) →
    Except cursor_x Unit × List (Fin 256) × bit_reader_c
  | 0, r, _, _, buf => (.error .end_of_file_x, buf, { r with m_out_of_data := true })
  | fuel + 1, r, idx, n, buf =>
    if idx < n then
      match r.get_bits 8 with
      | (.error e, r1) => (.error e, buf, r1)
      | (.ok value, r1) =>
        get_bytes_loop fuel r1 ((idx + 1) % 2 ^ 32) n (store_byte buf idx (Fin.ofNat value))
    else (.ok (), buf, r)

/-- Member `get_bytes`. -/
def get_bytes (r : bit_reader_c) (n : Nat) :
    Except cursor_x Unit × List (Fin 256) × bit_reader_c :=
  if 8 = r.m_bits_valid then r.get_bytes_byte_aligned n
  else get_bytes_loop r.golomb_fuel r 0 n []

/-- Member `skip_bits`. The sum of the `int` that `get_bit_position`
returns and the `std::size_t` argument is a `std::size_t`. -/
def skip_bits (r : bit_reader_c) (num : Nat) : Except cursor_x Unit × bit_reader_c :=
  r.set_bit_position (to_uint64 (r.get_bit_position + num))

/-- Member `skip_bit`. The sum of the `int` that `get_bit_position` returns
and 1 is an `int`, taken modulo `2 ^ 32` as the two's complement addition of
the compiled code does it, and converted to `std::size_t`. -/
def skip_bit (r : bit_reader_c) : Except cursor_x Unit × bit_reader_c :=
  r.set_bit_position (to_uint64 (to_int32 (r.get_bit_position + 1)))

/-- Member `byte_align`. -/
def byte_align (r : bit_reader_c) : Except cursor_x Unit × bit_reader_c :=
  if 8 ≠ r.m_bits_valid then r.skip_bits r.m_bits_valid else (.ok (), r)

/-- Member `skip_get_bits`. -/
def skip_get_bits (r : bit_reader_c) (to_skip to_get : Nat) :
    Except cursor_x Nat × bit_reader_c :=
  match r.skip_bits to_skip with
  | (.error e, r1) => (.error e, r1)
  | (.ok _, r1) => r1.get_bits to_get

/-- The cursor invariant of the specification: the byte position is between
the start and the end of the buffer, and `m_bits_valid` is between 1 and 8
while the reader is not out of data. -/
def cursor_invariant (r : bit_reader_c) : Prop :=
  r.m_byte_position ≤ r.data.length
    ∧ (r.m_out_of_data = false → 1 ≤ r.m_bits_valid ∧ r.m_bits_valid ≤ 8)

instance (r : bit_reader_c) : Decidable r.cursor_invariant := by
  unfold cursor_invariant
  exact inferInstance

/-- The cursor stands on a bit position of the buffer, the end included:
`m_bits_valid` is between 1 and 8, and it is 8 at the end of the buffer. -/
def positioned (r : bit_reader_c) : Prop :=
  r.m_byte_position ≤ r.data.length ∧ 1 ≤ r.m_bits_valid ∧ r.m_bits_valid ≤ 8
    ∧ (r.m_byte_position = r.data.length → r.m_bits_valid = 8)

end bit_reader_c

/-- An outcome without its value: what is left to tell whether the call
returned or how it ended. -/
def outcome {α : Type} (x : Except cursor_x α) : Except cursor_x Unit :=
  match x with
  | .ok _ => .ok ()
  | .error e => .error e

/-- A call of one of the public member functions of `bit_reader_c`, with its
arguments. -/
inductive reader_op where
  | get_bits (n : Nat)
  | get_bit
  | get_unary (stop : Bool) (len : Int)
  | get_012
  | get_unsigned_golomb
  | get_signed_golomb
  | peek_bits (n : Nat)
  | get_bytes (n : Nat)
  | byte_align
  | set_bit_position (pos : Nat)
  | skip_bits (num : Nat)
  | skip_bit
  | skip_get_bits (to_skip to_get : Nat)
  deriving DecidableEq, Repr

/-- The call on a reader: its outcome and the reader as the call leaves
it. -/
def reader_op.run (op : reader_op) (r : bit_reader_c) : Except cursor_x Unit × bit_reader_c :=
  match op with
  | .get_bits n => (outcome (r.get_bits n).1, (r.get_bits n).2)
  | .get_bit => (outcome r.get_bit.1, r.get_bit.2)
  | .get_unary stop len => (outcome (r.get_unary stop len).1, (r.get_unary stop len).2)
  | .get_012 => (outcome r.get_012.1, r.get_012.2)
  | .get_unsigned_golomb => (outcome r.get_unsigned_golomb.1, r.get_unsigned_golomb.2)
  | .get_signed_golomb => (outcome r.get_signed_golomb.1, r.get_signed_golomb.2)
  | .peek_bits n => (outcome (r.peek_bits n).1, (r.peek_bits n).2)
  | .get_bytes n => ((r.get_bytes n).1, (r.get_bytes n).2.2)
  | .byte_align => r.byte_align
  | .set_bit_position pos => r.set_bit_position pos
  | .skip_bits num => r.skip_bits num
  | .skip_bit => r.skip_bit
  | .skip_get_bits to_skip to_get =>
    (outcome (r.skip_get_bits to_skip to_get).1, (r.skip_get_bits to_skip to_get).2)

/-- A sequence of calls on a reader, one after the other, whether they return
or raise: each call with its outcome, and the reader after the last one. -/
def run_ops : List reader_op → bit_reader_c →
    List (reader_op × Except cursor_x Unit) × bit_reader_c
  | [], r => ([], r)
  | op :: ops, r =>
    ((op, (op.run r).1) :: (run_ops ops (op.run r).2).1, (run_ops ops (op.run r).2).2)

/-- The reader states reached from `init` by calls that returned. -/
inductive bit_reader_c.reached : bit_reader_c → Prop where
  | init (data : List (Fin 256)) : bit_reader_c.reached (bit_reader_c.init data)
  | step (r : bit_reader_c) (op : reader_op) :
      bit_reader_c.reached r → (op.run r).1 = .ok () → bit_reader_c.reached (op.run r).2

/-- What every call of a member function other than `peek_bits` keeps or
establishes, `res` being its outcome, `r` the reader before and `r1` the
reader after the call: the buffer is the same; the flag behind `eof()` is set
when the call raised `end_of_file_x` and is what it was otherwise; the
cursor invariant and validity are kept; a call that returned from a
positioned reader leaves a positioned reader. -/
def bit_reader_c.follows (r : bit_reader_c) (res : Except cursor_x Unit) (r1 : bit_reader_c) :
    Prop :=
  r1.data = r.data
    ∧ (res = .error .end_of_file_x → r1.m_out_of_data = true)
    ∧ (res ≠ .error .end_of_file_x → r1.m_out_of_data = r.m_out_of_data)
    ∧ (r.cursor_invariant → r1.cursor_invariant)
    ∧ (r.valid → r1.valid)
    ∧ (r.positioned → res = .ok () → r1.positioned)

/-- Modelled from the specification of `get_bytes`: `n` successive calls of
`get_bits(8)`, each byte read being stored behind the ones before it. The
calls stop at the first one that raises. The result holds the outcome, the
bytes stored and the reader after the last call. -/
def successive_get_bits_8 : Nat → bit_reader_c →
    Except cursor_x Unit × List (Fin 256) × bit_reader_c
  | 0, r => (.ok (), [], r)
  | n + 1, r =>
    match r.get_bits 8 with
    | (.error e, r1) => (.error e, [], r1)
    | (.ok value, r1) =>
      ((successive_get_bits_8 n r1).1, Fin.ofNat value :: (successive_get_bits_8 n r1).2.1,
        (successive_get_bits_8 n r1).2.2)

/-- A buffer of `2 ^ 28 + 1` zero bytes: the shortest buffer with a bit offset
before its end that does not fit the 32-bit `int`. -/
def bigger_buffer : List (Fin 256) :=
  List.replicate (2 ^ 28 + 1) 0

/-- A buffer of `2 ^ 32 + 1` zero bytes: the shortest buffer with `2 ^ 32`
whole bytes behind a cursor that is not on a byte boundary. -/
def huge_buffer : List (Fin 256) :=
  List.replicate (2 ^ 32 + 1) 0

namespace bit_writer_c

/-- The constructor of `bit_writer_c`. -/
def create (data : List (Fin 256)) : bit_writer_c :=
  { data := data
    m_byte_position := 0
    m_mask := 0x80
    m_out_of_data := decide (0 ≥ data.length) }

/-- Member `put_bit`. The byte is stored as an `unsigned char`, hence the
reduction modulo 256; `~m_mask` is the complement of a 64-bit `std::size_t`. -/
def put_bit (w : bit_writer_c) (bit : Bool) : Except cursor_x Unit × bit_writer_c :=
  if w.m_byte_position ≥ w.data.length then
    (.error .end_of_file_x, { w with m_out_of_data := true })
  else
    let old := (w.data.getD w.m_byte_position 0).val
    let byte := if bit then old ||| w.m_mask else old &&& (2 ^ 64 - 1 - w.m_mask)
    let data := w.data.set w.m_byte_position (Fin.ofNat byte)
    let mask := w.m_mask >>> 1
    if mask = 0 then
      (.ok (), { data := data
                 m_byte_position := w.m_byte_position + 1
                 m_mask := 0x80
                 m_out_of_data :=
                   if w.m_byte_position + 1 = w.data.length then true else w.m_out_of_data })
    else
      (.ok (), { w with data := data, m_mask := mask })

/-- Member `put_bits`. The bit handed to `put_bit` is
`value & (1 << (n - 1))` converted to `bool`: the shift is done on a 32-bit
`int` and its result is converted to `uint64_t` for the conjunction. -/
def put_bits (w : bit_writer_c) : Nat → Nat → Except cursor_x Unit × bit_writer_c
  | 0, _ => (.ok (), w)
  | n + 1, value =>
    match shl_int_one n with
    | none => (.error .undefined_shift, w)
    | some m =>
      match put_bit w (decide (value &&& to_uint64 m ≠ 0)) with
      | (.error e, w1) => (.error e, w1)
      | (.ok _, w1) => put_bits w1 n value

/-- Member `set_bit_position`. -/
def set_bit_position (w : bit_writer_c) (pos : Nat) : Except cursor_x Unit × bit_writer_c :=
  if pos ≥ w.data.length * 8 then
    (.error .seek_x, { w with m_byte_position := w.data.length, m_out_of_data := true })
  else
    (.ok (), { w with m_byte_position := pos / 8, m_mask := 0x80 >>> (pos % 8) })

/-- The bit offset of the cursor from the start of the buffer: the value of
the `std::size_t` variable `pos` of `get_bit_position` at its `return`, the
bit offset of the current byte plus the first `i` below 8 with `0x80 >> i`
equal to the mask, when there is one. -/
def bit_offset (w : bit_writer_c) : Int :=
  match (List.range 8).find? (fun i => decide (0x80 >>> i = w.m_mask)) with
  | some i => ((w.m_byte_position * 8 + i : Nat) : Int)
  | none => ((w.m_byte_position * 8 : Nat) : Int)

/-- Member `get_bit_position`: `pos` converted to the 32-bit `int` that is
returned. -/
def get_bit_position (w : bit_writer_c) : Int :=
  to_int32 w.bit_offset

/-- Member `skip_bits`. The sum of the `int` that `get_bit_position` returns
and the `unsigned int` argument is an `unsigned int`. -/
def skip_bits (w : bit_writer_c) (num : Nat) : Except cursor_x Unit × bit_writer_c :=
  w.set_bit_position ((w.get_bit_position + num) % 2 ^ 32).toNat

/-- Member `skip_bit`. The sum of the `int` that `get_bit_position` returns
and 1 is an `int`, taken modulo `2 ^ 32` as the two's complement addition of
the compiled code does it, and converted to `std::size_t`. -/
def skip_bit (w : bit_writer_c) : Except cursor_x Unit × bit_writer_c :=
  w.set_bit_position (to_uint64 (to_int32 (w.get_bit_position + 1)))

/-- The loop `while (0x80 != m_mask) put_bit(0);` of `byte_align`. The first
argument bounds the number of passes; `byte_align` starts it at 64, the
width of the `std::size_t` mask, which every pass shifts by one bit. From a
valid state 8 passes are never used up (`byte_align_loop_fuel`). -/
def byte_align_loop : Nat → bit_writer_c → Except cursor_x Unit × bit_writer_c
  | 0, w => (.ok (), w)
  | fuel + 1, w =>
    if w.m_mask = 0x80 then (.ok (), w)
    else
      match w.put_bit false with
      | (.error e, w1) => (.error e, w1)
      | (.ok _, w1) => byte_align_loop fuel w1

/-- Member `byte_align`. -/
def byte_align (w : bit_writer_c) : Except cursor_x Unit × bit_writer_c :=
  byte_align_loop 64 w

/-- Member `copy_bits`. The result holds the value, the writer and the reader
`src` as the call leaves them. -/
def copy_bits (w : bit_writer_c) (n : Nat) (src : bit_reader_c) :
    Except cursor_x Nat × bit_writer_c × bit_reader_c :=
  match src.get_bits n with
  | (.error e, src1) => (.error e, w, src1)
  | (.ok value, src1) =>
    match w.put_bits n value with
    | (.error e, w1) => (.error e, w1, src1)
    | (.ok _, w1) => (.ok value, w1, src1)

/-- The loop `while (r.get_bit() == 0) { put_bit(0); ++n; }` of
`copy_unsigned_golomb`. The first argument bounds the number of passes, as
in `bit_reader_c.golomb_zeros`; it is never used up (`copy_zeros_fuel`). -/
def copy_zeros : Nat → bit_writer_c → bit_reader_c → Nat →
    Except cursor_x Nat × bit_writer_c × bit_reader_c
  | 0, w, r, _ => (.error .end_of_file_x, w, { r with m_out_of_data := true })
  | fuel + 1, w, r, n =>
    match r.get_bit with
    | (.error e, r1) => (.error e, w, r1)
    | (.ok bit, r1) =>
      if bit = 0 then
        match w.put_bit false with
        | (.error e, w1) => (.error e, w1, r1)
        | (.ok _, w1) => copy_zeros fuel w1 r1 (n + 1)
      else (.ok n, w, r1)

/-- Member `copy_unsigned_golomb`. The returned value is
`(1 << n) - 1 + bits`, with `(1 << n) - 1` computed on a 32-bit `int` and
converted to `uint64_t` for the sum. The counter `n` is an `int` in the
source and a natural number here, as in `bit_reader_c.get_unsigned_golomb`;
no count from 32 on leads to a value, `1 << n` having no defined result
there. -/
def copy_unsigned_golomb (w : bit_writer_c) (r : bit_reader_c) :
    Except cursor_x Nat × bit_writer_c × bit_reader_c :=
  match copy_zeros r.golomb_fuel w r 0 with
  | (.error e, w1, r1) => (.error e, w1, r1)
  | (.ok n, w1, r1) =>
    match w1.put_bit true with
    | (.error e, w2) => (.error e, w2, r1)
    | (.ok _, w2) =>
      match copy_bits w2 n r1 with
      | (.error e, w3, r2) => (.error e, w3, r2)
      | (.ok bits, w3, r2) =>
        match shl_int_one_minus_one n with
        | .error e => (.error e, w3, r2)
        | .ok m => (.ok ((to_uint64 m + bits) % 2 ^ 64), w3, r2)

/-- Member `copy_signed_golomb`. -/
def copy_signed_golomb (w : bit_writer_c) (r : bit_reader_c) :
    Except cursor_x Int × bit_writer_c × bit_reader_c :=
  match copy_unsigned_golomb w r with
  | (.error e, w1, r1) => (.error e, w1, r1)
  | (.ok u, w1, r1) =>
    let v := to_int64 u
    (.ok (if v % 2 ≠ 0 then Int.tdiv (v + 1) 2 else -(Int.tdiv v 2)), w1, r1)

/-- The states a writer can be in: the byte position is inside the buffer or
at its end and the mask is one of `0x80 >> 0`, ..., `0x80 >> 7`. The
constructor produces such a state and every member function keeps the writer
in one. -/
def valid (w : bit_writer_c) : Prop :=
  w.m_byte_position ≤ w.data.length ∧ w.m_mask ∈ (List.range 8).map (fun i => 0x80 >>> i)

instance (w : bit_writer_c) : Decidable w.valid := by
  unfold valid
  exact inferInstance

/-- The writer states reached from construction by operations that did not
raise. -/
inductive reached : bit_writer_c → Prop where
  | create (data : List (Fin 256)) : reached (create data)
  | put_bit (w : bit_writer_c) (bit : Bool) :
      reached w → (w.put_bit bit).1 = .ok () → reached (w.put_bit bit).2
  | put_bits (w : bit_writer_c) (n value : Nat) :
      reached w → (w.put_bits n value).1 = .ok () → reached (w.put_bits n value).2
  | byte_align (w : bit_writer_c) :
      reached w → w.byte_align.1 = .ok () → reached w.byte_align.2
  | set_bit_position (w : bit_writer_c) (pos : Nat) :
      reached w → (w.set_bit_position pos).1 = .ok () → reached (w.set_bit_position pos).2
  | skip_bits (w : bit_writer_c) (num : Nat) :
      reached w → (w.skip_bits num).1 = .ok () → reached (w.skip_bits num).2
  | skip_bit (w : bit_writer_c) :
      reached w → w.skip_bit.1 = .ok () → reached w.skip_bit.2
  | copy_bits (w : bit_writer_c) (n : Nat) (src : bit_reader_c) (value : Nat) :
      reached w → (w.copy_bits n src).1 = .ok value → reached (w.copy_bits n src).2.1
  | copy_unsigned_golomb (w : bit_writer_c) (r : bit_reader_c) (value : Nat) :
      reached w → (w.copy_unsigned_golomb r).1 = .ok value →
      reached (w.copy_unsigned_golomb r).2.1
  | copy_signed_golomb (w : bit_writer_c) (r : bit_reader_c) (value : Int) :
      reached w → (w.copy_signed_golomb r).1 = .ok value →
      reached (w.copy_signed_golomb r).2.1

end bit_writer_c

/-! ## Bits of a buffer -/

/-- Bit `i` of a buffer, bit 0 being the most significant bit of byte 0. -/
def bit_at (data : List (Fin 256)) (i : Nat) : Bool :=
  (data.getD (i / 8) 0).val.testBit (7 - i % 8)

/-- The `n` bits of a buffer from bit `p` on, in order. -/
def bits_from (data : List (Fin 256)) (p n : Nat) : List Bool :=
  (List.range n).map (fun k => bit_at data (p + k))

/-- The number that a list of bits is the big-endian binary representation
of. -/
def be_value (bits : List Bool) : Nat :=
  bits.foldl (fun acc b => 2 * acc + b.toNat) 0

/-- The `n`-bit big-endian binary representation of `x` (of `x mod 2 ^ n`). -/
def be_bits (n x : Nat) : List Bool :=
  (List.range n).map (fun k => x.testBit (n - 1 - k))

/-- The bits that a reader has not read yet. -/
def unread_bits (r : bit_reader_c) : List Bool :=
  bits_from r.data (r.bit_offset).toNat (r.bits_left).toNat

/-- The reader of the same buffer whose cursor is at bit `q`. -/
def bit_reader_c.at_bit (r : bit_reader_c) (q : Nat) : bit_reader_c :=
  { r with m_byte_position := q / 8, m_bits_valid := 8 - q % 8 }

/-- The writer `w1` is the writer `w` after the bits `bs` have been written
from bit `p` on: the buffer has kept its length, its bits `p`, `p + 1`, ...
are `bs`, every other bit is what it was, and the cursor is behind the last
bit written. -/
def bit_writer_c.wrote (w : bit_writer_c) (p : Nat) (bs : List Bool) (w1 : bit_writer_c) :
    Prop :=
  w1.data.length = w.data.length
    ∧ bits_from w1.data p bs.length = bs
    ∧ (∀ i, i < p ∨ p + bs.length ≤ i → bit_at w1.data i = bit_at w.data i)
    ∧ w1.bit_offset = ((p + bs.length : Nat) : Int)

/-! ## Exp-Golomb code words -/

/-- Floor of the binary logarithm, by halving; the first argument bounds the
number of halvings. -/
def floor_log2_aux : Nat → Nat → Nat
  | 0, _ => 0
  | fuel + 1, x => if x < 2 then 0 else floor_log2_aux fuel (x / 2) + 1

/-- Floor of the binary logarithm of `x` (0 for `x = 0`). -/
def floor_log2 (x : Nat) : Nat :=
  floor_log2_aux x x

/-- The unsigned Exp-Golomb code word of `v`, as the specification describes
it: with `n = floor (log2 (v + 1))`, `n` zero bits, a one bit, then the
`n`-bit big-endian representation of `v + 1 - 2 ^ n`. -/
def exp_golomb_code (v : Nat) : List Bool :=
  List.replicate (floor_log2 (v + 1)) false ++ [true]
    ++ be_bits (floor_log2 (v + 1)) (v + 1 - 2 ^ floor_log2 (v + 1))

/-- The signed mapping of the specification: `v > 0` is coded as `2 v - 1`,
`v ≤ 0` as `-2 v`. -/
def signed_golomb_index (v : Int) : Nat :=
  if v > 0 then (2 * v - 1).toNat else (-2 * v).toNat

/-! ## Packets of `src/merge/packet.h` -/

/-- The enumeration `packet_extension_c::packet_extension_type_e`. -/
inductive packet_extension_type_e where
  | MULTIPLE_TIMECODES
  | SUBTITLE_NUMBER
  | BEFORE_ADDING_TO_CLUSTER_CB
  deriving DecidableEq, Repr

/-- An object of a class derived from the abstract `packet_extension_c`: what
its `get_type()` returns, and `object`, which tells one object from another
(its address). -/
structure packet_extension_c where
  get_type : packet_extension_type_e
  object : Nat
  deriving DecidableEq, Repr

/-- A `memory_cptr`: a shared buffer, or the empty pointer. -/
abbrev memory_cptr := Option (List (Fin 256))

/-- Modelled from the spec: `timestamp_c` of `common/timestamp.h`, which is
not among the sources; an optional signed time value, without a value when
default-constructed. -/
abbrev timestamp_c := Option Int

/-- The struct `packet_t`. The 64-bit time fields are integers; the raw
pointers `group`, `block`, `cluster` and `source` are `none` when null. -/
structure packet_t where
  data : memory_cptr
  data_adds : List memory_cptr
  codec_state : memory_cptr
  group : Option Nat
  block : Option Nat
  cluster : Option Nat
  ref_priority : Int
  time_factor : Int
  timecode : Int
  bref : Int
  fref : Int
  duration : Int
  assigned_timecode : Int
  timecode_before_factory : Int
  unmodified_assigned_timecode : Int
  unmodified_duration : Int
  uncompressed_size : Option Nat
  discard_padding : timestamp_c
  output_order_timecode : timestamp_c
  duration_mandatory : Bool
  superseeded : Bool
  gap_following : Bool
  factory_applied : Bool
  source : Option Nat
  extensions : List packet_extension_c
  deriving DecidableEq, Repr

namespace packet_t

/-- The constructor `packet_t()`. -/
def create : packet_t :=
  { data := none, data_adds := [], codec_state := none
    group := none, block := none, cluster := none
    ref_priority := 0, time_factor := 1
    timecode := 0, bref := 0, fref := 0, duration := -1
    assigned_timecode := 0, timecode_before_factory := 0
    unmodified_assigned_timecode := 0, unmodified_duration := 0
    uncompressed_size := none, discard_padding := none, output_order_timecode := none
    duration_mandatory := false, superseeded := false, gap_following := false
    factory_applied := false, source := none, extensions := [] }

/-- The constructor `packet_t(memory_cptr p_memory, int64_t p_timecode = -1,
int64_t p_duration = -1, int64_t p_bref = -1, int64_t p_fref = -1)`. An
argument that the caller leaves out is `none` and takes the default -1. -/
def of_memory_cptr (p_memory : memory_cptr) (p_timecode p_duration p_bref p_fref : Option Int) :
    packet_t :=
  { data := p_memory, data_adds := [], codec_state := none
    group := none, block := none, cluster := none
    ref_priority := 0, time_factor := 1
    timecode := p_timecode.getD (-1), bref := p_bref.getD (-1), fref := p_fref.getD (-1)
    duration := p_duration.getD (-1)
    assigned_timecode := 0, timecode_before_factory := 0
    unmodified_assigned_timecode := 0, unmodified_duration := 0
    uncompressed_size := none, discard_padding := none, output_order_timecode := none
    duration_mandatory := false, superseeded := false, gap_following := false
    factory_applied := false, source := none, extensions := [] }

/-- The constructor `packet_t(memory_c *n_memory, ...)`: the pointer is
wrapped into a `memory_cptr`, the rest is as in `of_memory_cptr`. -/
def of_memory_c (n_memory : memory_cptr) (p_timecode p_duration p_bref p_fref : Option Int) :
    packet_t :=
  { data := n_memory, data_adds := [], codec_state := none
    group := none, block := none, cluster := none
    ref_priority := 0, time_factor := 1
    timecode := p_timecode.getD (-1), bref := p_bref.getD (-1), fref := p_fref.getD (-1)
    duration := p_duration.getD (-1)
    assigned_timecode := 0, timecode_before_factory := 0
    unmodified_assigned_timecode := 0, unmodified_duration := 0
    uncompressed_size := none, discard_padding := none, output_order_timecode := none
    duration_mandatory := false, superseeded := false, gap_following := false
    factory_applied := false, source := none, extensions := [] }

/-- Member `has_timecode`. -/
def has_timecode (p : packet_t) : Bool :=
  decide (0 ≤ p.timecode)

/-- Member `has_bref`. -/
def has_bref (p : packet_t) : Bool :=
  decide (0 ≤ p.bref)

/-- Member `has_fref`. -/
def has_fref (p : packet_t) : Bool :=
  decide (0 ≤ p.fref)

/-- Member `has_duration`. -/
def has_duration (p : packet_t) : Bool :=
  decide (0 ≤ p.duration)

/-- Member `get_duration`. -/
def get_duration (p : packet_t) : Int :=
  if p.has_duration then p.duration else 0

/-- Member `get_unmodified_duration`. -/
def get_unmodified_duration (p : packet_t) : Int :=
  if p.has_duration then p.unmodified_duration else 0

/-- Member `is_key_frame`. -/
def is_key_frame (p : packet_t) : Bool :=
  !p.has_bref && !p.has_fref

/-- Member `is_p_frame`. -/
def is_p_frame (p : packet_t) : Bool :=
  (p.has_bref || p.has_fref) && (p.has_bref != p.has_fref)

/-- Member `is_b_frame`. -/
def is_b_frame (p : packet_t) : Bool :=
  p.has_bref && p.has_fref

/-- The loop of `find_extension` over the vector `extensions`. -/
def find_extension_loop (type : packet_extension_type_e) :
    List packet_extension_c → Option packet_extension_c
  | [] => none
  | extension :: rest =>
    if extension.get_type = type then some extension else find_extension_loop type rest

/-- Member `find_extension`: the extension found (`none` for `nullptr`) and
the packet as the call leaves it. The member is `const` and assigns
nothing. -/
def find_extension (p : packet_t) (type : packet_extension_type_e) :
    Option packet_extension_c × packet_t :=
  (find_extension_loop type p.extensions, p)

end packet_t

/-! ## Arithmetic of bit lists -/

theorem be_value_foldl (l : List Bool) (a : Nat) :
    l.foldl (fun acc b => 2 * acc + b.toNat) a = a * 2 ^ l.length + be_value l := by
  induction l using List.reverseRecOn generalizing a with
  | nil => simp [be_value]
  | append_singleton l b ih =>
    simp only [be_value, List.foldl_append, List.foldl_cons, List.foldl_nil, List.length_append,
      List.length_singleton]
    rw [ih a, ih 0]
    ring

theorem be_value_append (l1 l2 : List Bool) :
    be_value (l1 ++ l2) = be_value l1 * 2 ^ l2.length + be_value l2 := by
  unfold be_value
  rw [List.foldl_append, be_value_foldl l2, be_value]

theorem be_value_append_one (l : List Bool) (b : Bool) :
    be_value (l ++ [b]) = 2 * be_value l + b.toNat := by
  rw [be_value_append]
  simp [be_value]
  ring

theorem be_value_lt (l : List Bool) : be_value l < 2 ^ l.length := by
  induction l using List.reverseRecOn with
  | nil => simp [be_value]
  | append_singleton l b ih =>
    rw [be_value_append_one, List.length_append, List.length_singleton, pow_succ]
    have : b.toNat ≤ 1 := by cases b <;> simp
    omega

theorem bits_from_length (data : List (Fin 256)) (p n : Nat) :
    (bits_from data p n).length = n := by
  simp [bits_from]

theorem bits_from_add (data : List (Fin 256)) (p a b : Nat) :
    bits_from data p (a + b) = bits_from data p a ++ bits_from data (p + a) b := by
  simp only [bits_from, List.range_add, List.map_append, List.map_map]
  congr 1
  apply List.map_congr_left
  intro k _
  simp [Nat.add_assoc]

theorem be_value_testBit_range (x lo b : Nat) :
    be_value ((List.range b).map (fun k => x.testBit (lo + b - 1 - k))) = x / 2 ^ lo % 2 ^ b := by
  induction b generalizing lo with
  | zero => simp [be_value, Nat.mod_one]
  | succ b ih =>
    rw [List.range_succ, List.map_append, List.map_singleton, be_value_append_one]
    have h1 : (List.range b).map (fun k => x.testBit (lo + (b + 1) - 1 - k))
        = (List.range b).map (fun k => x.testBit (lo + 1 + b - 1 - k)) := by
      apply List.map_congr_left
      intro k _
      congr 1
      omega
    have h2 : lo + (b + 1) - 1 - b = lo := by omega
    rw [h1, ih (lo + 1), h2, Nat.toNat_testBit, pow_succ 2 lo, ← Nat.div_div_eq_div_mul,
      pow_succ 2 b, Nat.mul_comm (2 ^ b) 2, Nat.mod_mul]
    omega

theorem mask_shift (b : Nat) (hb : b ≤ 8) : 0xff >>> (8 - b) = 2 ^ b - 1 := by
  interval_cases b <;> decide

/-- The bits that one pass of the loop takes out of the current byte. -/
theorem chunk_eq (data : List (Fin 256)) (q b : Nat) (hb : b ≤ 8 - q % 8) :
    (((data.getD (q / 8) 0).val >>> (8 - q % 8 - b)) &&& (0xff >>> (8 - b)))
      = be_value (bits_from data q b) := by
  have hmod : q % 8 < 8 := Nat.mod_lt _ (by decide)
  rw [mask_shift b (by omega), Nat.and_pow_two_sub_one_eq_mod, Nat.shiftRight_eq_div_pow,
    ← be_value_testBit_range]
  congr 1
  simp only [bits_from, bit_at]
  apply List.map_congr_left
  intro k hk
  have hk' : k < b := List.mem_range.mp hk
  have h1 : (q + k) / 8 = q / 8 := by omega
  have h2 : 7 - (q + k) % 8 = 8 - q % 8 - b + b - 1 - k := by omega
  rw [h1, h2]

/-- One pass of the accumulator: shifting modulo `2 ^ 64` and or-ing in fewer
than `b` bits is an addition modulo `2 ^ 64`. -/
theorem acc_step (acc b c : Nat) (hb : b ≤ 8) (hc : c < 2 ^ b) :
    ((acc <<< b) % 2 ^ 64) ||| c = (acc * 2 ^ b + c) % 2 ^ 64 := by
  have h64 : (2 : Nat) ^ 64 = 2 ^ b * 2 ^ (64 - b) := by
    rw [← pow_add]
    congr 1
    omega
  rw [Nat.shiftLeft_eq, Nat.mul_comm acc, h64, Nat.mul_mod_mul_left, ← Nat.mul_add_lt_is_or hc,
    Nat.mod_mul]
  have h1 : (2 ^ b * acc + c) % 2 ^ b = c := by
    rw [Nat.mul_add_mod]
    exact Nat.mod_eq_of_lt hc
  have h2 : (2 ^ b * acc + c) / 2 ^ b = acc := by
    rw [Nat.mul_add_div (by positivity), Nat.div_eq_of_lt hc]
    simp
  rw [h1, h2]
  ring

namespace bit_reader_c

theorem at_bit_step (r : bit_reader_c) (q b : Nat) (h0 : 8 - q % 8 - b ≠ 0) :
    (⟨r.data, q / 8, 8 - q % 8 - b, (r.at_bit q).m_out_of_data⟩ : bit_reader_c)
      = r.at_bit (q + b) := by
  simp only [at_bit, mk.injEq, true_and, and_true]
  constructor <;> omega

theorem at_bit_step_byte (r : bit_reader_c) (q b : Nat) (hb : b ≤ 8 - q % 8)
    (h0 : 8 - q % 8 - b = 0) :
    (⟨r.data, q / 8 + 1, 8, (r.at_bit q).m_out_of_data⟩ : bit_reader_c)
      = r.at_bit (q + b) := by
  simp only [at_bit, mk.injEq, true_and, and_true]
  constructor <;> omega

/-- What the loop of `get_bits` does from a cursor inside the buffer: with at
least `n` bits left it returns them, appended to the accumulator, and stops
`n` bits further; with fewer it raises at the end of the buffer. -/
theorem get_bits_loop_at (r : bit_reader_c) (n : Nat) :
    ∀ (fuel q acc : Nat), n ≤ fuel → q ≤ 8 * r.data.length → acc < 2 ^ 64 →
      get_bits_loop fuel (r.at_bit q) n acc =
        if q + n ≤ 8 * r.data.length then
          (.ok ((acc * 2 ^ n + be_value (bits_from r.data q n)) % 2 ^ 64), r.at_bit (q + n))
        else
          (.error .end_of_file_x, { r.at_bit (8 * r.data.length) with m_out_of_data := true }) := by
  induction n using Nat.strong_induction_on with
  | _ n ih =>
    intro fuel q acc hfuel hq hacc
    by_cases hn : n = 0
    · subst hn
      have : get_bits_loop fuel (r.at_bit q) 0 acc = (.ok acc, r.at_bit q) := by
        cases fuel <;> simp [get_bits_loop]
      have hz : be_value (bits_from r.data q 0) = 0 := by simp [bits_from, be_value]
      rw [this, if_pos (by simpa using hq), hz, pow_zero, Nat.mul_one, Nat.add_zero,
        Nat.mod_eq_of_lt hacc, Nat.add_zero]
    · obtain ⟨fuel, rfl⟩ : ∃ f, fuel = f + 1 := ⟨fuel - 1, by omega⟩
      have hmod : q % 8 < 8 := Nat.mod_lt _ (by decide)
      by_cases hend : q = 8 * r.data.length
      · subst hend
        have : get_bits_loop (fuel + 1) (r.at_bit (8 * r.data.length)) n acc
            = (.error .end_of_file_x,
                { r.at_bit (8 * r.data.length) with m_out_of_data := true }) := by
          rw [get_bits_loop]
          simp [hn, at_bit]
        rw [this, if_neg (by omega)]
      · have hlt : q / 8 < r.data.length := by omega
        set b := min (min 8 n) (8 - q % 8) with hbdef
        have hb1 : 1 ≤ b := by omega
        have hbn : b ≤ n := by omega
        have hbv : b ≤ 8 - q % 8 := by omega
        have hb8 : b ≤ 8 := by omega
        have hqb : q + b ≤ 8 * r.data.length := by omega
        have hchunk := chunk_eq r.data q b hbv
        have hc : be_value (bits_from r.data q b) < 2 ^ b := by
          have := be_value_lt (bits_from r.data q b)
          rwa [bits_from_length] at this
        have hacc1 := acc_step acc b _ hb8 hc
        have hsplit : be_value (bits_from r.data q n)
            = be_value (bits_from r.data q b) * 2 ^ (n - b)
              + be_value (bits_from r.data (q + b) (n - b)) := by
          have hnb : n = b + (n - b) := by omega
          conv_lhs => rw [hnb]
          rw [bits_from_add, be_value_append, bits_from_length]
        have hpow : (2 : Nat) ^ n = 2 ^ b * 2 ^ (n - b) := by
          rw [← pow_add]
          congr 1
          omega
        have hres : (((acc * 2 ^ b + be_value (bits_from r.data q b)) % 2 ^ 64) * 2 ^ (n - b)
              + be_value (bits_from r.data (q + b) (n - b))) % 2 ^ 64
            = (acc * 2 ^ n + be_value (bits_from r.data q n)) % 2 ^ 64 := by
          rw [hsplit, hpow, Nat.add_mod, Nat.mul_mod, Nat.mod_mod, ← Nat.mul_mod, ← Nat.add_mod]
          congr 1
          ring
        have hih := ih (n - b) (by omega) fuel (q + b)
          ((acc * 2 ^ b + be_value (bits_from r.data q b)) % 2 ^ 64) (by omega) hqb
          (Nat.mod_lt _ (by positivity))
        have hqn : q + b + (n - b) = q + n := by omega
        rw [hqn, hres] at hih
        rw [get_bits_loop]
        simp only [hn, if_false]
        have hpos : (r.at_bit q).m_byte_position = q / 8 := rfl
        have hval : (r.at_bit q).m_bits_valid = 8 - q % 8 := rfl
        have hdat : (r.at_bit q).data = r.data := rfl
        rw [hpos, hval, hdat, if_neg (by omega), ← hbdef, hchunk, hacc1]
        by_cases h0 : 8 - q % 8 - b = 0
        · rw [if_pos h0, at_bit_step_byte r q b hbv h0]
          exact hih
        · rw [if_neg h0, at_bit_step r q b h0]
          exact hih

theorem bit_offset_at_bit (r : bit_reader_c) (q : Nat) :
    (r.at_bit q).bit_offset = q := by
  simp only [bit_offset, at_bit]
  omega

theorem bits_left_eq (r : bit_reader_c) :
    r.bits_left = 8 * (r.data.length : Int) - r.bit_offset := by
  simp only [bits_left, bit_offset]
  ring

theorem bit_offset_range (r : bit_reader_c) (hv : r.valid) :
    0 ≤ r.bit_offset ∧ r.bit_offset ≤ 8 * (r.data.length : Int) + 8 := by
  obtain ⟨h1, h2, -⟩ := hv
  simp only [bit_offset]
  omega

theorem bits_left_range (r : bit_reader_c) (hv : r.valid) :
    -8 ≤ r.bits_left ∧ r.bits_left ≤ 8 * (r.data.length : Int) := by
  have h := bit_offset_range r hv
  have he := bits_left_eq r
  omega

/-- Whatever the length of the buffer, a count that `get_remaining_bits`
returns does not exceed the number of bits from the cursor to the end. -/
theorem get_remaining_bits_le (r : bit_reader_c) (hv : r.valid) (k : Nat)
    (h : (k : Int) ≤ r.get_remaining_bits) : (k : Int) ≤ r.bits_left := by
  have hr := bits_left_range r hv
  simp only [get_remaining_bits, to_int32] at h
  omega

theorem set_bit_position_at (r : bit_reader_c) (pos : Nat) (h : pos ≤ 8 * r.data.length) :
    r.set_bit_position pos = (.ok (), r.at_bit pos) := by
  simp only [set_bit_position, at_bit]
  rw [if_neg (by omega)]

theorem eq_at_bit (r : bit_reader_c) (hv : r.valid) (p : Nat) (hp : r.bit_offset = p)
    (hle : p ≤ 8 * r.data.length) : r.at_bit p = r := by
  obtain ⟨h1, h2, h3⟩ := hv
  cases r with
  | mk data bp bv flag =>
    simp only [bit_offset] at hp
    simp only [at_bit, mk.injEq, true_and, and_true] at *
    have := Nat.lt_or_ge bp data.length
    constructor <;> omega

/-- A successful `get_bits`: the value read and the state it leaves. -/
theorem get_bits_ok (r : bit_reader_c) (hv : r.valid) (p n : Nat) (hp : r.bit_offset = p)
    (hfit : p + n ≤ 8 * r.data.length) :
    r.get_bits n = (.ok (be_value (bits_from r.data p n) % 2 ^ 64), r.at_bit (p + n)) := by
  have h := get_bits_loop_at r n (n + 1) p 0 (by omega) (by omega) (by positivity)
  rw [eq_at_bit r hv p hp (by omega), if_pos hfit] at h
  simpa [get_bits] using h

/-- A `get_bits` that raises: the exception and the state it leaves. -/
theorem get_bits_raise (r : bit_reader_c) (hv : r.valid) (n : Nat) (hn : 1 ≤ n)
    (h : r.bits_left < n) :
    r.get_bits n = (.error .end_of_file_x,
      ⟨r.data, r.data.length,
        if r.m_byte_position < r.data.length then 8 else r.m_bits_valid, true⟩) := by
  obtain ⟨h1, h2, h3⟩ := hv
  by_cases hlt : r.m_byte_position < r.data.length
  · have hbv := h3 hlt
    have hp : r.bit_offset = ((8 * r.m_byte_position + 8 - r.m_bits_valid : Nat) : Int) := by
      simp only [bit_offset]
      omega
    have hrem := bits_left_eq r
    have hl := get_bits_loop_at r n (n + 1) (8 * r.m_byte_position + 8 - r.m_bits_valid) 0
      (by omega) (by omega) (by positivity)
    rw [eq_at_bit r ⟨h1, h2, h3⟩ _ hp (by omega), if_neg (by omega)] at hl
    rw [get_bits, hl, if_pos hlt]
    simp only [at_bit, Prod.mk.injEq, mk.injEq, true_and, and_true]
    omega
  · have hbp : r.m_byte_position = r.data.length := by omega
    rw [get_bits, get_bits_loop, if_neg (by omega), if_pos (by omega), if_neg hlt]
    cases r
    simp_all

end bit_reader_c

namespace bit_reader_c

/-- The loop of `peek_bits` computes what the loop of `get_bits` returns. -/
theorem peek_bits_loop_eq (fuel : Nat) :
    ∀ (r : bit_reader_c) (n acc : Nat),
      peek_bits_loop fuel r.data r.m_byte_position r.m_bits_valid n acc
        = (get_bits_loop fuel r n acc).1 := by
  induction fuel with
  | zero => intro r n acc; rfl
  | succ fuel ih =>
    intro r n acc
    rw [peek_bits_loop, get_bits_loop]
    by_cases hn : n = 0
    · simp [hn]
    · by_cases hp : r.m_byte_position ≥ r.data.length
      · simp [hn, hp]
      · simp only [hn, hp, if_false]
        split
        · exact ih ⟨r.data, r.m_byte_position + 1, 8, r.m_out_of_data⟩ _ _
        · exact ih ⟨r.data, r.m_byte_position,
            r.m_bits_valid - min (min 8 n) r.m_bits_valid, r.m_out_of_data⟩ _ _

/-- A successful loop of `get_bits` moves the cursor by exactly `n` bits,
from any state, and changes neither the buffer nor the flag. -/
theorem get_bits_loop_position (fuel : Nat) :
    ∀ (r : bit_reader_c) (n acc v : Nat) (r1 : bit_reader_c),
      (n ≠ 0 → n + (if r.m_bits_valid = 0 then 1 else 0) ≤ fuel) →
      get_bits_loop fuel r n acc = (.ok v, r1) →
      r1.bit_offset = r.bit_offset + n ∧ r1.data = r.data
        ∧ r1.m_out_of_data = r.m_out_of_data := by
  induction fuel with
  | zero =>
    intro r n acc v r1 hf h
    have hn : n = 0 := by
      by_contra hn
      have := hf hn
      omega
    subst hn
    simp only [get_bits_loop, Prod.mk.injEq] at h
    obtain ⟨-, rfl⟩ := h
    simp
  | succ fuel ih =>
    intro r n acc v r1 hf h
    rw [get_bits_loop] at h
    by_cases hn : n = 0
    · subst hn
      simp only [if_true, Prod.mk.injEq] at h
      obtain ⟨-, rfl⟩ := h
      simp
    · have hfn := hf hn
      by_cases hp : r.m_byte_position ≥ r.data.length
      · simp [hn, hp] at h
      · simp only [hn, hp, if_false] at h
        by_cases h0 : r.m_bits_valid - min (min 8 n) r.m_bits_valid = 0
        · rw [if_pos h0] at h
          obtain ⟨e1, e2, e3⟩ := ih _ _ _ _ _ (by
            intro _
            simp only [show (8 : Nat) ≠ 0 by decide, if_false]
            split at hfn <;> omega) h
          refine ⟨?_, e2, e3⟩
          rw [e1]
          simp only [bit_offset]
          omega
        · rw [if_neg h0] at h
          obtain ⟨e1, e2, e3⟩ := ih _ _ _ _ _ (by
            intro _
            simp only [h0, if_false]
            split at hfn <;> omega) h
          refine ⟨?_, e2, e3⟩
          rw [e1]
          simp only [bit_offset]
          omega

/-- The bound on the number of passes is never reached: with `n + 1` passes
allowed, or more, the loop of `get_bits` returns the same from every state. -/
theorem get_bits_loop_fuel (fuel : Nat) :
    ∀ (r : bit_reader_c) (n acc : Nat),
      (n ≠ 0 → n + (if r.m_bits_valid = 0 then 1 else 0) ≤ fuel) →
      get_bits_loop (fuel + 1) r n acc = get_bits_loop fuel r n acc := by
  induction fuel with
  | zero =>
    intro r n acc hf
    have hn : n = 0 := by
      by_contra hn
      have := hf hn
      omega
    subst hn
    simp [get_bits_loop]
  | succ fuel ih =>
    intro r n acc hf
    rw [get_bits_loop, get_bits_loop.eq_def fuel.succ]
    by_cases hn : n = 0
    · simp [hn]
    · have hfn := hf hn
      by_cases hp : r.m_byte_position ≥ r.data.length
      · simp [hn, hp]
      · simp only [hn, hp, if_false]
        by_cases h0 : r.m_bits_valid - min (min 8 n) r.m_bits_valid = 0
        · rw [if_pos h0, if_pos h0]
          apply ih
          intro _
          simp only [show (8 : Nat) ≠ 0 by decide, if_false]
          split at hfn <;> omega
        · rw [if_neg h0, if_neg h0]
          apply ih
          intro _
          simp only [h0, if_false]
          split at hfn <;> omega

end bit_reader_c

namespace bit_reader_c

/-- A successful loop of `get_bits` that had bits to read ends inside the
buffer or at its end. -/
theorem get_bits_loop_inside (fuel : Nat) :
    ∀ (r : bit_reader_c) (n acc v : Nat) (r1 : bit_reader_c), n ≠ 0 →
      n + (if r.m_bits_valid = 0 then 1 else 0) ≤ fuel →
      get_bits_loop fuel r n acc = (.ok v, r1) →
      r1.m_byte_position ≤ r1.data.length := by
  induction fuel with
  | zero => intro r n acc v r1 hn hf h; omega
  | succ fuel ih =>
    intro r n acc v r1 hn hf h
    rw [get_bits_loop] at h
    by_cases hp : r.m_byte_position ≥ r.data.length
    · simp [hn, hp] at h
    · simp only [hn, hp, if_false] at h
      by_cases hn1 : n - min (min 8 n) r.m_bits_valid = 0
      · rw [hn1] at h
        have hdone : ∀ (s : bit_reader_c) (a : Nat), get_bits_loop fuel s 0 a = (.ok a, s) := by
          intro s a
          cases fuel <;> simp [get_bits_loop]
        simp only [hdone] at h
        split at h
        · simp only [Prod.mk.injEq] at h
          obtain ⟨-, rfl⟩ := h
          simp only
          omega
        · simp only [Prod.mk.injEq] at h
          obtain ⟨-, rfl⟩ := h
          simp only
          omega
      · by_cases h0 : r.m_bits_valid - min (min 8 n) r.m_bits_valid = 0
        · rw [if_pos h0] at h
          exact ih _ _ _ _ _ hn1 (by
            simp only [show (8 : Nat) ≠ 0 by decide, if_false]
            split at hf <;> omega) h
        · rw [if_neg h0] at h
          exact ih _ _ _ _ _ hn1 (by
            simp only [h0, if_false]
            split at hf <;> omega) h

/-- A successful `get_bit` leaves one pass less to allow for. -/
theorem golomb_fuel_get_bit (r r1 : bit_reader_c) (bit : Nat) (h : r.get_bit = (.ok bit, r1)) :
    r1.golomb_fuel < r.golomb_fuel := by
  have hf : 1 + (if r.m_bits_valid = 0 then 1 else 0) ≤ 1 + 1 := by split <;> omega
  obtain ⟨hpos, hdata, -⟩ := get_bits_loop_position 2 r 1 0 bit r1 (fun _ => hf) h
  have hin := get_bits_loop_inside 2 r 1 0 bit r1 (by decide) hf h
  have hlt : r.m_byte_position < r.data.length := by
    by_contra hge
    rw [get_bit, get_bits, get_bits_loop] at h
    simp [Nat.not_lt.mp hge] at h
  simp only [bit_offset] at hpos
  simp only [golomb_fuel]
  rw [hdata] at hin ⊢
  omega

/-- The bound on the number of passes of the loop of `get_unsigned_golomb` is
never reached: allowing more passes than `golomb_fuel` returns the same, from
every state. -/
theorem golomb_zeros_fuel (m : Nat) :
    ∀ (r : bit_reader_c) (k f1 f2 : Nat), r.golomb_fuel ≤ m → r.golomb_fuel ≤ f1 →
      r.golomb_fuel ≤ f2 → golomb_zeros f1 r k = golomb_zeros f2 r k := by
  induction m with
  | zero => intro r k f1 f2 hm; simp only [golomb_fuel] at hm; omega
  | succ m ih =>
    intro r k f1 f2 hm h1 h2
    have hpos : 1 ≤ r.golomb_fuel := by simp only [golomb_fuel]; omega
    obtain ⟨f1, rfl⟩ : ∃ f, f1 = f + 1 := ⟨f1 - 1, by omega⟩
    obtain ⟨f2, rfl⟩ : ∃ f, f2 = f + 1 := ⟨f2 - 1, by omega⟩
    rw [golomb_zeros, golomb_zeros]
    rcases hg : r.get_bit with ⟨_ | bit, r1⟩
    · rfl
    · simp only
      have hlt := golomb_fuel_get_bit r r1 bit hg
      split
      · exact ih r1 (k + 1) f1 f2 (by omega) (by omega) (by omega)
      · rfl

end bit_reader_c

/-! ## Representation of a value by its bits -/

theorem be_bits_length (n x : Nat) : (be_bits n x).length = n := by
  simp [be_bits]

theorem be_value_be_bits (n x : Nat) : be_value (be_bits n x) = x % 2 ^ n := by
  have h := be_value_testBit_range x 0 n
  simp only [Nat.zero_add, pow_zero, Nat.div_one] at h
  exact h

theorem be_bits_succ (m y : Nat) : be_bits (m + 1) y = be_bits m (y / 2) ++ [y.testBit 0] := by
  simp only [be_bits, List.range_succ, List.map_append, List.map_singleton]
  congr 1
  · apply List.map_congr_left
    intro k hk
    have hk' : k < m := List.mem_range.mp hk
    have : m + 1 - 1 - k = (m - 1 - k) + 1 := by omega
    rw [this, Nat.testBit_succ]
  · simp

theorem be_bits_be_value (l : List Bool) : be_bits l.length (be_value l) = l := by
  induction l using List.reverseRecOn with
  | nil => rfl
  | append_singleton l b ih =>
    rw [List.length_append, List.length_singleton, be_bits_succ, be_value_append_one]
    have hb : b.toNat ≤ 1 := by cases b <;> simp
    have h1 : (2 * be_value l + b.toNat) / 2 = be_value l := by omega
    have h2 : (2 * be_value l + b.toNat).testBit 0 = b := by
      rw [Nat.testBit_zero]
      cases b
      · simp only [Bool.toNat_false, Nat.add_zero, decide_eq_false_iff_not]
        omega
      · simp only [Bool.toNat_true, decide_eq_true_eq]
        omega
    rw [h1, h2, ih]

theorem be_value_bits_from_lt (data : List (Fin 256)) (p n : Nat) :
    be_value (bits_from data p n) < 2 ^ n := by
  have := be_value_lt (bits_from data p n)
  rwa [bits_from_length] at this

/-! ## The reader stays in a valid state -/

namespace bit_reader_c

theorem valid_init (data : List (Fin 256)) : (init data).valid := by
  simp only [valid, init]
  refine ⟨Nat.zero_le _, ?_, ?_⟩
  · split <;> omega
  · intro h
    rw [if_pos (by omega)]
    omega

theorem valid_at_bit (r : bit_reader_c) (q : Nat) (hq : q ≤ 8 * r.data.length) :
    (r.at_bit q).valid := by
  simp only [valid, at_bit]
  omega

theorem valid_get_bits (r : bit_reader_c) (n : Nat) (hv : r.valid) : (r.get_bits n).2.valid := by
  by_cases h : r.bits_left < n
  · by_cases hn : n = 0
    · subst hn
      simpa [get_bits, get_bits_loop] using hv
    · rw [get_bits_raise r hv n (by omega) h]
      simp only [valid]
      refine ⟨le_refl _, ?_, fun h => absurd h (lt_irrefl _)⟩
      split
      · omega
      · exact hv.2.1
  · have hrem := bits_left_eq r
    have hpos : 0 ≤ r.bit_offset := by
      simp only [bit_offset]
      have := hv.2.1
      omega
    obtain ⟨p, hp⟩ := Int.eq_ofNat_of_zero_le hpos
    rw [get_bits_ok r hv p n hp (by omega)]
    exact valid_at_bit r _ (by omega)

theorem valid_set_bit_position (r : bit_reader_c) (pos : Nat) (hv : r.valid) :
    (r.set_bit_position pos).2.valid := by
  simp only [set_bit_position]
  split
  · exact ⟨le_refl _, hv.2.1, fun h => absurd h (lt_irrefl _)⟩
  · simp only [valid]
    omega

end bit_reader_c

namespace bit_reader_c

/-- For `n ≥ 1`, `get_bits n` raises exactly when fewer than `n` bits are
left. -/
theorem get_bits_error_iff (r : bit_reader_c) (n : Nat) (hv : r.valid) (hn : 1 ≤ n) :
    (r.get_bits n).1 = .error .end_of_file_x ↔ r.bits_left < n := by
  by_cases h : r.bits_left < n
  · rw [get_bits_raise r hv n hn h]
    exact ⟨fun _ => h, fun _ => rfl⟩
  · have hrem := bits_left_eq r
    have hpos : 0 ≤ r.bit_offset := by
      simp only [bit_offset]
      have := hv.2.1
      omega
    obtain ⟨p, hp⟩ := Int.eq_ofNat_of_zero_le hpos
    rw [get_bits_ok r hv p n hp (by omega)]
    exact ⟨fun he => by simp at he, fun hlt => absurd hlt h⟩

end bit_reader_c

/-! ## Reading Exp-Golomb code words -/

theorem floor_log2_aux_spec (fuel : Nat) :
    ∀ x, x ≤ fuel → 1 ≤ x →
      2 ^ floor_log2_aux fuel x ≤ x ∧ x < 2 ^ (floor_log2_aux fuel x + 1) := by
  induction fuel with
  | zero => intro x h0 h1; omega
  | succ fuel ih =>
    intro x hx h1
    rw [floor_log2_aux]
    by_cases h2 : x < 2
    · rw [if_pos h2]
      simp only [pow_zero, Nat.zero_add, pow_one]
      omega
    · rw [if_neg h2]
      obtain ⟨ha, hb⟩ := ih (x / 2) (by omega) (by omega)
      rw [pow_succ] at hb ⊢
      rw [pow_succ]
      omega

theorem floor_log2_spec (x : Nat) (h1 : 1 ≤ x) :
    2 ^ floor_log2 x ≤ x ∧ x < 2 ^ (floor_log2 x + 1) :=
  floor_log2_aux_spec x x (le_refl x) h1

theorem bits_from_succ_left (data : List (Fin 256)) (p n : Nat) :
    bits_from data p (n + 1) = bit_at data p :: bits_from data (p + 1) n := by
  have h1 : List.range 1 = [0] := rfl
  rw [Nat.add_comm n 1, bits_from_add]
  simp [bits_from, h1]

theorem bits_from_of_isPrefix (data : List (Fin 256)) (p m : Nat) (l : List Bool)
    (h : l <+: bits_from data p m) : l.length ≤ m ∧ bits_from data p l.length = l := by
  have hlen : l.length ≤ m := by
    have := h.length_le
    rwa [bits_from_length] at this
  refine ⟨hlen, ?_⟩
  have htake := List.prefix_iff_eq_take.mp h
  have hm : m = l.length + (m - l.length) := by omega
  rw [hm, bits_from_add, List.take_left' (bits_from_length data p l.length)] at htake
  exact htake.symm

namespace bit_reader_c

theorem get_bit_at (r : bit_reader_c) (q : Nat) (hq : q < 8 * r.data.length) :
    (r.at_bit q).get_bit = (.ok (bit_at r.data q).toNat, r.at_bit (q + 1)) := by
  have h := get_bits_ok (r.at_bit q) (valid_at_bit r q (by omega)) q 1
    (bit_offset_at_bit r q) (by simpa [at_bit] using hq)
  have hval : be_value (bits_from r.data q 1) % 2 ^ 64 = (bit_at r.data q).toNat := by
    have h1 : List.range 1 = [0] := rfl
    have : be_value (bits_from r.data q 1) = (bit_at r.data q).toNat := by
      simp [bits_from, be_value, h1]
    rw [this]
    cases bit_at r.data q <;> simp
  rw [get_bit, h]
  simp only [at_bit] at hval ⊢
  rw [hval]

/-- The loop of `get_unsigned_golomb` over `n` zero bits followed by a one
bit: it returns `n` more than the counter it started with and stops behind
the one bit. -/
theorem golomb_zeros_at (r : bit_reader_c) (n : Nat) :
    ∀ (fuel q k : Nat), n < fuel → q + n < 8 * r.data.length →
      bits_from r.data q n = List.replicate n false → bit_at r.data (q + n) = true →
      golomb_zeros fuel (r.at_bit q) k = (.ok (k + n), r.at_bit (q + n + 1)) := by
  induction n with
  | zero =>
    intro fuel q k hf hq _ h1
    obtain ⟨fuel, rfl⟩ : ∃ f, fuel = f + 1 := ⟨fuel - 1, by omega⟩
    rw [golomb_zeros, get_bit_at r q (by omega)]
    simp only [Nat.add_zero] at h1 ⊢
    simp [h1]
  | succ n ih =>
    intro fuel q k hf hq hz h1
    obtain ⟨fuel, rfl⟩ : ∃ f, fuel = f + 1 := ⟨fuel - 1, by omega⟩
    rw [bits_from_succ_left, List.replicate_succ, List.cons.injEq] at hz
    rw [golomb_zeros, get_bit_at r q (by omega)]
    simp only [hz.1, Bool.toNat_false, if_true]
    have h := ih fuel (q + 1) (k + 1) (by omega) (by omega) hz.2
      (by rwa [show q + 1 + n = q + (n + 1) by omega])
    rw [h]
    congr 2 <;> omega

/-- `get_unsigned_golomb` over `n ≤ 31` zero bits, a one bit and `n` more
bits. -/
theorem get_unsigned_golomb_at (r : bit_reader_c) (q n : Nat) (hn : n ≤ 31)
    (hfit : q + 2 * n + 1 ≤ 8 * r.data.length)
    (hz : bits_from r.data q n = List.replicate n false) (h1 : bit_at r.data (q + n) = true) :
    (r.at_bit q).get_unsigned_golomb
      = (.ok (2 ^ n - 1 + be_value (bits_from r.data (q + n + 1) n)),
          r.at_bit (q + 2 * n + 1)) := by
  have hfuel : n < golomb_fuel (r.at_bit q) := by
    simp only [golomb_fuel, at_bit]
    omega
  have hzeros := golomb_zeros_at r n (golomb_fuel (r.at_bit q)) q 0 hfuel (by omega) hz h1
  have hbits := get_bits_ok (r.at_bit (q + n + 1)) (valid_at_bit r _ (by omega)) (q + n + 1) n
    (bit_offset_at_bit r _) (by simp only [at_bit]; omega)
  have hlt := be_value_bits_from_lt r.data (q + n + 1) n
  have hpow : (2 : Nat) ^ n ≤ 2 ^ 31 := Nat.pow_le_pow_right (by decide) hn
  have hpos : 1 ≤ (2 : Nat) ^ n := Nat.one_le_two_pow
  have hmod : be_value (bits_from r.data (q + n + 1) n) % 2 ^ 64
      = be_value (bits_from r.data (q + n + 1) n) := Nat.mod_eq_of_lt (by omega)
  have hshift : shl_unsigned_one n = some (2 ^ n) := by
    simp only [shl_unsigned_one, Nat.shiftLeft_eq, Nat.one_mul]
    rw [if_pos (by omega), Nat.mod_eq_of_lt (by omega)]
  have hdata : (r.at_bit (q + n + 1)).data = r.data := rfl
  have hstate : (r.at_bit (q + n + 1)).at_bit (q + n + 1 + n) = r.at_bit (q + 2 * n + 1) := by
    rw [show q + n + 1 + n = q + 2 * n + 1 by omega]
    rfl
  have hsum : ((2 ^ n + 2 ^ 32 - 1) % 2 ^ 32 + be_value (bits_from r.data (q + n + 1) n)) % 2 ^ 64
      = 2 ^ n - 1 + be_value (bits_from r.data (q + n + 1) n) := by
    generalize be_value (bits_from r.data (q + n + 1) n) = s at hlt ⊢
    generalize (2 : Nat) ^ n = x at hpow hpos hlt ⊢
    omega
  rw [hdata, hmod, hstate] at hbits
  rw [get_unsigned_golomb, hzeros]
  simp only [Nat.zero_add, hbits, hshift, hsum]

end bit_reader_c

theorem bits_from_one (data : List (Fin 256)) (p : Nat) : bits_from data p 1 = [bit_at data p] := by
  have h1 : List.range 1 = [0] := rfl
  simp [bits_from, h1]

theorem exp_golomb_code_length (v : Nat) :
    (exp_golomb_code v).length = 2 * floor_log2 (v + 1) + 1 := by
  simp only [exp_golomb_code, List.length_append, List.length_replicate, List.length_singleton,
    be_bits_length]
  omega

/-- What a valid reader has in front of it when its unread bits start with a
given non-empty list. -/
theorem unread_bits_start (r : bit_reader_c) (hv : r.valid) (code : List Bool)
    (hne : 1 ≤ code.length) (h : code <+: unread_bits r) :
    ∃ p : Nat, r.bit_offset = p ∧ p + code.length ≤ 8 * r.data.length
      ∧ bits_from r.data p code.length = code := by
  obtain ⟨hlen, hbits⟩ := bits_from_of_isPrefix _ _ _ _ h
  have hrem := bit_reader_c.bits_left_eq r
  have hpos : 0 ≤ r.bit_offset := by
    simp only [bit_reader_c.bit_offset]
    have := hv.2.1
    omega
  obtain ⟨p, hp⟩ := Int.eq_ofNat_of_zero_le hpos
  refine ⟨p, hp, ?_, ?_⟩
  · omega
  · rw [hp] at hbits
    exact hbits

/-- Decoding the code word of `v` when it starts at the cursor. -/
theorem bit_reader_c.get_unsigned_golomb_code (r : bit_reader_c) (hv : r.valid) (v p : Nat)
    (hlim : v < 2 ^ 32 - 1) (hp : r.bit_offset = p)
    (hfit : p + (exp_golomb_code v).length ≤ 8 * r.data.length)
    (hbits : bits_from r.data p (exp_golomb_code v).length = exp_golomb_code v) :
    r.get_unsigned_golomb = (.ok v, r.at_bit (p + (exp_golomb_code v).length)) := by
  obtain ⟨hlo, hhi⟩ := floor_log2_spec (v + 1) (by omega)
  have hn : floor_log2 (v + 1) ≤ 31 := by
    by_contra hcon
    have : (2 : Nat) ^ 32 ≤ 2 ^ floor_log2 (v + 1) := Nat.pow_le_pow_right (by decide) (by omega)
    omega
  rw [exp_golomb_code_length] at hfit hbits ⊢
  generalize hnd : floor_log2 (v + 1) = n at *
  have hsplit : bits_from r.data p (2 * n + 1)
      = bits_from r.data p n ++ ([bit_at r.data (p + n)] ++ bits_from r.data (p + n + 1) n) := by
    rw [show 2 * n + 1 = n + (1 + n) by omega, bits_from_add, bits_from_add, bits_from_one]
  have hcode : exp_golomb_code v
      = List.replicate n false ++ ([true] ++ be_bits n (v + 1 - 2 ^ n)) := by
    simp only [exp_golomb_code, hnd, List.append_assoc]
  rw [hsplit, hcode] at hbits
  obtain ⟨hz, hrest⟩ := List.append_inj hbits (by simp [bits_from_length])
  obtain ⟨hone, hsuffix⟩ := List.append_inj hrest (by simp)
  have h1 : bit_at r.data (p + n) = true := by simpa using hone
  have hgol := bit_reader_c.get_unsigned_golomb_at r p n hn (by omega) hz h1
  rw [bit_reader_c.eq_at_bit r hv p hp (by omega), hsuffix, be_value_be_bits,
    Nat.mod_eq_of_lt (by omega)] at hgol
  rw [hgol]
  congr 2
  have : 1 ≤ (2 : Nat) ^ n := Nat.one_le_two_pow
  omega

/-! ## Reading bits -/

namespace bit_reader_c

theorem get_remaining_bits_at_bit (r : bit_reader_c) (q : Nat) :
    (r.at_bit q).get_remaining_bits = to_int32 (8 * (r.data.length : Int) - q) := by
  simp only [get_remaining_bits, bits_left_eq, bit_offset_at_bit]
  rfl

end bit_reader_c

theorem bigger_buffer_length : bigger_buffer.length = 2 ^ 28 + 1 := by
  unfold bigger_buffer
  exact List.length_replicate _ _

theorem huge_buffer_length : huge_buffer.length = 2 ^ 32 + 1 := by
  unfold huge_buffer
  exact List.length_replicate _ _

theorem to_int32_wrap : to_int32 (2 ^ 31) = -(2 ^ 31) := by
  decide

/-- C6, as stated, fails: over the one-byte buffer `0xB5`, `get_bits 16`
raises after the first byte has been consumed, and leaves the reader at bit
position 8 instead of 0. -/
theorem get_bits_failure_not_atomic :
    ((bit_reader_c.init [0xB5]).get_bits 16).1 = .error .end_of_file_x
      ∧ (bit_reader_c.init [0xB5]).m_byte_position = 0
      ∧ ((bit_reader_c.init [0xB5]).get_bits 16).2.m_byte_position = 1
      ∧ (bit_reader_c.init [0xB5]).get_bit_position = 0
      ∧ ((bit_reader_c.init [0xB5]).get_bits 16).2.get_bit_position = 8 := by
  decide

/-- C6, amended: a `get_bits` that raises leaves the reader at the end of the
buffer with `eof()` true. The cursor is what it was before the call when the
byte position was already at the end; otherwise every bit that was still
unread has been consumed. -/
theorem get_bits_failure_cursor (r : bit_reader_c) (n : Nat) (hv : r.valid)
    (h : (r.get_bits n).1 = .error .end_of_file_x) :
    (r.get_bits n).2.eof = true
      ∧ (r.get_bits n).2.data = r.data
      ∧ (r.get_bits n).2.m_byte_position = r.data.length
      ∧ (r.m_byte_position = r.data.length →
          (r.get_bits n).2.m_byte_position = r.m_byte_position
            ∧ (r.get_bits n).2.m_bits_valid = r.m_bits_valid)
      ∧ (r.m_byte_position < r.data.length →
          (r.get_bits n).2.m_bits_valid = 8 ∧ (r.get_bits n).2.get_remaining_bits = 0) := by
  have hn : 1 ≤ n := by
    by_contra h0
    have : n = 0 := by omega
    subst this
    simp [bit_reader_c.get_bits, bit_reader_c.get_bits_loop] at h
  have hrem : r.bits_left < n := (bit_reader_c.get_bits_error_iff r n hv hn).1 h
  rw [bit_reader_c.get_bits_raise r hv n hn hrem]
  refine ⟨rfl, rfl, rfl, fun he => ⟨he.symm, ?_⟩, fun hlt => ⟨?_, ?_⟩⟩
  · simp [he]
  · simp [hlt]
  · simp only [bit_reader_c.get_remaining_bits, bit_reader_c.bits_left, hlt, if_true, to_int32]
    omega

/-- The amended C6 on the one-byte buffer `0xB5`: after the failed
`get_bits 16` no unread bit remains. -/
theorem get_bits_failure_cursor_witness :
    ((bit_reader_c.init [0xB5]).get_bits 16).2.eof = true
      ∧ ((bit_reader_c.init [0xB5]).get_bits 16).2.m_byte_position = 1 :=
  have h := get_bits_failure_cursor (bit_reader_c.init [0xB5]) 16 (by decide) (by decide)
  ⟨h.1, h.2.2.1⟩

/-! ## Peeking -/

/-- C7: `peek_bits` and `get_bits` agree. From every state, `peek_bits n`
raises exactly when `get_bits n` does; when it returns a value, the
`get_bits n` that follows it returns the same value and leaves the cursor
`n` bits further than it was before the `peek_bits`, whatever the length of
the buffer. -/
theorem peek_bits_agrees_with_get_bits (r : bit_reader_c) (n : Nat) :
    ((r.peek_bits n).1 = .error .end_of_file_x ↔ (r.get_bits n).1 = .error .end_of_file_x)
      ∧ (∀ v, (r.peek_bits n).1 = .ok v →
          ((r.peek_bits n).2.get_bits n).1 = .ok v
            ∧ ((r.peek_bits n).2.get_bits n).2.bit_offset = r.bit_offset + n) := by
  have hpeek : (r.peek_bits n).1 = (r.get_bits n).1 :=
    bit_reader_c.peek_bits_loop_eq (n + 1) r n 0
  have hsame : (r.peek_bits n).2 = r := rfl
  rw [hpeek, hsame]
  refine ⟨Iff.rfl, fun v hv => ⟨hv, ?_⟩⟩
  have hpair : r.get_bits n = (.ok v, (r.get_bits n).2) := by
    rw [← hv]
  exact (bit_reader_c.get_bits_loop_position (n + 1) r n 0 v _
    (fun _ => by split <;> omega) hpair).1

/-- C7 on the one-byte buffer `0xB5`: peeking 3 bits and then reading 3 bits
gives 5 both times and leaves the reader at bit position 3. -/
theorem peek_bits_agrees_with_get_bits_witness :
    ((bit_reader_c.init [0xB5]).peek_bits 3).1 = .ok 5
      ∧ (((bit_reader_c.init [0xB5]).peek_bits 3).2.get_bits 3).1 = .ok 5
      ∧ (((bit_reader_c.init [0xB5]).peek_bits 3).2.get_bits 3).2.bit_offset
          = (bit_reader_c.init [0xB5]).bit_offset + (3 : Nat)
      ∧ (((bit_reader_c.init [0xB5]).peek_bits 3).2.get_bits 3).2.get_bit_position = 3 :=
  have h := (peek_bits_agrees_with_get_bits (bit_reader_c.init [0xB5]) 3).2 5 (by decide)
  ⟨by decide, h.1, h.2, by decide⟩

/-- C8: `peek_bits` changes nothing. Whether it returns a value or raises,
the byte position, `m_bits_valid` and the flag behind `eof()` are what they
were before the call. -/
theorem peek_bits_changes_nothing (r : bit_reader_c) (n : Nat) :
    (r.peek_bits n).2.m_byte_position = r.m_byte_position
      ∧ (r.peek_bits n).2.m_bits_valid = r.m_bits_valid
      ∧ (r.peek_bits n).2.eof = r.eof
      ∧ (r.peek_bits n).2.data = r.data :=
  ⟨rfl, rfl, rfl, rfl⟩

/-! ## Positioning -/

/-- The state after `init`. `m_bits_valid` is 8 for a non-empty buffer
and 0 for an empty one, and `eof()` tells whether the buffer is empty. For a
non-empty buffer of `len` bytes `get_bit_position()` returns 0, and
`get_remaining_bits()` returns `8 * len` when the buffer is shorter than
`2 ^ 28` bytes; for the empty buffer the two calls return 8 and -8. -/
theorem init_state (data : List (Fin 256)) :
    (bit_reader_c.init data).m_bits_valid = (if data.length > 0 then 8 else 0)
      ∧ (bit_reader_c.init data).eof = decide (data.length = 0)
      ∧ (data.length > 0 →
          (bit_reader_c.init data).get_bit_position = 0
            ∧ (data.length < 2 ^ 28 →
                (bit_reader_c.init data).get_remaining_bits = 8 * (data.length : Int)))
      ∧ (data.length = 0 →
          (bit_reader_c.init data).get_bit_position = 8
            ∧ (bit_reader_c.init data).get_remaining_bits = -8) := by
  simp only [bit_reader_c.init, bit_reader_c.eof, bit_reader_c.get_bit_position,
    bit_reader_c.get_remaining_bits, bit_reader_c.bit_offset, bit_reader_c.bits_left]
  refine ⟨?_, ?_, ?_, ?_⟩
  · by_cases h : data.length = 0
    · simp [h]
    · have hpos : 0 < data.length := by omega
      simp [h, hpos]
  · by_cases h : data.length = 0 <;> simp [h]
  · intro h
    rw [if_pos (by omega)]
    constructor
    · decide
    · intro hsize
      simp only [to_int32]
      omega
  · intro h
    rw [if_neg (by omega), h]
    constructor <;> decide

/-- C10 at the empty buffer: right after `init`, `get_bit_position()` is 8,
`get_remaining_bits()` is -8, and `set_bit_position` rejects the position the
reader reports; after `set_bit_position 0` the two calls return 0. -/
theorem init_empty_buffer :
    (bit_reader_c.init []).m_bits_valid = 0
      ∧ (bit_reader_c.init []).eof = true
      ∧ (bit_reader_c.init []).get_bit_position = 8
      ∧ (bit_reader_c.init []).get_remaining_bits = -8
      ∧ ((bit_reader_c.init []).set_bit_position 8).1 = .error .end_of_file_x
      ∧ ((bit_reader_c.init []).set_bit_position 0).2.get_bit_position = 0
      ∧ ((bit_reader_c.init []).set_bit_position 0).2.get_remaining_bits = 0 := by
  decide

/-! ## Exp-Golomb codes -/

/-- C3, as stated, fails: the code words of `2 ^ 32 - 1` and of `2 ^ 33 - 1`
(32 and 33 zero bits, a one bit, 32 and 33 suffix bits) are not decoded to
those values; `get_unsigned_golomb` computes `1u << n` on 32 bits. -/
theorem get_unsigned_golomb_large_value :
    (exp_golomb_code (2 ^ 32 - 1) <+: unread_bits (bit_reader_c.init [0, 0, 0, 0, 0x80, 0, 0, 0, 0])
        ∧ (bit_reader_c.init [0, 0, 0, 0, 0x80, 0, 0, 0, 0]).get_unsigned_golomb.1
            ≠ .ok (2 ^ 32 - 1))
      ∧ (exp_golomb_code (2 ^ 33 - 1)
            <+: unread_bits (bit_reader_c.init [0, 0, 0, 0, 0x40, 0, 0, 0, 0])
        ∧ (bit_reader_c.init [0, 0, 0, 0, 0x40, 0, 0, 0, 0]).get_unsigned_golomb.1
            ≠ .ok (2 ^ 33 - 1)) := by
  decide

/-- C3, amended: unsigned Exp-Golomb round trip for the values whose code
word has at most 31 leading zero bits. For every `v < 2 ^ 32 - 1`, when the
unread bits of the reader start with the code word of `v`,
`get_unsigned_golomb` returns `v` and has consumed exactly the code word. -/
theorem get_unsigned_golomb_round_trip (r : bit_reader_c) (v : Nat) (hv : r.valid)
    (hlim : v < 2 ^ 32 - 1) (hcode : exp_golomb_code v <+: unread_bits r) :
    r.get_unsigned_golomb.1 = .ok v
      ∧ r.get_unsigned_golomb.2.bit_offset
          = r.bit_offset + (exp_golomb_code v).length := by
  obtain ⟨p, hp, hfit, hbits⟩ := unread_bits_start r hv _
    (by rw [exp_golomb_code_length]; omega) hcode
  rw [bit_reader_c.get_unsigned_golomb_code r hv v p hlim hp hfit hbits, hp,
    bit_reader_c.bit_offset_at_bit]
  exact ⟨rfl, by push_cast; rfl⟩

/-- The example of C3: the value 4 has the code word `00101`, and decoding
`00101` returns 4. -/
theorem get_unsigned_golomb_round_trip_witness :
    exp_golomb_code 4 = [false, false, true, false, true]
      ∧ (bit_reader_c.init [0x28]).get_unsigned_golomb.1 = .ok 4 :=
  ⟨by decide,
   (get_unsigned_golomb_round_trip (bit_reader_c.init [0x28]) 4 (by decide) (by decide)
      (by decide)).1⟩

/-- C4, as stated, fails: the code words of the signed values `2 ^ 31` and
`2 ^ 32` (coded as `2 ^ 32 - 1` and `2 ^ 33 - 1`) are not decoded to those
values. -/
theorem get_signed_golomb_large_value :
    (exp_golomb_code (signed_golomb_index (2 ^ 31))
          <+: unread_bits (bit_reader_c.init [0, 0, 0, 0, 0x80, 0, 0, 0, 0])
        ∧ (bit_reader_c.init [0, 0, 0, 0, 0x80, 0, 0, 0, 0]).get_signed_golomb.1 ≠ .ok (2 ^ 31))
      ∧ (exp_golomb_code (signed_golomb_index (2 ^ 32))
            <+: unread_bits (bit_reader_c.init [0, 0, 0, 0, 0x40, 0, 0, 0, 0])
        ∧ (bit_reader_c.init [0, 0, 0, 0, 0x40, 0, 0, 0, 0]).get_signed_golomb.1
            ≠ .ok (2 ^ 32)) := by
  decide

/-- C4, amended: signed Exp-Golomb round trip for `-2 ^ 31 < v < 2 ^ 31`.
When the unread bits of the reader start with the unsigned code word of the
signed mapping of `v`, `get_signed_golomb` returns `v` and has consumed
exactly the code word; the code word of 0 is the single bit `1`. -/
theorem get_signed_golomb_round_trip (r : bit_reader_c) (v : Int) (hv : r.valid)
    (hlo : -(2 ^ 31) < v) (hhi : v < 2 ^ 31)
    (hcode : exp_golomb_code (signed_golomb_index v) <+: unread_bits r) :
    r.get_signed_golomb.1 = .ok v
      ∧ r.get_signed_golomb.2.bit_offset
          = r.bit_offset + (exp_golomb_code (signed_golomb_index v)).length
      ∧ exp_golomb_code (signed_golomb_index 0) = [true] := by
  have hlim : signed_golomb_index v < 2 ^ 32 - 1 := by
    simp only [signed_golomb_index]
    split <;> omega
  obtain ⟨p, hp, hfit, hbits⟩ := unread_bits_start r hv _
    (by rw [exp_golomb_code_length]; omega) hcode
  have hgol := bit_reader_c.get_unsigned_golomb_code r hv _ p hlim hp hfit hbits
  have h64 : to_int64 (signed_golomb_index v) = (signed_golomb_index v : Int) := by
    simp only [to_int64]
    rw [Nat.mod_eq_of_lt (by omega), if_pos (by omega)]
  have hval : (if to_int64 (signed_golomb_index v) % 2 ≠ 0
        then Int.tdiv (to_int64 (signed_golomb_index v) + 1) 2
        else -(Int.tdiv (to_int64 (signed_golomb_index v)) 2)) = v := by
    rw [h64, Int.tdiv_eq_ediv (by omega) (by decide), Int.tdiv_eq_ediv (by omega) (by decide)]
    simp only [signed_golomb_index]
    split <;> split <;> omega
  have hs : r.get_signed_golomb
      = (.ok v, r.at_bit (p + (exp_golomb_code (signed_golomb_index v)).length)) := by
    simp only [bit_reader_c.get_signed_golomb, hgol, hval]
  rw [hs]
  refine ⟨rfl, ?_, by decide⟩
  rw [hp, bit_reader_c.bit_offset_at_bit]
  push_cast
  rfl

/-- C4 on concrete buffers: `-3` is coded as 6, with code word `00111`, and
is decoded from it; a reader whose next bit is 1 returns 0 and is one bit
further. -/
theorem get_signed_golomb_round_trip_witness :
    (bit_reader_c.init [0x38]).get_signed_golomb.1 = .ok (-3)
      ∧ (bit_reader_c.init [0x80]).get_signed_golomb.1 = .ok 0
      ∧ (bit_reader_c.init [0x80]).get_signed_golomb.2.bit_offset
          = (bit_reader_c.init [0x80]).bit_offset
            + ((exp_golomb_code (signed_golomb_index 0)).length : Nat) :=
  ⟨(get_signed_golomb_round_trip (bit_reader_c.init [0x38]) (-3) (by decide) (by decide)
      (by decide) (by decide)).1,
   (get_signed_golomb_round_trip (bit_reader_c.init [0x80]) 0 (by decide) (by decide)
      (by decide) (by decide)).1,
   (get_signed_golomb_round_trip (bit_reader_c.init [0x80]) 0 (by decide) (by decide)
      (by decide) (by decide)).2.1⟩

/-! ## Writing bits -/

/-- C2 at width 32 and above. `put_bits 32 (2 ^ 32)` into a zeroed four-byte
buffer succeeds and sets the first bit, although the low 32 bits of the value
are all zero: `1 << 31` is a negative `int`, and its conversion to `uint64_t`
has the bits 31 to 63 set. Reading the 32 bits back gives `2 ^ 31`, not
`2 ^ 32 mod 2 ^ 32 = 0`. From width 33 on `put_bits` shifts a 32-bit `int` by
32 or more. -/
theorem put_bits_width_32 :
    ((bit_writer_c.create [0, 0, 0, 0]).put_bits 32 (2 ^ 32)).1 = .ok ()
      ∧ ((bit_writer_c.create [0, 0, 0, 0]).put_bits 32 (2 ^ 32)).2.data = [0x80, 0, 0, 0]
      ∧ ((bit_reader_c.init
            ((bit_writer_c.create [0, 0, 0, 0]).put_bits 32 (2 ^ 32)).2.data).get_bits 32).1
          = .ok (2 ^ 31)
      ∧ (2 : Nat) ^ 32 % 2 ^ 32 = 0
      ∧ ((bit_writer_c.create [0, 0, 0, 0, 0, 0, 0, 0]).put_bits 33 (2 ^ 32)).1
          = .error .undefined_shift := by
  decide

/-! ## Packets -/

/-- C11: frame classification by reference presence. `has_bref()` is
`bref >= 0` and `has_fref()` is `fref >= 0`; `is_key_frame()` holds iff
neither holds, `is_p_frame()` iff exactly one of them holds, whichever it is,
and `is_b_frame()` iff both hold. -/
theorem frame_classification (p : packet_t) :
    (p.has_bref = true ↔ 0 ≤ p.bref)
      ∧ (p.has_fref = true ↔ 0 ≤ p.fref)
      ∧ (p.is_key_frame = true ↔ ¬ p.has_bref = true ∧ ¬ p.has_fref = true)
      ∧ (p.is_p_frame = true ↔
          (p.has_bref = true ∧ ¬ p.has_fref = true) ∨ (¬ p.has_bref = true ∧ p.has_fref = true))
      ∧ (p.is_b_frame = true ↔ p.has_bref = true ∧ p.has_fref = true) := by
  refine ⟨by simp [packet_t.has_bref], by simp [packet_t.has_fref], ?_, ?_, ?_⟩
  · simp only [packet_t.is_key_frame]
    cases p.has_bref <;> cases p.has_fref <;> simp
  · simp only [packet_t.is_p_frame]
    cases p.has_bref <;> cases p.has_fref <;> simp
  · simp only [packet_t.is_b_frame]
    cases p.has_bref <;> cases p.has_fref <;> simp

/-- C12: the three frame classifications partition the packets. For every
packet at least one of `is_key_frame()`, `is_p_frame()`, `is_b_frame()` is
true and no two of them are. -/
theorem frame_classification_partition (p : packet_t) :
    (p.is_key_frame = true ∨ p.is_p_frame = true ∨ p.is_b_frame = true)
      ∧ ¬ (p.is_key_frame = true ∧ p.is_p_frame = true)
      ∧ ¬ (p.is_key_frame = true ∧ p.is_b_frame = true)
      ∧ ¬ (p.is_p_frame = true ∧ p.is_b_frame = true) := by
  simp only [packet_t.is_key_frame, packet_t.is_p_frame, packet_t.is_b_frame]
  cases p.has_bref <;> cases p.has_fref <;> simp

/-- C13: the effective duration never leaks the absent sentinel.
`get_duration()` is `duration` when `duration >= 0` and 0 when it is
negative, so it is never negative; it is 0 for a packet built by either
constructor without a duration. -/
theorem get_duration_spec (p : packet_t) :
    (0 ≤ p.duration → p.get_duration = p.duration)
      ∧ (p.duration < 0 → p.get_duration = 0)
      ∧ 0 ≤ p.get_duration
      ∧ packet_t.create.get_duration = 0
      ∧ (∀ (m : memory_cptr) (tc b f : Option Int),
          (packet_t.of_memory_cptr m tc none b f).get_duration = 0
            ∧ (packet_t.of_memory_c m tc none b f).get_duration = 0) := by
  refine ⟨fun h => ?_, fun h => ?_, ?_, by decide, fun m tc b f => ⟨?_, ?_⟩⟩
  · simp [packet_t.get_duration, packet_t.has_duration, h]
  · simp [packet_t.get_duration, packet_t.has_duration, h]
  · simp only [packet_t.get_duration, packet_t.has_duration]
    split
    · simp_all
    · exact le_refl 0
  · simp [packet_t.get_duration, packet_t.has_duration, packet_t.of_memory_cptr]
  · simp [packet_t.get_duration, packet_t.has_duration, packet_t.of_memory_c]

/-- C14: construction from a payload. Without optional arguments the four
time fields are -1, so that none of them is present and the packet is a key
frame, `time_factor` is 1 and the four flags are false; an optional argument
that is given is stored in the field of its name. Both constructors that
take a payload behave so. -/
theorem of_memory_defaults (m : memory_cptr) :
    ((packet_t.of_memory_cptr m none none none none).data = m
        ∧ (packet_t.of_memory_cptr m none none none none).timecode = -1
        ∧ (packet_t.of_memory_cptr m none none none none).duration = -1
        ∧ (packet_t.of_memory_cptr m none none none none).bref = -1
        ∧ (packet_t.of_memory_cptr m none none none none).fref = -1
        ∧ (packet_t.of_memory_cptr m none none none none).has_timecode = false
        ∧ (packet_t.of_memory_cptr m none none none none).has_duration = false
        ∧ (packet_t.of_memory_cptr m none none none none).has_bref = false
        ∧ (packet_t.of_memory_cptr m none none none none).has_fref = false
        ∧ (packet_t.of_memory_cptr m none none none none).is_key_frame = true
        ∧ (packet_t.of_memory_cptr m none none none none).time_factor = 1
        ∧ (packet_t.of_memory_cptr m none none none none).duration_mandatory = false
        ∧ (packet_t.of_memory_cptr m none none none none).superseeded = false
        ∧ (packet_t.of_memory_cptr m none none none none).gap_following = false
        ∧ (packet_t.of_memory_cptr m none none none none).factory_applied = false)
      ∧ (∀ tc d b f : Option Int,
          (packet_t.of_memory_cptr m tc d b f).timecode = tc.getD (-1)
            ∧ (packet_t.of_memory_cptr m tc d b f).duration = d.getD (-1)
            ∧ (packet_t.of_memory_cptr m tc d b f).bref = b.getD (-1)
            ∧ (packet_t.of_memory_cptr m tc d b f).fref = f.getD (-1))
      ∧ (∀ tc d b f : Int,
          (packet_t.of_memory_cptr m (some tc) (some d) (some b) (some f)).timecode = tc
            ∧ (packet_t.of_memory_cptr m (some tc) (some d) (some b) (some f)).duration = d
            ∧ (packet_t.of_memory_cptr m (some tc) (some d) (some b) (some f)).bref = b
            ∧ (packet_t.of_memory_cptr m (some tc) (some d) (some b) (some f)).fref = f)
      ∧ (∀ tc d b f : Option Int,
          packet_t.of_memory_c m tc d b f = packet_t.of_memory_cptr m tc d b f) := by
  refine ⟨?_, fun tc d b f => ⟨rfl, rfl, rfl, rfl⟩, fun tc d b f => ⟨rfl, rfl, rfl, rfl⟩,
    fun tc d b f => rfl⟩
  refine ⟨rfl, rfl, rfl, rfl, rfl, ?_, ?_, ?_, ?_, ?_, rfl, rfl, rfl, rfl, rfl⟩ <;>
    simp [packet_t.of_memory_cptr, packet_t.has_timecode, packet_t.has_duration,
      packet_t.has_bref, packet_t.has_fref, packet_t.is_key_frame]

/-- C15: `find_extension` returns the first match or none. The result is
`none` iff no extension of the packet has the type asked for; otherwise it is
an extension of that type before which the collection holds no extension of
that type; the packet is unchanged. -/
theorem find_extension_first_match (p : packet_t) (t : packet_extension_type_e) :
    ((p.find_extension t).1 = none ↔ ∀ e ∈ p.extensions, e.get_type ≠ t)
      ∧ (∀ e, (p.find_extension t).1 = some e →
          e.get_type = t
            ∧ ∃ before after, p.extensions = before ++ e :: after
                ∧ ∀ x ∈ before, x.get_type ≠ t)
      ∧ (p.find_extension t).2 = p := by
  refine ⟨?_, ?_, rfl⟩
  · simp only [packet_t.find_extension]
    generalize p.extensions = l
    induction l with
    | nil => simp [packet_t.find_extension_loop]
    | cons x l ih =>
      simp only [packet_t.find_extension_loop]
      by_cases hx : x.get_type = t
      · simp [hx]
      · simp [hx, ih]
  · simp only [packet_t.find_extension]
    generalize p.extensions = l
    induction l with
    | nil => intro e h; simp [packet_t.find_extension_loop] at h
    | cons x l ih =>
      intro e h
      simp only [packet_t.find_extension_loop] at h
      by_cases hx : x.get_type = t
      · rw [if_pos hx] at h
        obtain rfl := Option.some.inj h
        exact ⟨hx, [], l, rfl, by simp⟩
      · rw [if_neg hx] at h
        obtain ⟨ht, before, after, hl, hb⟩ := ih e h
        refine ⟨ht, x :: before, after, by simp [hl], ?_⟩
        intro y hy
        rcases List.mem_cons.mp hy with rfl | hy
        · exact hx
        · exact hb y hy

/-- C15 on a packet with two extensions of the same type: the first one in
the collection is returned, and none for a type that is not attached. -/
theorem find_extension_first_match_witness :
    ({ packet_t.create with
        extensions := [⟨.SUBTITLE_NUMBER, 1⟩, ⟨.MULTIPLE_TIMECODES, 2⟩,
          ⟨.MULTIPLE_TIMECODES, 3⟩] } : packet_t).find_extension .MULTIPLE_TIMECODES
        = (some ⟨.MULTIPLE_TIMECODES, 2⟩,
            { packet_t.create with
              extensions := [⟨.SUBTITLE_NUMBER, 1⟩, ⟨.MULTIPLE_TIMECODES, 2⟩,
                ⟨.MULTIPLE_TIMECODES, 3⟩] })
      ∧ (({ packet_t.create with
            extensions := [⟨.SUBTITLE_NUMBER, 1⟩, ⟨.MULTIPLE_TIMECODES, 2⟩,
              ⟨.MULTIPLE_TIMECODES, 3⟩] } : packet_t).find_extension
            .BEFORE_ADDING_TO_CLUSTER_CB).1 = none :=
  ⟨by decide,
   (find_extension_first_match _ .BEFORE_ADDING_TO_CLUSTER_CB).1.2 (by decide)⟩

/-! ## One bit of a byte, one bit of a buffer -/

theorem mask_eq_pow (k : Nat) (hk : k < 8) : 0x80 >>> k = 2 ^ (7 - k) := by
  interval_cases k <;> rfl

theorem find_mask (k : Nat) (hk : k < 8) :
    (List.range 8).find? (fun i => decide (0x80 >>> i = 0x80 >>> k)) = some k := by
  interval_cases k <;> decide

theorem testBit_complement (m j : Nat) (hm : m < 8) (hj : j < 8) :
    (2 ^ 64 - 1 - 2 ^ m).testBit j = decide (j ≠ m) := by
  interval_cases m <;> interval_cases j <;> decide

/-- The byte that `put_bit` stores differs from the old one in the bit under
the mask only, which is the bit handed in. -/
theorem byte_put_bit (x k j : Nat) (b : Bool) (hk : k < 8) (hj : j < 8) :
    ((if b then x ||| 0x80 >>> k else x &&& (2 ^ 64 - 1 - 0x80 >>> k)) % 256).testBit j
      = if j = 7 - k then b else x.testBit j := by
  rw [mask_eq_pow k hk, show (256 : Nat) = 2 ^ 8 by rfl, Nat.testBit_mod_two_pow]
  have h7 : 7 - k < 8 := by omega
  cases b
  · simp only [Bool.false_eq_true, if_false, Nat.testBit_and, testBit_complement (7 - k) j h7 hj]
    by_cases hjk : j = 7 - k
    · simp [hjk]
    · simp [hj, hjk]
  · simp only [if_true, Nat.testBit_or, Nat.testBit_two_pow]
    by_cases hjk : j = 7 - k
    · simp [hjk, h7]
    · have : ¬ 7 - k = j := fun h => hjk h.symm
      simp [hj, hjk, this]

theorem bit_at_set (data : List (Fin 256)) (bp i y : Nat) (hbp : bp < data.length) :
    bit_at (data.set bp (Fin.ofNat y)) i
      = if i / 8 = bp then (y % 256).testBit (7 - i % 8) else bit_at data i := by
  simp only [bit_at, List.getD_eq_getElem?_getD, List.getElem?_set]
  by_cases h : i / 8 = bp
  · subst h
    simp [hbp, Fin.ofNat]
  · have h' : ¬ bp = i / 8 := fun e => h e.symm
    simp [h, h']

theorem bits_from_congr (d1 d2 : List (Fin 256)) (p n : Nat)
    (h : ∀ k, k < n → bit_at d1 (p + k) = bit_at d2 (p + k)) :
    bits_from d1 p n = bits_from d2 p n := by
  simp only [bits_from]
  apply List.map_congr_left
  intro k hk
  exact h k (List.mem_range.mp hk)

/-! ## The writer, bit by bit -/

namespace bit_writer_c

theorem valid_mask (w : bit_writer_c) (hv : w.valid) : ∃ k, k < 8 ∧ w.m_mask = 0x80 >>> k := by
  obtain ⟨-, hm⟩ := hv
  obtain ⟨k, hk, he⟩ := List.mem_map.mp hm
  exact ⟨k, List.mem_range.mp hk, he.symm⟩

theorem valid_of_mask (w : bit_writer_c) (k : Nat) (hk : k < 8) (hm : w.m_mask = 0x80 >>> k)
    (hbp : w.m_byte_position ≤ w.data.length) : w.valid :=
  ⟨hbp, List.mem_map.mpr ⟨k, List.mem_range.mpr hk, hm.symm⟩⟩

theorem bit_offset_of_mask (w : bit_writer_c) (k : Nat) (hk : k < 8)
    (hm : w.m_mask = 0x80 >>> k) :
    w.bit_offset = ((w.m_byte_position * 8 + k : Nat) : Int) := by
  simp only [bit_offset, hm, find_mask k hk]

/-- The byte position and the mask of a valid writer at bit position `p`. -/
theorem position_cases (w : bit_writer_c) (hv : w.valid) (p : Nat)
    (hp : w.bit_offset = p) :
    w.m_byte_position = p / 8 ∧ w.m_mask = 0x80 >>> (p % 8) := by
  obtain ⟨k, hk, hm⟩ := valid_mask w hv
  rw [bit_offset_of_mask w k hk hm] at hp
  have hpk : w.m_byte_position * 8 + k = p := by exact_mod_cast hp
  have h1 : p / 8 = w.m_byte_position := by omega
  have h2 : p % 8 = k := by omega
  rw [h1, h2]
  exact ⟨rfl, hm⟩

theorem shift_mask_succ (k : Nat) (hk : k < 8) :
    (0x80 >>> k) >>> 1 = if k = 7 then 0 else 0x80 >>> (k + 1) := by
  interval_cases k <;> rfl

/-- What `put_bit` returns when the cursor is inside the buffer. -/
theorem put_bit_inside (w : bit_writer_c) (bit : Bool) (k : Nat) (hk : k < 8)
    (hm : w.m_mask = 0x80 >>> k) (hlt : w.m_byte_position < w.data.length) :
    w.put_bit bit = (.ok (),
      ⟨w.data.set w.m_byte_position
          (Fin.ofNat (if bit then (w.data.getD w.m_byte_position 0).val ||| 0x80 >>> k
            else (w.data.getD w.m_byte_position 0).val &&& (2 ^ 64 - 1 - 0x80 >>> k))),
        if k = 7 then w.m_byte_position + 1 else w.m_byte_position,
        if k = 7 then 0x80 else 0x80 >>> (k + 1),
        if k = 7 ∧ w.m_byte_position + 1 = w.data.length then true else w.m_out_of_data⟩) := by
  simp only [put_bit, hm, shift_mask_succ k hk]
  rw [if_neg (by omega)]
  by_cases h7 : k = 7
  · subst h7
    simp
  · have hne : (0x80 >>> (k + 1) : Nat) ≠ 0 := by
      have : k + 1 < 8 := by omega
      rw [mask_eq_pow (k + 1) this]
      positivity
    simp [h7, hne]

/-- With the cursor inside the buffer `put_bit` succeeds, writes the bit at
the cursor and nothing else, and leaves a valid writer one bit further. -/
theorem put_bit_wrote (w : bit_writer_c) (bit : Bool) (p : Nat) (hv : w.valid)
    (hp : w.bit_offset = p) (hlt : w.m_byte_position < w.data.length) :
    (w.put_bit bit).1 = .ok () ∧ (w.put_bit bit).2.valid ∧ w.wrote p [bit] (w.put_bit bit).2 := by
  obtain ⟨hbp, hm⟩ := position_cases w hv p hp
  have hk : p % 8 < 8 := Nat.mod_lt _ (by decide)
  rw [put_bit_inside w bit (p % 8) hk hm hlt]
  refine ⟨rfl, ?_, ?_, ?_, ?_, ?_⟩
  · by_cases h7 : p % 8 = 7
    · refine valid_of_mask _ 0 (by decide) ?_ ?_
      · simp [h7]
      · simp only [h7, if_true, List.length_set]
        omega
    · refine valid_of_mask _ (p % 8 + 1) (by omega) ?_ ?_
      · simp [h7]
      · simp only [h7, if_false, List.length_set]
        omega
  · simp
  · rw [List.length_singleton, bits_from_one, bit_at_set _ _ _ _ hlt, if_pos hbp.symm,
      byte_put_bit _ _ _ _ hk (by omega), if_pos rfl]
  · intro i hi
    rw [List.length_singleton] at hi
    rw [bit_at_set _ _ _ _ hlt]
    by_cases hi8 : i / 8 = w.m_byte_position
    · rw [if_pos hi8, byte_put_bit _ _ _ _ hk (by omega), if_neg (by omega), bit_at, hi8]
    · rw [if_neg hi8]
  · by_cases h7 : p % 8 = 7
    · rw [bit_offset_of_mask _ 0 (by decide) (by simp [h7])]
      simp only [h7, if_true, List.length_singleton]
      congr 1
      omega
    · rw [bit_offset_of_mask _ (p % 8 + 1) (by omega) (by simp [h7])]
      simp only [h7, if_false, List.length_singleton]
      congr 1
      omega

theorem wrote_nil (w : bit_writer_c) (p : Nat) (hp : w.bit_offset = p) :
    w.wrote p [] w := by
  refine ⟨rfl, ?_, fun _ _ => rfl, ?_⟩
  · simp [bits_from]
  · simpa using hp

/-- Writing `bs1` and then `bs2` behind it is writing `bs1 ++ bs2`. -/
theorem wrote_append (w w1 w2 : bit_writer_c) (p : Nat) (bs1 bs2 : List Bool)
    (h1 : w.wrote p bs1 w1) (h2 : w1.wrote (p + bs1.length) bs2 w2) :
    w.wrote p (bs1 ++ bs2) w2 := by
  obtain ⟨hl1, hb1, hf1, hp1⟩ := h1
  obtain ⟨hl2, hb2, hf2, hp2⟩ := h2
  refine ⟨hl2.trans hl1, ?_, ?_, ?_⟩
  · have hfirst : bits_from w2.data p bs1.length = bs1 := by
      rw [bits_from_congr w2.data w1.data p bs1.length
        (fun k hk => hf2 _ (Or.inl (by omega))), hb1]
    rw [List.length_append, bits_from_add, hb2, hfirst]
  · intro i hi
    rw [List.length_append] at hi
    rw [hf2 i (by omega), hf1 i (by omega)]
  · rw [hp2, List.length_append]
    congr 1
    omega

end bit_writer_c

/-! ## Writing several bits -/

theorem be_bits_cons (n v : Nat) : be_bits (n + 1) v = v.testBit n :: be_bits n v := by
  simp only [be_bits, List.range_succ_eq_map, List.map_cons, List.map_map]
  congr 1
  apply List.map_congr_left
  intro k _
  simp only [Function.comp, Nat.succ_eq_add_one]
  congr 1
  omega

/-- The bit that `put_bits` hands to `put_bit` for a shift below 31. -/
theorem put_bits_bit (value n : Nat) (hn : n < 31) :
    shl_int_one n = some (2 ^ n)
      ∧ decide (value &&& to_uint64 (2 ^ n) ≠ 0) = value.testBit n := by
  have hpow : (2 : Nat) ^ n < 2 ^ 64 := Nat.pow_lt_pow_right (by decide) (by omega)
  have h64 : to_uint64 ((2 : Int) ^ n) = 2 ^ n := by
    simp only [to_uint64]
    have h1 : ((2 : Int) ^ n) = (((2 : Nat) ^ n : Nat) : Int) := by simp
    have h2 : ((2 : Int) ^ 64) = (((2 : Nat) ^ 64 : Nat) : Int) := by simp
    rw [h1, h2, ← Int.ofNat_emod, Int.toNat_ofNat, Nat.mod_eq_of_lt hpow]
  refine ⟨by simp [shl_int_one, hn], ?_⟩
  rw [h64, Nat.and_two_pow]
  have hpos : 0 < (2 : Nat) ^ n := by positivity
  cases value.testBit n <;> simp

namespace bit_writer_c

/-- `put_bits` of at most 31 bits with room for them: it succeeds and writes
the low `n` bits of the value, most significant first. -/
theorem put_bits_wrote (n : Nat) :
    ∀ (w : bit_writer_c) (p value : Nat), n ≤ 31 → w.valid → w.bit_offset = p →
      p + n ≤ 8 * w.data.length →
      (w.put_bits n value).1 = .ok () ∧ (w.put_bits n value).2.valid
        ∧ w.wrote p (be_bits n value) (w.put_bits n value).2 := by
  induction n with
  | zero =>
    intro w p value _ hv hp _
    exact ⟨rfl, hv, wrote_nil w p hp⟩
  | succ n ih =>
    intro w p value hn hv hp hfit
    obtain ⟨hshl, hbit⟩ := put_bits_bit value n (by omega)
    obtain ⟨hbp, -⟩ := position_cases w hv p hp
    obtain ⟨hok, hv1, hw1⟩ := put_bit_wrote w (value.testBit n) p hv hp (by omega)
    have hpair : w.put_bit (value.testBit n) = (.ok (), (w.put_bit (value.testBit n)).2) := by
      rw [← hok]
    have hstep : w.put_bits (n + 1) value = (w.put_bit (value.testBit n)).2.put_bits n value := by
      rw [put_bits, hshl]
      simp only [hbit]
      rw [hpair]
    obtain ⟨hok2, hv2, hw2⟩ := ih (w.put_bit (value.testBit n)).2 (p + 1) value (by omega) hv1
      (by simpa using hw1.2.2.2) (by rw [hw1.1]; omega)
    rw [hstep, be_bits_cons]
    exact ⟨hok2, hv2, wrote_append w _ _ p [value.testBit n] (be_bits n value) hw1 hw2⟩

end bit_writer_c

/-! ## What successful operations keep -/

namespace bit_writer_c

theorem mask_ne_first (k : Nat) (hk : k < 8) (h0 : k ≠ 0) : (0x80 >>> k : Nat) ≠ 0x80 := by
  interval_cases k <;> first | exact absurd rfl h0 | decide

end bit_writer_c

namespace bit_writer_c

/-- The loop of `byte_align` is `j` calls of `put_bit(0)` when the cursor is
`j ≤ 7` bits before the next byte boundary. -/
theorem byte_align_loop_eq (j : Nat) :
    ∀ (fuel : Nat) (w : bit_writer_c), j ≤ 7 → j ≤ fuel → w.m_mask = 0x80 >>> ((8 - j) % 8) →
      (0 < j → w.m_byte_position < w.data.length) →
      byte_align_loop fuel w = w.put_bits j 0 := by
  induction j with
  | zero =>
    intro fuel w _ _ hm _
    have hmask : w.m_mask = 0x80 := by simpa using hm
    cases fuel with
    | zero => rfl
    | succ fuel => simp [byte_align_loop, hmask, put_bits]
  | succ j ih =>
    intro fuel w hj hfuel hm hlt
    obtain ⟨fuel, rfl⟩ : ∃ f, fuel = f + 1 := ⟨fuel - 1, by omega⟩
    have hk : (8 - (j + 1)) % 8 = 7 - j := by omega
    rw [hk] at hm
    have hne : w.m_mask ≠ 0x80 := by
      rw [hm]
      exact mask_ne_first (7 - j) (by omega) (by omega)
    have hput := put_bit_inside w false (7 - j) (by omega) hm (hlt (by omega))
    obtain ⟨hshl, -⟩ := put_bits_bit 0 j (by omega)
    have hzero : decide (0 &&& to_uint64 (2 ^ j) ≠ 0) = false := by simp
    rw [byte_align_loop, if_neg hne, put_bits, hshl]
    simp only [hzero, hput]
    apply ih fuel _ (by omega) (by omega)
    · by_cases h0 : j = 0
      · subst h0
        simp
      · have h1 : ¬ 7 - j = 7 := by omega
        have h2 : (8 - j) % 8 = 7 - j + 1 := by omega
        simp only [h1, if_false, h2]
    · intro hjpos
      have h1 : ¬ 7 - j = 7 := by omega
      simp only [h1, if_false, List.length_set]
      exact hlt (by omega)

end bit_writer_c

namespace bit_writer_c

/-- The bound on the number of passes of the loop of `byte_align` is never
reached from a valid state: 8 passes or more return the same. -/
theorem byte_align_loop_fuel (w : bit_writer_c) (fuel : Nat) (hv : w.valid) (hf : 8 ≤ fuel) :
    byte_align_loop fuel w = byte_align_loop 8 w := by
  obtain ⟨k, hk, hm⟩ := valid_mask w hv
  by_cases hlt : w.m_mask ≠ 0x80 → w.m_byte_position < w.data.length
  · have hj : (8 - (8 - k) % 8) % 8 = k := by omega
    rw [byte_align_loop_eq ((8 - k) % 8) fuel w (by omega) (by omega) (by rw [hj]; exact hm)
        (fun h0 => hlt (by rw [hm]; exact mask_ne_first k hk (by omega))),
      byte_align_loop_eq ((8 - k) % 8) 8 w (by omega) (by omega) (by rw [hj]; exact hm)
        (fun h0 => hlt (by rw [hm]; exact mask_ne_first k hk (by omega)))]
  · have hne : w.m_mask ≠ 0x80 := fun h => hlt (fun h' => absurd h h')
    have hge : w.m_byte_position ≥ w.data.length := by
      by_contra hcon
      exact hlt (fun _ => by omega)
    obtain ⟨fuel, rfl⟩ : ∃ f, fuel = f + 1 := ⟨fuel - 1, by omega⟩
    simp only [byte_align_loop, put_bit, hne, hge, if_true, if_false]

/-- The bound on the number of passes of the loop of `copy_unsigned_golomb`
is never reached: allowing more passes than `golomb_fuel` returns the same,
from every state. -/
theorem copy_zeros_fuel (m : Nat) :
    ∀ (w : bit_writer_c) (r : bit_reader_c) (k f1 f2 : Nat), r.golomb_fuel ≤ m →
      r.golomb_fuel ≤ f1 → r.golomb_fuel ≤ f2 → copy_zeros f1 w r k = copy_zeros f2 w r k := by
  induction m with
  | zero => intro w r k f1 f2 hm; simp only [bit_reader_c.golomb_fuel] at hm; omega
  | succ m ih =>
    intro w r k f1 f2 hm h1 h2
    have hpos : 1 ≤ r.golomb_fuel := by simp only [bit_reader_c.golomb_fuel]; omega
    obtain ⟨f1, rfl⟩ : ∃ f, f1 = f + 1 := ⟨f1 - 1, by omega⟩
    obtain ⟨f2, rfl⟩ : ∃ f, f2 = f + 1 := ⟨f2 - 1, by omega⟩
    rw [copy_zeros, copy_zeros]
    rcases hg : r.get_bit with ⟨_ | bit, r1⟩
    · rfl
    · simp only
      have hlt := bit_reader_c.golomb_fuel_get_bit r r1 bit hg
      split
      · rcases hp : w.put_bit false with ⟨_ | _, w1⟩
        · rfl
        · exact ih w1 r1 (k + 1) f1 f2 (by omega) (by omega) (by omega)
      · rfl

end bit_writer_c

/-! ## The writer -/

namespace bit_writer_c

/-- The `int` that `get_bit_position` returns is the bit offset of the cursor
while that is below `2 ^ 31`. -/
theorem writer_get_bit_position_eq (w : bit_writer_c) (q : Nat) (h : w.bit_offset = q)
    (hq : q < 2 ^ 31) : w.get_bit_position = q := by
  simp only [get_bit_position, to_int32, h]
  omega

theorem writer_set_bit_position_at (w : bit_writer_c) (pos : Nat) (h : pos < 8 * w.data.length) :
    w.set_bit_position pos
      = (.ok (), { w with m_byte_position := pos / 8, m_mask := 0x80 >>> (pos % 8) }) := by
  simp only [set_bit_position]
  rw [if_neg (by omega)]

theorem bit_offset_set_bit_position (w : bit_writer_c) (pos : Nat) :
    ({ w with m_byte_position := pos / 8, m_mask := 0x80 >>> (pos % 8) } : bit_writer_c).bit_offset
      = pos := by
  rw [bit_offset_of_mask _ (pos % 8) (Nat.mod_lt _ (by decide)) rfl]
  congr 1
  simp only
  omega

end bit_writer_c

/-- C19, as stated, fails twice. Over a one-byte buffer `set_bit_position 8`,
a position that is not beyond the 8 bits of the buffer, raises `seek_x`. Over
a buffer of `2 ^ 28 + 1` bytes `set_bit_position (2 ^ 31)`, a position before
the end, succeeds, and `get_bit_position()`, a 32-bit `int`, then returns
`-2 ^ 31`. -/
theorem writer_set_bit_position_at_end :
    (8 ≤ 8 * (bit_writer_c.create [0x00]).data.length
        ∧ ((bit_writer_c.create [0x00]).set_bit_position 8).1 = .error .seek_x)
      ∧ (2 ^ 31 < 8 * (bit_writer_c.create bigger_buffer).data.length
        ∧ ((bit_writer_c.create bigger_buffer).set_bit_position (2 ^ 31)).1 = .ok ()
        ∧ ((bit_writer_c.create bigger_buffer).set_bit_position (2 ^ 31)).2.get_bit_position
            = -(2 ^ 31)) := by
  have hlen : (bit_writer_c.create bigger_buffer).data.length = 2 ^ 28 + 1 :=
    bigger_buffer_length
  have hset := bit_writer_c.writer_set_bit_position_at (bit_writer_c.create bigger_buffer) (2 ^ 31)
    (by rw [hlen]; decide)
  refine ⟨by decide, by rw [hlen]; decide, by rw [hset], ?_⟩
  rw [hset]
  simp only [bit_writer_c.get_bit_position, bit_writer_c.bit_offset_set_bit_position]
  decide

/-- C19, amended: over a buffer of `len` bytes the writer's
`set_bit_position pos` succeeds for every `pos < 8 * len`, and then leaves
`get_bit_position() = pos` when `pos < 2 ^ 31`, as every such `pos` is over
a buffer of at most `2 ^ 28` bytes; it raises `seek_x` (not `end_of_file_x`)
exactly when `pos ≥ 8 * len`, the end of the buffer included. -/
theorem writer_set_bit_position_spec (w : bit_writer_c) (pos : Nat) :
    (pos < 8 * w.data.length →
        (w.set_bit_position pos).1 = .ok ()
          ∧ (pos < 2 ^ 31 → (w.set_bit_position pos).2.get_bit_position = pos))
      ∧ (w.data.length ≤ 2 ^ 28 → pos < 8 * w.data.length → pos < 2 ^ 31)
      ∧ (8 * w.data.length ≤ pos →
          (w.set_bit_position pos).1 = .error .seek_x
            ∧ (w.set_bit_position pos).2.m_out_of_data = true)
      ∧ ((w.set_bit_position pos).1 = .error .seek_x ↔ 8 * w.data.length ≤ pos)
      ∧ (w.set_bit_position pos).1 ≠ .error .end_of_file_x := by
  by_cases h : pos < 8 * w.data.length
  · rw [bit_writer_c.writer_set_bit_position_at w pos h]
    refine ⟨fun _ => ⟨rfl, fun h31 => ?_⟩, fun hle hlt => by omega,
      fun hge => absurd h (by omega), ?_, by simp⟩
    · exact bit_writer_c.writer_get_bit_position_eq _ pos
        (bit_writer_c.bit_offset_set_bit_position w pos) h31
    · constructor
      · intro he
        simp at he
      · intro hge
        omega
  · have hset : w.set_bit_position pos
        = (.error .seek_x,
            { w with m_byte_position := w.data.length, m_out_of_data := true }) := by
      simp only [bit_writer_c.set_bit_position]
      rw [if_pos (by omega)]
    rw [hset]
    exact ⟨fun hlt => absurd hlt h, fun hle hlt => by omega, fun _ => ⟨rfl, rfl⟩,
      ⟨fun _ => by omega, fun _ => rfl⟩, by simp⟩

/-- The amended C19 on a two-byte buffer: position 11 is accepted, positions
16 and 17 raise `seek_x`. -/
theorem writer_set_bit_position_spec_witness :
    ((bit_writer_c.create [0x00, 0x00]).set_bit_position 11).2.get_bit_position = (11 : Nat)
      ∧ ((bit_writer_c.create [0x00, 0x00]).set_bit_position 16).1 = .error .seek_x
      ∧ ((bit_writer_c.create [0x00, 0x00]).set_bit_position 17).1 = .error .seek_x :=
  ⟨((writer_set_bit_position_spec (bit_writer_c.create [0x00, 0x00]) 11).1 (by decide)).2
      (by decide),
   ((writer_set_bit_position_spec (bit_writer_c.create [0x00, 0x00]) 16).2.2.1 (by decide)).1,
   ((writer_set_bit_position_spec (bit_writer_c.create [0x00, 0x00]) 17).2.2.1 (by decide)).1⟩

/-- What a valid reader at bit `q` has in front of it when its unread bits
start with `n` zero bits, a one bit and the bits `suffix`. -/
theorem code_word_start (r : bit_reader_c) (n q : Nat) (suffix : List Bool) (hr : r.valid)
    (hs : suffix.length = n)
    (hcode : List.replicate n false ++ true :: suffix <+: unread_bits r)
    (hq : r.bit_offset = q) :
    q + 2 * n + 1 ≤ 8 * r.data.length
      ∧ bits_from r.data q n = List.replicate n false
      ∧ bit_at r.data (q + n) = true
      ∧ bits_from r.data (q + n + 1) n = suffix
      ∧ r.at_bit q = r := by
  have hlen : (List.replicate n false ++ true :: suffix).length = 2 * n + 1 := by
    simp only [List.length_append, List.length_replicate, List.length_cons, hs]
    omega
  obtain ⟨q', hq', hfit, hbits⟩ := unread_bits_start r hr _ (by rw [hlen]; omega) hcode
  have hqq : q' = q := by
    rw [hq] at hq'
    exact_mod_cast hq'.symm
  subst hqq
  rw [hlen] at hfit hbits
  have hsplit : bits_from r.data q' (2 * n + 1)
      = bits_from r.data q' n ++ ([bit_at r.data (q' + n)] ++ bits_from r.data (q' + n + 1) n) := by
    rw [show 2 * n + 1 = n + (1 + n) by omega, bits_from_add, bits_from_add, bits_from_one]
  have hcons : List.replicate n false ++ true :: suffix
      = List.replicate n false ++ ([true] ++ suffix) := rfl
  rw [hsplit, hcons] at hbits
  obtain ⟨hz, hrest⟩ := List.append_inj hbits (by simp [bits_from_length])
  obtain ⟨hone, hsuffix⟩ := List.append_inj hrest (by simp)
  exact ⟨by omega, hz, by simpa using hone, hsuffix,
    bit_reader_c.eq_at_bit r hr q' hq (by omega)⟩

namespace bit_reader_c

/-- What the loop of `get_unsigned_golomb` has read when it returns: from a
cursor at bit `q`, with the counter at `k`, it returns `n` after `n - k` zero
bits and a one bit, and stops behind the one bit. -/
theorem golomb_zeros_ok (r : bit_reader_c) (fuel : Nat) :
    ∀ (q k n : Nat) (r1 : bit_reader_c), q ≤ 8 * r.data.length →
      golomb_zeros fuel (r.at_bit q) k = (.ok n, r1) →
      k ≤ n ∧ q + (n - k) < 8 * r.data.length
        ∧ bits_from r.data q (n - k) = List.replicate (n - k) false
        ∧ bit_at r.data (q + (n - k)) = true
        ∧ r1 = r.at_bit (q + (n - k) + 1) := by
  induction fuel with
  | zero =>
    intro q k n r1 _ h
    simp [golomb_zeros] at h
  | succ fuel ih =>
    intro q k n r1 hq h
    rw [golomb_zeros] at h
    by_cases hlt : q < 8 * r.data.length
    · rw [get_bit_at r q hlt] at h
      simp only at h
      cases hb : bit_at r.data q with
      | false =>
        simp only [hb, Bool.toNat_false, if_true] at h
        obtain ⟨hk, hfit, hz, h1, hr1⟩ := ih (q + 1) (k + 1) n r1 (by omega) h
        have hnk : n - k = (n - (k + 1)) + 1 := by omega
        refine ⟨by omega, by omega, ?_, ?_, ?_⟩
        · rw [hnk, bits_from_succ_left, hb, hz, List.replicate_succ]
        · rw [hnk, show q + (n - (k + 1) + 1) = q + 1 + (n - (k + 1)) by omega]
          exact h1
        · rw [hr1, hnk]
          congr 1
          omega
      | true =>
        simp only [hb, Bool.toNat_true, one_ne_zero, if_false, Prod.mk.injEq,
          Except.ok.injEq] at h
        obtain ⟨hkn, hr1⟩ := h
        subst hkn
        simp only [Nat.sub_self, Nat.add_zero]
        refine ⟨le_refl _, hlt, by simp [bits_from], hb, hr1.symm⟩
    · have hraise := get_bits_raise (r.at_bit q) (valid_at_bit r q hq) 1 (le_refl 1) (by
        rw [bits_left_eq, bit_offset_at_bit]
        simp only [at_bit]
        omega)
      simp only [get_bit, hraise] at h
      simp at h

/-- A `get_unsigned_golomb` that returns a value has read a code word with at
most 31 leading zero bits: `n` zero bits, a one bit and `n` more bits, all
inside the buffer. -/
theorem get_unsigned_golomb_ok (r : bit_reader_c) (hv : r.valid) (v : Nat)
    (hok : r.get_unsigned_golomb.1 = .ok v) :
    ∃ n q : Nat, n ≤ 31 ∧ r.bit_offset = q ∧ r.at_bit q = r
      ∧ q + 2 * n + 1 ≤ 8 * r.data.length
      ∧ bits_from r.data q n = List.replicate n false
      ∧ bit_at r.data (q + n) = true := by
  obtain ⟨q, hq⟩ := Int.eq_ofNat_of_zero_le (bit_offset_range r hv).1
  by_cases hle : q ≤ 8 * r.data.length
  · have hat := eq_at_bit r hv q hq hle
    simp only [get_unsigned_golomb] at hok
    rcases hz : golomb_zeros r.golomb_fuel r 0 with ⟨_ | n, r1⟩
    · simp [hz] at hok
    · rw [hz] at hok
      simp only at hok
      have hz' := hz
      rw [← hat] at hz'
      rw [hat] at hz'
      have hzq : golomb_zeros r.golomb_fuel (r.at_bit q) 0 = (.ok n, r1) := by
        rw [hat]
        exact hz
      obtain ⟨-, hfit, hzeros, h1, hr1⟩ := golomb_zeros_ok r r.golomb_fuel q 0 n r1 hle hzq
      simp only [Nat.sub_zero] at hfit hzeros h1 hr1
      rcases hb : r1.get_bits n with ⟨_ | bits, r2⟩
      · simp [hb] at hok
      · rw [hb] at hok
        simp only at hok
        have hn : n ≤ 31 := by
          by_contra hgt
          have : shl_unsigned_one n = none := by
            simp only [shl_unsigned_one]
            rw [if_neg (by omega)]
          simp [this] at hok
        have hfit2 : q + 2 * n + 1 ≤ 8 * r.data.length := by
          by_cases hn0 : n = 0
          · omega
          · have hne : (r1.get_bits n).1 ≠ .error .end_of_file_x := by
              rw [hb]
              simp
            have hv1 : r1.valid := by
              rw [hr1]
              exact valid_at_bit r _ (by omega)
            have hnot := mt (get_bits_error_iff r1 n hv1 (by omega)).2 hne
            rw [hr1, bits_left_eq, bit_offset_at_bit] at hnot
            simp only [at_bit] at hnot
            omega
        exact ⟨n, q, hn, hq, hat, hfit2, hzeros, h1⟩
  · exfalso
    have hraise := get_bits_raise r hv 1 (le_refl 1) (by
      rw [bits_left_eq, hq]
      omega)
    have hfuel : 1 ≤ r.golomb_fuel := by
      simp only [golomb_fuel]
      omega
    obtain ⟨f, hf⟩ : ∃ f, r.golomb_fuel = f + 1 := ⟨r.golomb_fuel - 1, by omega⟩
    simp only [get_unsigned_golomb, hf, golomb_zeros, get_bit, hraise] at hok
    simp at hok

end bit_reader_c

/-! ## Copying an Exp-Golomb code word -/

/-- The bit that `put_bits` hands to `put_bit` for the shift by 31, whose
result is the most negative `int`, for a value below `2 ^ 32`. -/
theorem put_bits_bit_31 (value : Nat) (hval : value < 2 ^ 32) :
    shl_int_one 31 = some (-(2 ^ 31))
      ∧ decide (value &&& to_uint64 (-(2 ^ 31)) ≠ 0) = value.testBit 31 := by
  have h64 : to_uint64 (-(2 ^ 31)) = 2 ^ 64 - 2 ^ 31 := by decide
  have hmod : value &&& (2 ^ 32 - 1) = value := by
    rw [Nat.and_pow_two_sub_one_eq_mod, Nat.mod_eq_of_lt hval]
  have hmask : value &&& (2 ^ 64 - 2 ^ 31) = value &&& 2 ^ 31 := by
    calc value &&& (2 ^ 64 - 2 ^ 31)
        = (value &&& (2 ^ 32 - 1)) &&& (2 ^ 64 - 2 ^ 31) := by rw [hmod]
      _ = value &&& ((2 ^ 32 - 1) &&& (2 ^ 64 - 2 ^ 31)) := Nat.and_assoc _ _ _
      _ = value &&& 2 ^ 31 := by
        rw [show ((2 : Nat) ^ 32 - 1) &&& (2 ^ 64 - 2 ^ 31) = 2 ^ 31 by decide]
  refine ⟨by decide, ?_⟩
  rw [h64, hmask, Nat.and_two_pow]
  cases value.testBit 31 <;> simp

namespace bit_writer_c

/-- `put_bits` of at most 32 bits of a value below `2 ^ 32`, with room for
them: it succeeds and writes the low `n` bits of the value, most significant
first. -/
theorem put_bits_wrote_32 (n : Nat) (w : bit_writer_c) (p value : Nat) (hn : n ≤ 32)
    (hval : value < 2 ^ 32) (hv : w.valid) (hp : w.bit_offset = p)
    (hfit : p + n ≤ 8 * w.data.length) :
    (w.put_bits n value).1 = .ok () ∧ (w.put_bits n value).2.valid
      ∧ w.wrote p (be_bits n value) (w.put_bits n value).2 := by
  by_cases h31 : n ≤ 31
  · exact put_bits_wrote n w p value h31 hv hp hfit
  · have hn32 : n = 32 := by omega
    subst hn32
    obtain ⟨hshl, hbit⟩ := put_bits_bit_31 value hval
    obtain ⟨hbp, -⟩ := position_cases w hv p hp
    obtain ⟨hok, hv1, hw1⟩ := put_bit_wrote w (value.testBit 31) p hv hp (by omega)
    have hpair : w.put_bit (value.testBit 31) = (.ok (), (w.put_bit (value.testBit 31)).2) := by
      rw [← hok]
    have hstep : w.put_bits 32 value = (w.put_bit (value.testBit 31)).2.put_bits 31 value := by
      rw [put_bits, hshl]
      simp only [hbit]
      rw [hpair]
    obtain ⟨hok2, hv2, hw2⟩ := put_bits_wrote 31 (w.put_bit (value.testBit 31)).2 (p + 1) value
      (le_refl _) hv1 (by simpa using hw1.2.2.2) (by rw [hw1.1]; omega)
    rw [hstep, be_bits_cons]
    exact ⟨hok2, hv2, wrote_append w _ _ p [value.testBit 31] (be_bits 31 value) hw1 hw2⟩

/-- The loop of `copy_unsigned_golomb` over `n` zero bits followed by a one
bit, with room for the zero bits in the writer: the zero bits are written and
the reader stops behind the one bit. -/
theorem copy_zeros_at (r : bit_reader_c) (n : Nat) :
    ∀ (fuel q k p : Nat) (w : bit_writer_c), n < fuel → q + n < 8 * r.data.length →
      bits_from r.data q n = List.replicate n false → bit_at r.data (q + n) = true →
      w.valid → w.bit_offset = p → p + n ≤ 8 * w.data.length →
      ∃ w1, copy_zeros fuel w (r.at_bit q) k = (.ok (k + n), w1, r.at_bit (q + n + 1))
        ∧ w1.valid ∧ w.wrote p (List.replicate n false) w1 := by
  induction n with
  | zero =>
    intro fuel q k p w hf hq _ h1 hv hp _
    obtain ⟨fuel, rfl⟩ : ∃ f, fuel = f + 1 := ⟨fuel - 1, by omega⟩
    refine ⟨w, ?_, hv, wrote_nil w p hp⟩
    rw [copy_zeros, bit_reader_c.get_bit_at r q (by omega)]
    simp only [Nat.add_zero] at h1 ⊢
    simp [h1]
  | succ n ih =>
    intro fuel q k p w hf hq hz h1 hv hp hroom
    obtain ⟨fuel, rfl⟩ : ∃ f, fuel = f + 1 := ⟨fuel - 1, by omega⟩
    rw [bits_from_succ_left, List.replicate_succ, List.cons.injEq] at hz
    obtain ⟨hbp, -⟩ := position_cases w hv p hp
    obtain ⟨hok, hv1, hw1⟩ := put_bit_wrote w false p hv hp (by omega)
    have hpair : w.put_bit false = (.ok (), (w.put_bit false).2) := by rw [← hok]
    obtain ⟨w1, he, hv2, hw2⟩ := ih fuel (q + 1) (k + 1) (p + 1) (w.put_bit false).2 (by omega)
      (by omega) hz.2 (by rwa [show q + 1 + n = q + (n + 1) by omega]) hv1
      (by simpa using hw1.2.2.2) (by rw [hw1.1]; omega)
    refine ⟨w1, ?_, hv2, ?_⟩
    · rw [copy_zeros, bit_reader_c.get_bit_at r q (by omega)]
      simp only [hz.1, Bool.toNat_false, if_true]
      rw [hpair]
      simp only
      rw [he, show k + 1 + n = k + (n + 1) by omega,
        show q + 1 + n + 1 = q + (n + 1) + 1 by omega]
    · rw [List.replicate_succ]
      exact wrote_append w _ w1 p [false] (List.replicate n false) hw1 hw2

/-- The expression `(1 << n) - 1` for `n ≤ 31`, and its conversion to
`uint64_t`. -/
theorem shl_int_one_minus_one_small (n : Nat) (hn : n ≤ 31) :
    shl_int_one_minus_one n = .ok (2 ^ n - 1) ∧ to_uint64 (2 ^ n - 1) = 2 ^ n - 1 := by
  by_cases h31 : n = 31
  · subst h31
    exact ⟨by decide, by decide⟩
  · have hpow : (2 : Nat) ^ n ≤ 2 ^ 30 := Nat.pow_le_pow_right (by decide) (by omega)
    have hpos : 1 ≤ (2 : Nat) ^ n := Nat.one_le_two_pow
    have hcast : ((2 : Int) ^ n) = (((2 : Nat) ^ n : Nat) : Int) := by simp
    constructor
    · simp only [shl_int_one_minus_one, shl_int_one]
      rw [if_pos (by omega)]
      simp only [to_int32]
      congr 1
      rw [hcast]
      omega
    · simp only [to_uint64]
      rw [hcast]
      omega

/-- `copy_unsigned_golomb` over `n ≤ 32` zero bits, a one bit and `n` more
bits, with room for them in the writer: the `2 n + 1` bits are copied and
both cursors are behind them; for `n ≤ 31` the value returned is `2 ^ n - 1`
plus the value of the last `n` bits. -/
theorem copy_unsigned_golomb_at (r : bit_reader_c) (w : bit_writer_c) (q n p : Nat)
    (hn : n ≤ 32) (hfit : q + 2 * n + 1 ≤ 8 * r.data.length)
    (hz : bits_from r.data q n = List.replicate n false) (h1 : bit_at r.data (q + n) = true)
    (hv : w.valid) (hp : w.bit_offset = p) (hroom : p + (2 * n + 1) ≤ 8 * w.data.length) :
    ∃ res w3, w.copy_unsigned_golomb (r.at_bit q) = (res, w3, r.at_bit (q + 2 * n + 1))
      ∧ w3.valid ∧ w.wrote p (bits_from r.data q (2 * n + 1)) w3
      ∧ (n ≤ 31 → res = .ok (2 ^ n - 1 + be_value (bits_from r.data (q + n + 1) n))) := by
  have hfuel : n < (r.at_bit q).golomb_fuel := by
    simp only [bit_reader_c.golomb_fuel, bit_reader_c.at_bit]
    omega
  obtain ⟨w1, hzeros, hv1, hw1⟩ := copy_zeros_at r n (r.at_bit q).golomb_fuel q 0 p w hfuel
    (by omega) hz h1 hv hp (by omega)
  have hp1 : w1.bit_offset = ((p + n : Nat) : Int) := by
    simpa using hw1.2.2.2
  obtain ⟨hbp1, -⟩ := position_cases w1 hv1 (p + n) hp1
  obtain ⟨hok2, hv2, hw2⟩ := put_bit_wrote w1 true (p + n) hv1 hp1 (by rw [hw1.1]; omega)
  have hpair2 : w1.put_bit true = (.ok (), (w1.put_bit true).2) := by rw [← hok2]
  have hp2 : (w1.put_bit true).2.bit_offset = ((p + n + 1 : Nat) : Int) := by
    simpa using hw2.2.2.2
  have hlt := be_value_bits_from_lt r.data (q + n + 1) n
  have hpow : (2 : Nat) ^ n ≤ 2 ^ 32 := Nat.pow_le_pow_right (by decide) hn
  have hpos : 1 ≤ (2 : Nat) ^ n := Nat.one_le_two_pow
  have hbits := bit_reader_c.get_bits_ok (r.at_bit (q + n + 1))
    (bit_reader_c.valid_at_bit r _ (by omega)) (q + n + 1) n
    (bit_reader_c.bit_offset_at_bit r _) (by simp only [bit_reader_c.at_bit]; omega)
  have hdata : (r.at_bit (q + n + 1)).data = r.data := rfl
  have hstate : (r.at_bit (q + n + 1)).at_bit (q + n + 1 + n) = r.at_bit (q + 2 * n + 1) := by
    rw [show q + n + 1 + n = q + 2 * n + 1 by omega]
    rfl
  rw [hdata, Nat.mod_eq_of_lt (by omega), hstate] at hbits
  obtain ⟨hok3, hv3, hw3⟩ := put_bits_wrote_32 n (w1.put_bit true).2 (p + n + 1)
    (be_value (bits_from r.data (q + n + 1) n)) hn (by omega) hv2 hp2
    (by rw [hw2.1, hw1.1]; omega)
  have hpair3 : (w1.put_bit true).2.put_bits n (be_value (bits_from r.data (q + n + 1) n))
      = (.ok (), ((w1.put_bit true).2.put_bits n
          (be_value (bits_from r.data (q + n + 1) n))).2) := by rw [← hok3]
  have hrep : be_bits n (be_value (bits_from r.data (q + n + 1) n))
      = bits_from r.data (q + n + 1) n := by
    have h := be_bits_be_value (bits_from r.data (q + n + 1) n)
    rwa [bits_from_length] at h
  rw [hrep] at hw3
  have hall : bits_from r.data q (2 * n + 1)
      = List.replicate n false ++ ([true] ++ bits_from r.data (q + n + 1) n) := by
    rw [show 2 * n + 1 = n + (1 + n) by omega, bits_from_add, bits_from_add, bits_from_one,
      hz, h1]
  have hwrote : w.wrote p (bits_from r.data q (2 * n + 1))
      ((w1.put_bit true).2.put_bits n (be_value (bits_from r.data (q + n + 1) n))).2 := by
    rw [hall]
    apply wrote_append w w1 _ p _ _ hw1
    rw [List.length_replicate]
    apply wrote_append w1 (w1.put_bit true).2 _ (p + n) _ _ hw2
    rw [List.length_singleton]
    exact hw3
  have hcopy : w.copy_unsigned_golomb (r.at_bit q)
      = (match shl_int_one_minus_one n with
          | .error e => (.error e,
              ((w1.put_bit true).2.put_bits n (be_value (bits_from r.data (q + n + 1) n))).2,
              r.at_bit (q + 2 * n + 1))
          | .ok m => (.ok ((to_uint64 m + be_value (bits_from r.data (q + n + 1) n)) % 2 ^ 64),
              ((w1.put_bit true).2.put_bits n (be_value (bits_from r.data (q + n + 1) n))).2,
              r.at_bit (q + 2 * n + 1))) := by
    rw [copy_unsigned_golomb, hzeros]
    simp only [Nat.zero_add]
    rw [hpair2]
    simp only [copy_bits, hbits]
    rw [hpair3]
  by_cases h31 : n ≤ 31
  · obtain ⟨hshl, h64⟩ := shl_int_one_minus_one_small n h31
    have hpow31 : (2 : Nat) ^ n ≤ 2 ^ 31 := Nat.pow_le_pow_right (by decide) h31
    have hsum : (to_uint64 (2 ^ n - 1) + be_value (bits_from r.data (q + n + 1) n)) % 2 ^ 64
        = 2 ^ n - 1 + be_value (bits_from r.data (q + n + 1) n) := by
      rw [h64]
      exact Nat.mod_eq_of_lt (by omega)
    rw [hshl] at hcopy
    simp only [hsum] at hcopy
    exact ⟨_, _, hcopy, hv3, hwrote, fun _ => rfl⟩
  · have hn32 : n = 32 := by omega
    have hshl : shl_int_one_minus_one n = .error .undefined_shift := by
      rw [hn32]
      decide
    rw [hshl] at hcopy
    exact ⟨_, _, hcopy, hv3, hwrote, fun h => absurd h h31⟩

end bit_writer_c

/-- C17, as stated, fails: with 33 zero bits, a one bit and the 33 suffix
bits `1 0 ... 0` in the reader and 72 bits of room in the writer,
`copy_unsigned_golomb` shifts a 32-bit `int` by 32 in `put_bits`; the bits in
the writer are not the 67 bits of the reader. -/
theorem copy_unsigned_golomb_33_zeros :
    (List.replicate 33 false ++ true :: (true :: List.replicate 32 false)
        <+: unread_bits (bit_reader_c.init [0, 0, 0, 0, 0x60, 0, 0, 0, 0]))
      ∧ ((bit_writer_c.create [0, 0, 0, 0, 0, 0, 0, 0, 0]).copy_unsigned_golomb
          (bit_reader_c.init [0, 0, 0, 0, 0x60, 0, 0, 0, 0])).1 = .error .undefined_shift
      ∧ bits_from ((bit_writer_c.create [0, 0, 0, 0, 0, 0, 0, 0, 0]).copy_unsigned_golomb
          (bit_reader_c.init [0, 0, 0, 0, 0x60, 0, 0, 0, 0])).2.1.data 0 67
          ≠ bits_from (bit_reader_c.init [0, 0, 0, 0, 0x60, 0, 0, 0, 0]).data 0 67 := by
  decide

/-- C17, amended: Golomb copy is bit-for-bit for code words with at most 32
leading zero bits. When the unread bits of the reader start with `n ≤ 32`
zero bits, a one bit and `n` suffix bits, and the writer has room for
`2 n + 1` bits, `copy_unsigned_golomb` writes exactly these `2 n + 1` bits
from the writer's cursor on, in order, leaves every other bit of the writer's
buffer as it was, and moves both cursors by `2 n + 1` bits, whatever the
lengths of the two buffers. -/
theorem copy_unsigned_golomb_bit_for_bit (w : bit_writer_c) (r : bit_reader_c) (n p q : Nat)
    (suffix : List Bool) (hw : w.valid) (hr : r.valid) (hn : n ≤ 32) (hs : suffix.length = n)
    (hcode : List.replicate n false ++ true :: suffix <+: unread_bits r)
    (hq : r.bit_offset = q) (hp : w.bit_offset = p)
    (hroom : p + (2 * n + 1) ≤ 8 * w.data.length) :
    bits_from (w.copy_unsigned_golomb r).2.1.data p (2 * n + 1)
        = List.replicate n false ++ true :: suffix
      ∧ bits_from (w.copy_unsigned_golomb r).2.1.data p (2 * n + 1)
        = bits_from r.data q (2 * n + 1)
      ∧ (∀ i, i < p ∨ p + (2 * n + 1) ≤ i →
          bit_at (w.copy_unsigned_golomb r).2.1.data i = bit_at w.data i)
      ∧ (w.copy_unsigned_golomb r).2.1.data.length = w.data.length
      ∧ (w.copy_unsigned_golomb r).2.1.bit_offset = ((p + (2 * n + 1) : Nat) : Int)
      ∧ (w.copy_unsigned_golomb r).2.2.bit_offset = ((q + (2 * n + 1) : Nat) : Int)
      ∧ (w.copy_unsigned_golomb r).2.2.data = r.data := by
  obtain ⟨hfit, hz, h1, hsuffix, hat⟩ := code_word_start r n q suffix hr hs hcode hq
  obtain ⟨res, w3, he, -, hw3, -⟩ := bit_writer_c.copy_unsigned_golomb_at r w q n p hn hfit hz h1
    hw hp hroom
  rw [hat] at he
  have hall : bits_from r.data q (2 * n + 1) = List.replicate n false ++ true :: suffix := by
    rw [show 2 * n + 1 = n + (1 + n) by omega, bits_from_add, bits_from_add, bits_from_one,
      hz, h1, hsuffix]
    rfl
  obtain ⟨hlen, hbits, hframe, hpos⟩ := hw3
  rw [bits_from_length] at hbits hframe hpos
  rw [he]
  refine ⟨by rw [← hall]; exact hbits, hbits, hframe, hlen, hpos, ?_, rfl⟩
  rw [bit_reader_c.bit_offset_at_bit, Nat.add_assoc]

/-- The amended C17 on the code word `00101` of the value 4: copied into a
buffer of ones from bit 0 on, it gives `0010 1111`, leaves the second byte
alone and moves both cursors to bit 5. -/
theorem copy_unsigned_golomb_bit_for_bit_witness :
    ((bit_writer_c.create [0xFF, 0xFF]).copy_unsigned_golomb
          (bit_reader_c.init [0x28])).2.1.data = [0x2F, 0xFF]
      ∧ bits_from ((bit_writer_c.create [0xFF, 0xFF]).copy_unsigned_golomb
          (bit_reader_c.init [0x28])).2.1.data 0 (2 * 2 + 1)
          = List.replicate 2 false ++ true :: [false, true]
      ∧ ((bit_writer_c.create [0xFF, 0xFF]).copy_unsigned_golomb
          (bit_reader_c.init [0x28])).2.2.bit_offset = ((0 + (2 * 2 + 1) : Nat) : Int) :=
  have h := copy_unsigned_golomb_bit_for_bit (bit_writer_c.create [0xFF, 0xFF])
    (bit_reader_c.init [0x28]) 2 0 0 [false, true] (by decide) (by decide) (by decide)
    (by decide) (by decide) (by decide) (by decide) (by decide)
  ⟨by decide, h.1, h.2.2.2.2.2.1⟩

/-- C18: Golomb copy returns the decoded value. From every reader state from
which `get_unsigned_golomb` returns a value, and with room in the writer for
the bits that the reader consumes, `copy_unsigned_golomb` returns the value
that `get_unsigned_golomb` returns and leaves the reader in the state in
which `get_unsigned_golomb` leaves it, and `copy_signed_golomb` returns what
`get_signed_golomb` returns and leaves the reader in the same state. -/
theorem copy_golomb_agrees (w : bit_writer_c) (r : bit_reader_c) (p v : Nat)
    (hw : w.valid) (hr : r.valid) (hok : r.get_unsigned_golomb.1 = .ok v)
    (hp : w.bit_offset = p)
    (hroom : (p : Int) + (r.get_unsigned_golomb.2.bit_offset - r.bit_offset)
      ≤ 8 * (w.data.length : Int)) :
    (w.copy_unsigned_golomb r).1 = .ok v
      ∧ (w.copy_unsigned_golomb r).2.2 = r.get_unsigned_golomb.2
      ∧ (w.copy_signed_golomb r).1 = r.get_signed_golomb.1
      ∧ (w.copy_signed_golomb r).2.2 = r.get_signed_golomb.2 := by
  obtain ⟨n, q, hn, hq, hat, hfit, hz, h1⟩ := bit_reader_c.get_unsigned_golomb_ok r hr v hok
  have hg := bit_reader_c.get_unsigned_golomb_at r q n hn hfit hz h1
  rw [hat] at hg
  rw [hg] at hok hroom
  rw [bit_reader_c.bit_offset_at_bit, hq] at hroom
  obtain ⟨res, w3, he, -, -, hres⟩ := bit_writer_c.copy_unsigned_golomb_at r w q n p (by omega)
    hfit hz h1 hw hp (by omega)
  rw [hat, hres hn] at he
  simp only [Except.ok.injEq] at hok
  simp [bit_writer_c.copy_signed_golomb, bit_reader_c.get_signed_golomb, he, hg, hok]

/-- C18 at a code word with 31 leading zero bits, the longest that
`get_unsigned_golomb` decodes: the reader returns `2 ^ 31 - 1` and, for the
signed code, `2 ^ 30`, and the two copying calls return the same values,
`(1 << 31) - 1` being `2 ^ 31 - 1` in the 32-bit arithmetic of the compiled
code. -/
theorem copy_golomb_agrees_witness :
    (bit_reader_c.init [0, 0, 0, 1, 0, 0, 0, 0]).get_unsigned_golomb.1 = .ok (2 ^ 31 - 1)
      ∧ (bit_reader_c.init [0, 0, 0, 1, 0, 0, 0, 0]).get_signed_golomb.1 = .ok (2 ^ 30)
      ∧ ((bit_writer_c.create [0, 0, 0, 0, 0, 0, 0, 0]).copy_unsigned_golomb
          (bit_reader_c.init [0, 0, 0, 1, 0, 0, 0, 0])).1 = .ok (2 ^ 31 - 1)
      ∧ ((bit_writer_c.create [0, 0, 0, 0, 0, 0, 0, 0]).copy_signed_golomb
          (bit_reader_c.init [0, 0, 0, 1, 0, 0, 0, 0])).1
          = (bit_reader_c.init [0, 0, 0, 1, 0, 0, 0, 0]).get_signed_golomb.1
      ∧ ((bit_writer_c.create [0, 0, 0, 0, 0, 0, 0, 0]).copy_unsigned_golomb
          (bit_reader_c.init [0, 0, 0, 1, 0, 0, 0, 0])).2.1.data = [0, 0, 0, 1, 0, 0, 0, 0] :=
  have h := copy_golomb_agrees (bit_writer_c.create [0, 0, 0, 0, 0, 0, 0, 0])
    (bit_reader_c.init [0, 0, 0, 1, 0, 0, 0, 0]) 0 (2 ^ 31 - 1) (by decide) (by decide)
    (by decide) (by decide) (by decide)
  ⟨by decide, by decide, h.1, h.2.2.1, by decide⟩

/-! ## Widths and code words within 32 bits -/

/-- C27: Exp-Golomb decoding for up to 31 leading zeros. When the unread bits
of the reader start with `n ≤ 31` zero bits, a one bit and `n` bits of
big-endian value `s`, `get_unsigned_golomb` returns `2 ^ n - 1 + s`, a value
below `2 ^ 32` computed without wrap-around, and moves the cursor by
`2 n + 1` bits, whatever the length of the buffer. -/
theorem get_unsigned_golomb_up_to_31 (r : bit_reader_c) (n q : Nat) (suffix : List Bool)
    (hr : r.valid) (hn : n ≤ 31) (hs : suffix.length = n)
    (hcode : List.replicate n false ++ true :: suffix <+: unread_bits r)
    (hq : r.bit_offset = q) :
    r.get_unsigned_golomb.1 = .ok (2 ^ n - 1 + be_value suffix)
      ∧ 2 ^ n - 1 + be_value suffix < 2 ^ 32
      ∧ r.get_unsigned_golomb.2.bit_offset = ((q + (2 * n + 1) : Nat) : Int) := by
  obtain ⟨hfit, hz, h1, hsuffix, hat⟩ := code_word_start r n q suffix hr hs hcode hq
  have hg := bit_reader_c.get_unsigned_golomb_at r q n hn hfit hz h1
  rw [hat, hsuffix] at hg
  rw [hg]
  refine ⟨rfl, ?_, ?_⟩
  · have hlt := be_value_lt suffix
    rw [hs] at hlt
    have hpow : (2 : Nat) ^ n ≤ 2 ^ 31 := Nat.pow_le_pow_right (by decide) hn
    omega
  · rw [bit_reader_c.bit_offset_at_bit, Nat.add_assoc]

/-- C27 on the code word `0001 101` of the value 12. -/
theorem get_unsigned_golomb_up_to_31_witness :
    (bit_reader_c.init [0x1A]).get_unsigned_golomb.1
        = .ok (2 ^ 3 - 1 + be_value [true, false, true])
      ∧ (bit_reader_c.init [0x1A]).get_unsigned_golomb.2.bit_offset
          = ((0 + (2 * 3 + 1) : Nat) : Int) :=
  have h := get_unsigned_golomb_up_to_31 (bit_reader_c.init [0x1A]) 3 0 [true, false, true]
    (by decide) (by decide) (by decide) (by decide) (by decide)
  ⟨h.1, h.2.2⟩

/-- C30: the constructor `packet_t()` does not produce an absent packet. It
sets `timecode`, `bref` and `fref` to 0 and `duration` to -1, so that the
time code and both references are present, the duration is not, and the
packet is a B frame and not a key frame, unlike a packet built from a payload
without optional arguments. -/
theorem create_is_not_absent :
    packet_t.create.timecode = 0 ∧ packet_t.create.bref = 0 ∧ packet_t.create.fref = 0
      ∧ packet_t.create.duration = -1
      ∧ packet_t.create.has_timecode = true ∧ packet_t.create.has_bref = true
      ∧ packet_t.create.has_fref = true ∧ packet_t.create.has_duration = false
      ∧ packet_t.create.is_b_frame = true ∧ packet_t.create.is_key_frame = false
      ∧ packet_t.create.is_p_frame = false
      ∧ (∀ m : memory_cptr,
          (packet_t.of_memory_cptr m none none none none).is_key_frame = true
            ∧ (packet_t.of_memory_cptr m none none none none).is_b_frame = false
            ∧ (packet_t.of_memory_cptr m none none none none).has_timecode = false) := by
  refine ⟨rfl, rfl, rfl, rfl, by decide, by decide, by decide, by decide, by decide, by decide,
    by decide, fun m => ⟨?_, ?_, ?_⟩⟩ <;>
    simp [packet_t.of_memory_cptr, packet_t.is_key_frame, packet_t.is_b_frame,
      packet_t.has_bref, packet_t.has_fref, packet_t.has_timecode]

/-! ## Unary and ternary reads -/

namespace bit_reader_c

/-- What the loop of `get_unary` does from a cursor at bit `q` with `m` bits
left, `k` of them in front of the first stop bit: it counts `min k left`
bits and stops behind the stop bit or, if that is not among the first `left`
bits, behind `left` bits. -/
theorem get_unary_loop_at (r : bit_reader_c) (stop : Bool) :
    ∀ (left q i m : Nat), q + m ≤ 8 * r.data.length →
      (((bits_from r.data q m).takeWhile (fun b => b != stop)).length < left →
        ((bits_from r.data q m).takeWhile (fun b => b != stop)).length < m) →
      get_unary_loop left (r.at_bit q) stop i =
        (.ok (i + min ((bits_from r.data q m).takeWhile (fun b => b != stop)).length left),
          r.at_bit (q +
            if ((bits_from r.data q m).takeWhile (fun b => b != stop)).length < left then
              ((bits_from r.data q m).takeWhile (fun b => b != stop)).length + 1
            else left)) := by
  intro left
  induction left with
  | zero =>
    intro q i m _ _
    simp [get_unary_loop]
  | succ left ih =>
    intro q i m hm hk
    cases m with
    | zero =>
      have hnil : bits_from r.data q 0 = [] := by simp [bits_from]
      rw [hnil] at hk
      simp at hk
    | succ m =>
      rw [bits_from_succ_left] at hk ⊢
      have hbit := get_bit_at r q (by omega)
      by_cases hb : bit_at r.data q = stop
      · have hw : (bit_at r.data q != stop) = false := by simp [hb]
        simp only [get_unary_loop, hbit, List.takeWhile_cons, hw, hb]
        simp
      · have hw : (bit_at r.data q != stop) = true := by simpa using hb
        have hne : (bit_at r.data q).toNat ≠ stop.toNat := by
          cases hq : bit_at r.data q <;> cases hs : stop <;> simp_all
        simp only [List.takeWhile_cons, hw, if_true, List.length_cons] at hk ⊢
        simp only [get_unary_loop, hbit, hne, ne_eq, not_false_eq_true, if_true]
        rw [ih (q + 1) (i + 1) m (by omega) (by omega)]
        have e1 : i + 1 + min ((bits_from r.data (q + 1) m).takeWhile (fun b => b != stop)).length
              left
            = i + min (((bits_from r.data (q + 1) m).takeWhile (fun b => b != stop)).length + 1)
              (left + 1) := by
          omega
        have e2 : (q + 1 +
              if ((bits_from r.data (q + 1) m).takeWhile (fun b => b != stop)).length < left then
                ((bits_from r.data (q + 1) m).takeWhile (fun b => b != stop)).length + 1
              else left)
            = q +
              if ((bits_from r.data (q + 1) m).takeWhile (fun b => b != stop)).length + 1
                  < left + 1 then
                ((bits_from r.data (q + 1) m).takeWhile (fun b => b != stop)).length + 1 + 1
              else left + 1 := by
          split <;> split <;> omega
        rw [e1, e2]

end bit_reader_c

/-- C21: the unary read. For a reader, a stop bit `stop` and a limit `len`,
let `k` be the number of leading unread bits that differ from `stop`. When
the buffer does not run out first, that is when the stop bit is there if it
is looked for (`k < len`), `get_unary stop len` returns `min k len`, and 0
for `len ≤ 0`. It consumes `k + 1` bits, the stop bit included, when the stop
bit is among the first `len` bits, and exactly `len` bits (none for
`len ≤ 0`) when it is not, returning `len` then without raising. -/
theorem get_unary_spec (r : bit_reader_c) (stop : Bool) (len : Int) (hv : r.valid)
    (hfit : (((unread_bits r).takeWhile (fun b => b != stop)).length : Int) < len →
      ((unread_bits r).takeWhile (fun b => b != stop)).length < (unread_bits r).length) :
    (r.get_unary stop len).1
        = .ok (min (((unread_bits r).takeWhile (fun b => b != stop)).length : Int) (max len 0))
      ∧ (r.get_unary stop len).2.bit_offset
        = r.bit_offset +
            (if (((unread_bits r).takeWhile (fun b => b != stop)).length : Int) < len then
              (((unread_bits r).takeWhile (fun b => b != stop)).length : Int) + 1
            else max len 0) := by
  by_cases hlen : len ≤ 0
  · have h0 : len.toNat = 0 := Int.toNat_eq_zero.mpr hlen
    have hnot : ¬ ((((unread_bits r).takeWhile (fun b => b != stop)).length : Int) < len) := by
      omega
    simp only [bit_reader_c.get_unary, h0, bit_reader_c.get_unary_loop, if_neg hnot]
    rw [max_eq_right hlen]
    constructor
    · congr 1
      omega
    · omega
  · have hlen' : 0 < len := by omega
    have hrem := bit_reader_c.bits_left_eq r
    have hpos : 0 ≤ r.bit_offset := by
      simp only [bit_reader_c.bit_offset]
      have := hv.2.1
      omega
    obtain ⟨p, hp⟩ := Int.eq_ofNat_of_zero_le hpos
    have hklen : ((unread_bits r).takeWhile (fun b => b != stop)).length
        ≤ (unread_bits r).length := (List.takeWhile_prefix _).length_le
    have hlength : (unread_bits r).length = r.bits_left.toNat := by
      simp [unread_bits, bits_from_length]
    have hne : 1 ≤ (unread_bits r).length := by
      by_cases hk : (((unread_bits r).takeWhile (fun b => b != stop)).length : Int) < len
      · have := hfit hk
        omega
      · omega
    have hple : p + r.bits_left.toNat ≤ 8 * r.data.length := by omega
    have hat := bit_reader_c.eq_at_bit r hv p hp (by omega)
    have hun : unread_bits r = bits_from r.data p r.bits_left.toNat := by
      simp [unread_bits, hp]
    rw [hun] at hfit ⊢
    have hloop := bit_reader_c.get_unary_loop_at r stop len.toNat p 0
      r.bits_left.toNat hple (by
        intro h
        have h1 := hfit (by omega)
        rwa [bits_from_length] at h1)
    rw [hat] at hloop
    simp only [bit_reader_c.get_unary, hloop, bit_reader_c.bit_offset_at_bit, hp]
    rw [max_eq_left (by omega : (0 : Int) ≤ len)]
    constructor
    · congr 1
      simp only [Nat.zero_add, Nat.cast_min, Int.toNat_of_nonneg (by omega : (0 : Int) ≤ len)]
    · split <;> split <;> push_cast <;> omega

/-- C21 on the buffer `0001 0000`: with stop bit 1 and limit 8 the three
zero bits are counted and four bits are consumed. -/
theorem get_unary_spec_witness :
    ((bit_reader_c.init [0x10]).get_unary true 8).1 = .ok 3
      ∧ ((bit_reader_c.init [0x10]).get_unary true 8).2.bit_offset = 4
      ∧ ((bit_reader_c.init [0x10]).get_unary true 2).1 = .ok 2
      ∧ ((bit_reader_c.init [0x10]).get_unary true 2).2.bit_offset = 2 :=
  have h := get_unary_spec (bit_reader_c.init [0x10]) true 8 (by decide) (by decide)
  have h2 := get_unary_spec (bit_reader_c.init [0x10]) true 2 (by decide) (by decide)
  ⟨h.1.trans (by decide), h.2.trans (by decide), h2.1.trans (by decide), h2.2.trans (by decide)⟩

namespace bit_reader_c

/-- A single bit read by `get_bits` from a valid reader is 0 or 1. -/
theorem get_bits_one_le (r : bit_reader_c) (hv : r.valid) (v : Nat)
    (h : (r.get_bits 1).1 = .ok v) : v ≤ 1 := by
  by_cases hrem : r.bits_left < ((1 : Nat) : Int)
  · rw [get_bits_raise r hv 1 (le_refl 1) hrem] at h
    cases h
  · have hrem' := bits_left_eq r
    have hpos : 0 ≤ r.bit_offset := by
      simp only [bit_offset]
      have := hv.2.1
      omega
    obtain ⟨p, hp⟩ := Int.eq_ofNat_of_zero_le hpos
    rw [get_bits_ok r hv p 1 hp (by push_cast at hrem; omega)] at h
    have hlt := be_value_bits_from_lt r.data p 1
    have hmod : be_value (bits_from r.data p 1) % 2 ^ 64 = be_value (bits_from r.data p 1) :=
      Nat.mod_eq_of_lt (by omega)
    simp only [hmod, Except.ok.injEq] at h
    omega

end bit_reader_c

/-- C24: the ternary read. From a valid reader at bit `q` with enough unread
bits (one when the next bit is 0, two otherwise), `get_012` returns 0 and
consumes one bit when the next bit is 0, and otherwise consumes two bits and
returns 1 plus the second bit: `0` gives 0, `10` gives 1 and `11` gives 2.
Whenever `get_012` returns, the result is 0, 1 or 2. -/
theorem get_012_spec (r : bit_reader_c) (q : Nat) (hv : r.valid)
    (hq : r.bit_offset = q)
    (hfit : q + (if bit_at r.data q then 2 else 1) ≤ 8 * r.data.length) :
    r.get_012.1 = .ok (if bit_at r.data q then 1 + (bit_at r.data (q + 1)).toNat else 0)
      ∧ r.get_012.2.bit_offset = ((q + (if bit_at r.data q then 2 else 1) : Nat) : Int)
      ∧ (∀ r0 : bit_reader_c, r0.valid → ∀ v, r0.get_012.1 = .ok v → v = 0 ∨ v = 1 ∨ v = 2) := by
  refine ⟨?_, ?_, ?_⟩
  · have hat := bit_reader_c.eq_at_bit r hv q hq (by split at hfit <;> omega)
    have hbit := bit_reader_c.get_bit_at r q (by split at hfit <;> omega)
    rw [hat] at hbit
    cases hb : bit_at r.data q with
    | false => simp [bit_reader_c.get_012, hbit, hb]
    | true =>
      rw [hb] at hfit
      have hbit2 := bit_reader_c.get_bit_at r (q + 1) (by simp at hfit; omega)
      simp only [bit_reader_c.get_bit] at hbit2
      simp [bit_reader_c.get_012, hbit, hb, hbit2, Nat.add_comm]
  · have hat := bit_reader_c.eq_at_bit r hv q hq (by split at hfit <;> omega)
    have hbit := bit_reader_c.get_bit_at r q (by split at hfit <;> omega)
    rw [hat] at hbit
    cases hb : bit_at r.data q with
    | false =>
      simp [bit_reader_c.get_012, hbit, hb, bit_reader_c.bit_offset_at_bit]
    | true =>
      rw [hb] at hfit
      have hbit2 := bit_reader_c.get_bit_at r (q + 1) (by simp at hfit; omega)
      simp only [bit_reader_c.get_bit] at hbit2
      simp only [bit_reader_c.get_012, hbit, hb, hbit2, bit_reader_c.bit_offset_at_bit,
        Bool.toNat_true, one_ne_zero, if_false, if_true]
  · intro r0 hv0 v h
    simp only [bit_reader_c.get_012] at h
    have hv1 : r0.get_bit.2.valid := bit_reader_c.valid_get_bits r0 1 hv0
    generalize hg : r0.get_bit = g at h hv1
    obtain ⟨res, r1⟩ := g
    cases res with
    | error e => cases h
    | ok bit =>
      simp only at h hv1
      by_cases hb : bit = 0
      · simp only [hb, if_true, Except.ok.injEq] at h
        omega
      · simp only [hb, if_false] at h
        have hle := bit_reader_c.get_bits_one_le r1 hv1
        generalize hg2 : r1.get_bits 1 = g2 at h hle
        obtain ⟨res2, r2⟩ := g2
        cases res2 with
        | error e => cases h
        | ok value =>
          simp only [Except.ok.injEq] at h
          have := hle value rfl
          omega

/-- C24 on the three bit patterns `0`, `10` and `11`. -/
theorem get_012_spec_witness :
    (bit_reader_c.init [0x00]).get_012.1 = .ok 0
      ∧ (bit_reader_c.init [0x00]).get_012.2.bit_offset = 1
      ∧ (bit_reader_c.init [0x80]).get_012.1 = .ok 1
      ∧ (bit_reader_c.init [0x80]).get_012.2.bit_offset = 2
      ∧ (bit_reader_c.init [0xC0]).get_012.1 = .ok 2
      ∧ (bit_reader_c.init [0xC0]).get_012.2.bit_offset = 2 :=
  have h0 := get_012_spec (bit_reader_c.init [0x00]) 0 (by decide) (by decide) (by decide)
  have h1 := get_012_spec (bit_reader_c.init [0x80]) 0 (by decide) (by decide) (by decide)
  have h2 := get_012_spec (bit_reader_c.init [0xC0]) 0 (by decide) (by decide) (by decide)
  ⟨h0.1.trans (by decide), h0.2.1.trans (by decide), h1.1.trans (by decide),
    h1.2.1.trans (by decide), h2.1.trans (by decide), h2.2.1.trans (by decide)⟩

/-! ## The law of the reader's member functions -/

namespace bit_reader_c

theorem follows_refl (r : bit_reader_c) : r.follows (.ok ()) r :=
  ⟨rfl, fun h => (by cases h), fun _ => rfl, id, id, fun h _ => h⟩

theorem follows_trans (r r1 r2 : bit_reader_c) (res : Except cursor_x Unit)
    (h1 : r.follows (.ok ()) r1) (h2 : r1.follows res r2) : r.follows res r2 := by
  obtain ⟨a1, -, c1, d1, e1, f1⟩ := h1
  obtain ⟨a2, b2, c2, d2, e2, f2⟩ := h2
  exact ⟨a2.trans a1, b2, fun h => (c2 h).trans (c1 (by intro h; cases h)), fun h => d2 (d1 h),
    fun h => e2 (e1 h), fun h hr => f2 (f1 h rfl) hr⟩

/-- An outcome that is not `end_of_file_x` and comes with the state of a
call that returned. -/
theorem follows_weaken (r r1 : bit_reader_c) (e : cursor_x) (he : e ≠ .end_of_file_x)
    (h : r.follows (.ok ()) r1) : r.follows (.error e) r1 := by
  obtain ⟨a, -, c, d, e1, -⟩ := h
  refine ⟨a, fun h => ?_, fun _ => c (by intro h; cases h), d, e1, fun _ h => by cases h⟩
  cases h
  exact absurd rfl he

/-- Moving the cursor to a bit position of the buffer. -/
theorem follows_step (r : bit_reader_c) (bp bv : Nat) (hbp : bp ≤ r.data.length)
    (hbv1 : 1 ≤ bv) (hbv8 : bv ≤ 8) (hend : bp = r.data.length → bv = 8) :
    r.follows (.ok ()) { r with m_byte_position := bp, m_bits_valid := bv } :=
  ⟨rfl, fun h => (by cases h), fun _ => rfl, fun _ => ⟨hbp, fun _ => ⟨hbv1, hbv8⟩⟩,
    fun _ => ⟨hbp, hbv8, fun _ => hbv1⟩, fun _ _ => ⟨hbp, hbv1, hbv8, hend⟩⟩

/-- Setting the flag behind `eof()` on a raise. -/
theorem follows_raise (r : bit_reader_c) :
    r.follows (.error .end_of_file_x) { r with m_out_of_data := true } :=
  ⟨rfl, fun _ => rfl, fun h => absurd rfl h, fun h => ⟨h.1, fun hf => by cases hf⟩,
    fun h => h, fun _ h => by cases h⟩

theorem follows_get_bits_loop (fuel : Nat) :
    ∀ (r : bit_reader_c) (n acc : Nat),
      r.follows (outcome (get_bits_loop fuel r n acc).1) (get_bits_loop fuel r n acc).2 := by
  induction fuel with
  | zero =>
    intro r n acc
    exact follows_refl r
  | succ fuel ih =>
    intro r n acc
    simp only [get_bits_loop]
    split
    · exact follows_refl r
    · split
      · exact follows_raise r
      · rename_i hn hbp
        split
        · exact follows_trans _ _ _ _
            (follows_step r (r.m_byte_position + 1) 8 (by omega) (by omega) (by omega)
              (fun _ => rfl))
            (ih _ _ _)
        · rename_i h0
          refine follows_trans _ _ _ _ ?_ (ih _ _ _)
          refine ⟨rfl, fun h => (by cases h), fun _ => rfl, ?_, ?_, ?_⟩
          · intro h
            refine ⟨h.1, fun hf => ?_⟩
            have := h.2 hf
            simp only at this ⊢
            omega
          · intro h
            have h2 := h.2.1
            exact ⟨h.1, by simp only; omega, fun _ => by simp only; omega⟩
          · intro h _
            have h3 := h.2.2.1
            exact ⟨h.1, by simp only; omega, by simp only; omega,
              fun hend => by simp only at hend; omega⟩

theorem follows_get_bits (r : bit_reader_c) (n : Nat) :
    r.follows (outcome (r.get_bits n).1) (r.get_bits n).2 :=
  follows_get_bits_loop (n + 1) r n 0

theorem follows_set_bit_position (r : bit_reader_c) (pos : Nat) :
    r.follows (r.set_bit_position pos).1 (r.set_bit_position pos).2 := by
  simp only [set_bit_position]
  split
  · exact ⟨rfl, fun _ => rfl, fun h => absurd rfl h, fun _ => ⟨le_refl _, fun hf => by cases hf⟩,
      fun h => ⟨le_refl _, h.2.1, fun hlt => absurd hlt (lt_irrefl _)⟩, fun _ h => by cases h⟩
  · exact follows_step r (pos / 8) (8 - pos % 8) (by omega) (by omega) (by omega) (by omega)

theorem follows_get_bytes_loop (fuel : Nat) :
    ∀ (r : bit_reader_c) (idx n : Nat) (buf : List (Fin 256)),
      r.follows (get_bytes_loop fuel r idx n buf).1 (get_bytes_loop fuel r idx n buf).2.2 := by
  induction fuel with
  | zero =>
    intro r idx n buf
    exact follows_raise r
  | succ fuel ih =>
    intro r idx n buf
    simp only [get_bytes_loop]
    split
    · have h := follows_get_bits r 8
      generalize r.get_bits 8 = g at h ⊢
      obtain ⟨res, r1⟩ := g
      cases res with
      | error e => exact h
      | ok value => exact follows_trans _ _ _ _ h (ih r1 _ _ _)
    · exact follows_refl r

theorem follows_get_bytes (r : bit_reader_c) (n : Nat) :
    r.follows (r.get_bytes n).1 (r.get_bytes n).2.2 := by
  simp only [get_bytes]
  split
  · rename_i h8
    simp only [get_bytes_byte_aligned]
    split
    · refine ⟨rfl, fun _ => rfl, fun h => absurd rfl h, ?_, ?_, fun _ h => by cases h⟩
      · intro h
        have h1 := h.1
        exact ⟨by simp only; omega, fun hf => by cases hf⟩
      · intro h
        have h1 := h.1
        exact ⟨by simp only; omega, h.2.1, fun hlt => h.2.2 (by simp only at hlt; omega)⟩
    · refine ⟨rfl, fun h => (by cases h), fun _ => rfl, ?_, ?_, ?_⟩
      · intro h
        have h1 := h.1
        exact ⟨by simp only; omega, h.2⟩
      · intro h
        have h1 := h.1
        exact ⟨by simp only; omega, h.2.1, fun hlt => h.2.2 (by simp only at hlt; omega)⟩
      · intro h _
        have h1 := h.1
        exact ⟨by simp only; omega, h.2.1, h.2.2.1, fun _ => h8.symm⟩
  · exact follows_get_bytes_loop _ r 0 n []

theorem follows_get_unary_loop (left : Nat) :
    ∀ (r : bit_reader_c) (stop : Bool) (i : Nat),
      r.follows (outcome (get_unary_loop left r stop i).1) (get_unary_loop left r stop i).2 := by
  induction left with
  | zero =>
    intro r stop i
    exact follows_refl r
  | succ left ih =>
    intro r stop i
    simp only [get_unary_loop]
    have h := follows_get_bits r 1
    simp only [get_bit]
    generalize r.get_bits 1 = g at h ⊢
    obtain ⟨res, r1⟩ := g
    cases res with
    | error e => exact h
    | ok bit =>
      simp only
      split
      · exact follows_trans _ _ _ _ h (ih r1 _ _)
      · exact h

theorem follows_get_unary (r : bit_reader_c) (stop : Bool) (len : Int) :
    r.follows (outcome (r.get_unary stop len).1) (r.get_unary stop len).2 := by
  simp only [get_unary]
  have h := follows_get_unary_loop len.toNat r stop 0
  generalize get_unary_loop len.toNat r stop 0 = g at h ⊢
  obtain ⟨res, r1⟩ := g
  cases res with
  | error e => exact h
  | ok i => exact h

theorem follows_get_012 (r : bit_reader_c) :
    r.follows (outcome r.get_012.1) r.get_012.2 := by
  simp only [get_012]
  have h := follows_get_bits r 1
  simp only [get_bit]
  generalize r.get_bits 1 = g at h ⊢
  obtain ⟨res, r1⟩ := g
  cases res with
  | error e => exact h
  | ok bit =>
    simp only
    split
    · exact h
    · have h2 := follows_get_bits r1 1
      generalize r1.get_bits 1 = g2 at h2 ⊢
      obtain ⟨res2, r2⟩ := g2
      cases res2 with
      | error e => exact follows_trans _ _ _ _ h h2
      | ok value => exact follows_trans _ _ _ _ h h2

theorem follows_golomb_zeros (fuel : Nat) :
    ∀ (r : bit_reader_c) (n : Nat),
      r.follows (outcome (golomb_zeros fuel r n).1) (golomb_zeros fuel r n).2 := by
  induction fuel with
  | zero =>
    intro r n
    exact follows_raise r
  | succ fuel ih =>
    intro r n
    simp only [golomb_zeros]
    have h := follows_get_bits r 1
    simp only [get_bit]
    generalize r.get_bits 1 = g at h ⊢
    obtain ⟨res, r1⟩ := g
    cases res with
    | error e => exact h
    | ok bit =>
      simp only
      split
      · exact follows_trans _ _ _ _ h (ih r1 _)
      · exact h

theorem follows_get_unsigned_golomb (r : bit_reader_c) :
    r.follows (outcome r.get_unsigned_golomb.1) r.get_unsigned_golomb.2 := by
  simp only [get_unsigned_golomb]
  have h := follows_golomb_zeros (golomb_fuel r) r 0
  generalize golomb_zeros (golomb_fuel r) r 0 = g at h ⊢
  obtain ⟨res, r1⟩ := g
  cases res with
  | error e => exact h
  | ok n =>
    simp only
    have h2 := follows_get_bits r1 n
    generalize r1.get_bits n = g2 at h2 ⊢
    obtain ⟨res2, r2⟩ := g2
    cases res2 with
    | error e => exact follows_trans _ _ _ _ h h2
    | ok bits =>
      simp only
      cases shl_unsigned_one n with
      | none => exact follows_weaken _ _ _ (by decide) (follows_trans _ _ _ _ h h2)
      | some p => exact follows_trans _ _ _ _ h h2

theorem follows_get_signed_golomb (r : bit_reader_c) :
    r.follows (outcome r.get_signed_golomb.1) r.get_signed_golomb.2 := by
  simp only [get_signed_golomb]
  have h := follows_get_unsigned_golomb r
  generalize r.get_unsigned_golomb = g at h ⊢
  obtain ⟨res, r1⟩ := g
  cases res with
  | error e => exact h
  | ok u => exact h

theorem follows_byte_align (r : bit_reader_c) : r.follows r.byte_align.1 r.byte_align.2 := by
  simp only [byte_align]
  split
  · exact follows_set_bit_position r _
  · exact follows_refl r

theorem follows_skip_get_bits (r : bit_reader_c) (to_skip to_get : Nat) :
    r.follows (outcome (r.skip_get_bits to_skip to_get).1) (r.skip_get_bits to_skip to_get).2 := by
  simp only [skip_get_bits, skip_bits]
  have h := follows_set_bit_position r (to_uint64 (r.get_bit_position + to_skip))
  generalize r.set_bit_position (to_uint64 (r.get_bit_position + to_skip)) = g at h ⊢
  obtain ⟨res, r1⟩ := g
  cases res with
  | error e => exact h
  | ok u => exact follows_trans _ _ _ _ h (follows_get_bits r1 to_get)

end bit_reader_c

/-- The law of every member function but `peek_bits`, which changes
nothing. -/
theorem reader_op.law (op : reader_op) (r : bit_reader_c) (hop : ∀ n, op ≠ .peek_bits n) :
    r.follows (op.run r).1 (op.run r).2 := by
  cases op with
  | get_bits n => exact bit_reader_c.follows_get_bits r n
  | get_bit => exact bit_reader_c.follows_get_bits r 1
  | get_unary stop len => exact bit_reader_c.follows_get_unary r stop len
  | get_012 => exact bit_reader_c.follows_get_012 r
  | get_unsigned_golomb => exact bit_reader_c.follows_get_unsigned_golomb r
  | get_signed_golomb => exact bit_reader_c.follows_get_signed_golomb r
  | peek_bits n => exact absurd rfl (hop n)
  | get_bytes n => exact bit_reader_c.follows_get_bytes r n
  | byte_align => exact bit_reader_c.follows_byte_align r
  | set_bit_position pos => exact bit_reader_c.follows_set_bit_position r pos
  | skip_bits num => exact bit_reader_c.follows_set_bit_position r _
  | skip_bit => exact bit_reader_c.follows_set_bit_position r _
  | skip_get_bits to_skip to_get => exact bit_reader_c.follows_skip_get_bits r to_skip to_get

theorem reader_op.run_peek_bits (r : bit_reader_c) (n : Nat) :
    ((reader_op.peek_bits n).run r).2 = r := rfl

/-! ## The cursor invariant and the meaning of `eof` -/

/-- C25: the cursor invariant of the reader. The predicate "the byte
position is between the start and the end of the buffer, and `m_bits_valid`
is between 1 and 8 while the flag behind `eof()` is false" holds after `init`
over any buffer and is kept by each of the thirteen public member functions
from any state in which it holds, whether the call returns or raises. -/
theorem cursor_invariant_preserved :
    (∀ data, (bit_reader_c.init data).cursor_invariant)
      ∧ (∀ (op : reader_op) (r : bit_reader_c),
          r.cursor_invariant → (op.run r).2.cursor_invariant)
      ∧ (∀ (r : bit_reader_c), r.cursor_invariant →
          (∀ n, (r.get_bits n).2.cursor_invariant)
            ∧ r.get_bit.2.cursor_invariant
            ∧ (∀ stop len, (r.get_unary stop len).2.cursor_invariant)
            ∧ r.get_012.2.cursor_invariant
            ∧ r.get_unsigned_golomb.2.cursor_invariant
            ∧ r.get_signed_golomb.2.cursor_invariant
            ∧ (∀ n, (r.peek_bits n).2.cursor_invariant)
            ∧ (∀ n, (r.get_bytes n).2.2.cursor_invariant)
            ∧ r.byte_align.2.cursor_invariant
            ∧ (∀ pos, (r.set_bit_position pos).2.cursor_invariant)
            ∧ (∀ num, (r.skip_bits num).2.cursor_invariant)
            ∧ r.skip_bit.2.cursor_invariant
            ∧ (∀ to_skip to_get, (r.skip_get_bits to_skip to_get).2.cursor_invariant)) := by
  have hrun : ∀ (op : reader_op) (r : bit_reader_c),
      r.cursor_invariant → (op.run r).2.cursor_invariant := by
    intro op r h
    by_cases hop : ∃ n, op = .peek_bits n
    · obtain ⟨n, rfl⟩ := hop
      exact h
    · exact (reader_op.law op r (fun n hn => hop ⟨n, hn⟩)).2.2.2.1 h
  refine ⟨fun data => ?_, hrun, fun r h => ⟨fun n => hrun (.get_bits n) r h, hrun .get_bit r h,
    fun stop len => hrun (.get_unary stop len) r h, hrun .get_012 r h,
    hrun .get_unsigned_golomb r h, hrun .get_signed_golomb r h, fun n => hrun (.peek_bits n) r h,
    fun n => hrun (.get_bytes n) r h, hrun .byte_align r h,
    fun pos => hrun (.set_bit_position pos) r h, fun num => hrun (.skip_bits num) r h,
    hrun .skip_bit r h, fun to_skip to_get => hrun (.skip_get_bits to_skip to_get) r h⟩⟩
  refine ⟨Nat.zero_le _, fun hf => ?_⟩
  have hne : data.length ≠ 0 := by
    intro h0
    simp [bit_reader_c.init, h0] at hf
  simp [bit_reader_c.init, hne]

/-- C25 on a reader that raised: after `get_bits 9` on a one-byte buffer the
invariant holds, and it holds after a following `byte_align`. -/
theorem cursor_invariant_preserved_witness :
    ((bit_reader_c.init [0xB5]).get_bits 9).1 = .error .end_of_file_x
      ∧ ((bit_reader_c.init [0xB5]).get_bits 9).2.cursor_invariant
      ∧ ((bit_reader_c.init [0xB5]).get_bits 9).2.byte_align.2.cursor_invariant :=
  have h := (cursor_invariant_preserved.2.2 (bit_reader_c.init [0xB5])
    (cursor_invariant_preserved.1 [0xB5])).1 9
  ⟨by decide, h, (cursor_invariant_preserved.2.2 _ h).2.2.2.2.2.2.2.2.1⟩

/-- A call sets the flag behind `eof()` when it is not `peek_bits` and raises
`end_of_file_x`, and leaves the flag as it is otherwise. -/
theorem reader_op.eof_after (op : reader_op) (r : bit_reader_c) :
    (op.run r).2.eof = true ↔
      r.eof = true ∨ ((∀ n, op ≠ .peek_bits n) ∧ (op.run r).1 = .error .end_of_file_x) := by
  simp only [bit_reader_c.eof]
  by_cases hop : ∃ n, op = .peek_bits n
  · obtain ⟨n, rfl⟩ := hop
    rw [reader_op.run_peek_bits]
    constructor
    · exact fun h => Or.inl h
    · rintro (h | ⟨h, -⟩)
      · exact h
      · exact absurd rfl (h n)
  · have hnp : ∀ n, op ≠ .peek_bits n := fun n hn => hop ⟨n, hn⟩
    obtain ⟨-, b, c, -⟩ := reader_op.law op r hnp
    by_cases hres : (op.run r).1 = .error .end_of_file_x
    · exact ⟨fun _ => Or.inr ⟨hnp, hres⟩, fun _ => b hres⟩
    · rw [c hres]
      constructor
      · exact fun h => Or.inl h
      · rintro (h | ⟨-, h⟩)
        · exact h
        · exact absurd h hres

theorem eof_run_ops (ops : List reader_op) :
    ∀ r : bit_reader_c, (run_ops ops r).2.eof = true ↔
      r.eof = true ∨ ∃ x ∈ (run_ops ops r).1,
        (∀ n, x.1 ≠ .peek_bits n) ∧ x.2 = .error .end_of_file_x := by
  induction ops with
  | nil =>
    intro r
    simp [run_ops]
  | cons op ops ih =>
    intro r
    simp only [run_ops, List.mem_cons, exists_eq_or_imp]
    rw [ih, reader_op.eof_after, or_assoc]

/-- C29: the meaning of `eof()`. After `init` over a buffer and any sequence
of calls of the public member functions, `eof()` is true if and only if the
buffer is empty or one of the calls other than `peek_bits` has raised
`end_of_file_x`; the members that read or move the cursor raise it only
through `get_bits`, `get_bit`, `get_bytes`, `set_bit_position`, `skip_bits`
and `skip_bit`. Reading exactly the bits that are left does not set the
flag, `peek_bits` never changes it, and no call clears it. -/
theorem eof_meaning (data : List (Fin 256)) (ops : List reader_op) :
    ((run_ops ops (bit_reader_c.init data)).2.eof = true ↔
        data.length = 0 ∨ ∃ x ∈ (run_ops ops (bit_reader_c.init data)).1,
          (∀ n, x.1 ≠ .peek_bits n) ∧ x.2 = .error .end_of_file_x)
      ∧ (∀ (r : bit_reader_c) (n : Nat), r.valid → r.get_remaining_bits = n →
          (r.get_bits n).1 ≠ .error .end_of_file_x
            ∧ (r.get_bits n).2.get_remaining_bits = 0
            ∧ (r.get_bits n).2.eof = r.eof)
      ∧ (∀ (r : bit_reader_c) (n : Nat), (r.peek_bits n).2.eof = r.eof)
      ∧ (∀ (op : reader_op) (r : bit_reader_c), r.eof = true → (op.run r).2.eof = true) := by
  refine ⟨?_, ?_, fun r n => rfl, fun op r h => (reader_op.eof_after op r).mpr (Or.inl h)⟩
  · rw [eof_run_ops]
    have hinit : (bit_reader_c.init data).eof = true ↔ data.length = 0 := by
      simp [bit_reader_c.init, bit_reader_c.eof]
    rw [hinit]
  · intro r n hv hrem
    have hrem' := bit_reader_c.bits_left_eq r
    have hleft := bit_reader_c.get_remaining_bits_le r hv n (by rw [hrem])
    obtain ⟨p, hp⟩ := Int.eq_ofNat_of_zero_le (bit_reader_c.bit_offset_range r hv).1
    have hfit : p + n ≤ 8 * r.data.length := by omega
    rw [bit_reader_c.get_bits_ok r hv p n hp hfit]
    refine ⟨fun h => (by cases h), ?_, rfl⟩
    rw [bit_reader_c.get_remaining_bits_at_bit]
    simp only [bit_reader_c.get_remaining_bits, to_int32] at hrem
    simp only [to_int32]
    push_cast
    omega

/-- C29 on a one-byte buffer: reading the 8 bits and then peeking at a ninth
leaves `eof()` false although `peek_bits` raised; reading 9 bits sets it, and
a successful `set_bit_position 0` and a successful read after that leave it
set. -/
theorem eof_meaning_witness :
    (run_ops [.get_bits 8, .peek_bits 1] (bit_reader_c.init [0xB5])).1
        = [(.get_bits 8, .ok ()), (.peek_bits 1, .error .end_of_file_x)]
      ∧ (run_ops [.get_bits 8, .peek_bits 1] (bit_reader_c.init [0xB5])).2.eof = false
      ∧ (run_ops [.get_bits 9, .set_bit_position 0, .get_bits 8] (bit_reader_c.init [0xB5])).1
        = [(.get_bits 9, .error .end_of_file_x), (.set_bit_position 0, .ok ()),
            (.get_bits 8, .ok ())]
      ∧ (run_ops [.get_bits 9, .set_bit_position 0, .get_bits 8]
          (bit_reader_c.init [0xB5])).2.eof = true :=
  ⟨by decide, by decide, by decide,
    (eof_meaning [0xB5] [.get_bits 9, .set_bit_position 0, .get_bits 8]).1.mpr
      (Or.inr ⟨(.get_bits 9, .error .end_of_file_x), by decide, fun n h => (by cases h), rfl⟩)⟩

/-! ## Byte alignment of the reader -/

namespace bit_reader_c

/-- Over a non-empty buffer every state reached from `init` by calls that
returned has its cursor on a bit position of the buffer. -/
theorem reached_positioned (r : bit_reader_c) (h : r.reached) (hne : r.data.length ≠ 0) :
    r.positioned := by
  induction h with
  | init data =>
    simp only [init] at hne ⊢
    simp [positioned, hne]
  | step r op _ hok ih =>
    by_cases hop : ∃ n, op = .peek_bits n
    · obtain ⟨n, rfl⟩ := hop
      exact ih hne
    · obtain ⟨hdata, -, -, -, -, hpos⟩ := reader_op.law op r (fun n hn => hop ⟨n, hn⟩)
      rw [hdata] at hne
      exact hpos (ih hne) hok

/-- What `byte_align` does from a cursor on a bit position of a buffer
shorter than `2 ^ 28` bytes: it returns, leaves `get_bit_position()` on the
smallest multiple of 8 that is not below the position it had, and changes
nothing when that is the position it had. -/
theorem byte_align_positioned (r : bit_reader_c) (hp : r.positioned)
    (hsize : r.data.length < 2 ^ 28) :
    r.byte_align.1 = .ok ()
      ∧ r.byte_align.2.get_bit_position = 8 * ((r.get_bit_position + 7) / 8)
      ∧ (r.get_bit_position % 8 = 0 → r.byte_align.2 = r) := by
  obtain ⟨h1, h2, h3, h4⟩ := hp
  by_cases h8 : 8 = r.m_bits_valid
  · simp only [byte_align, h8, ne_eq, not_true_eq_false, if_false, true_and, implies_true, and_true]
    simp only [get_bit_position, bit_offset, to_int32]
    omega
  · have hlt : r.m_byte_position < r.data.length := by
      by_contra hge
      exact h8 (h4 (by omega)).symm
    have hsum : to_uint64 (r.get_bit_position + r.m_bits_valid) = 8 * r.m_byte_position + 8 := by
      simp only [to_uint64, get_bit_position, bit_offset, to_int32]
      omega
    have hset : r.byte_align
        = (.ok (), { r with m_byte_position := (8 * r.m_byte_position + 8) / 8,
                            m_bits_valid := 8 - (8 * r.m_byte_position + 8) % 8 }) := by
      simp only [byte_align, skip_bits, hsum, set_bit_position, ne_eq, h8, not_false_eq_true,
        if_true]
      rw [if_neg (by omega)]
    rw [hset]
    refine ⟨rfl, ?_, fun hmod => ?_⟩
    · simp only [get_bit_position, bit_offset, to_int32]
      omega
    · simp only [get_bit_position, bit_offset, to_int32] at hmod
      omega

end bit_reader_c

/-- C23: `byte_align` of the reader over the empty buffer. The state that
`init` leaves over a buffer of length 0 is reached from `init` without any
call; it has `m_bits_valid = 0`, so `byte_align` takes it for unaligned and
calls `skip_bits 0`, which asks `set_bit_position` for position 8 and raises
`end_of_file_x`. Over every non-empty buffer shorter than `2 ^ 28` bytes
`byte_align` does from every state reached by calls that returned what is
said of it (`byte_align_positioned`, `reached_positioned`). -/
theorem reader_byte_align_empty_buffer :
    (bit_reader_c.init []).reached
      ∧ (bit_reader_c.init []).m_bits_valid = 0
      ∧ (bit_reader_c.init []).get_bit_position = 8
      ∧ (bit_reader_c.init []).byte_align.1 = .error .end_of_file_x
      ∧ ((bit_reader_c.init []).set_bit_position 0).1 = .ok ()
      ∧ ((bit_reader_c.init []).set_bit_position 0).2.byte_align
          = (.ok (), ((bit_reader_c.init []).set_bit_position 0).2) :=
  ⟨bit_reader_c.reached.init [], by decide, by decide, by decide, by decide, by decide⟩

/-- Reader `byte_align` over a non-empty buffer shorter than `2 ^ 28` bytes,
from every state reached from `init` by calls that returned: the call
returns, the bit position becomes the smallest multiple of 8 that is not
below the position before, and an aligned reader is left as it is. -/
theorem reader_byte_align_reached (r : bit_reader_c) (hr : r.reached)
    (hne : r.data.length ≠ 0) (hsize : r.data.length < 2 ^ 28) :
    r.byte_align.1 = .ok ()
      ∧ r.byte_align.2.get_bit_position = 8 * ((r.get_bit_position + 7) / 8)
      ∧ (r.get_bit_position % 8 = 0 → r.byte_align.2 = r) :=
  bit_reader_c.byte_align_positioned r (bit_reader_c.reached_positioned r hr hne) hsize

/-! ## Reading bytes -/

namespace bit_reader_c

/-- A `get_bits` that raises, raises `end_of_file_x`. -/
theorem get_bits_loop_error (fuel : Nat) :
    ∀ (r : bit_reader_c) (n acc : Nat) (e : cursor_x) (r1 : bit_reader_c),
      get_bits_loop fuel r n acc = (.error e, r1) → e = .end_of_file_x := by
  induction fuel with
  | zero =>
    intro r n acc e r1 h
    simp [get_bits_loop] at h
  | succ fuel ih =>
    intro r n acc e r1 h
    simp only [get_bits_loop] at h
    split at h
    · simp at h
    · split at h
      · simp only [Prod.mk.injEq, Except.error.injEq] at h
        exact h.1.symm
      · split at h <;> exact ih _ _ _ _ _ h

/-- A successful `get_bits` of `n ≥ 1` bits leaves `n` bits less to
deliver. -/
theorem golomb_fuel_get_bits (r r1 : bit_reader_c) (n v : Nat) (hn : 1 ≤ n)
    (h : r.get_bits n = (.ok v, r1)) : r1.golomb_fuel + n = r.golomb_fuel := by
  have hf : n + (if r.m_bits_valid = 0 then 1 else 0) ≤ n + 1 := by split <;> omega
  obtain ⟨hpos, hdata, -⟩ := get_bits_loop_position (n + 1) r n 0 v r1 (fun _ => hf) h
  have hin := get_bits_loop_inside (n + 1) r n 0 v r1 (by omega) hf h
  have hlt : r.m_byte_position < r.data.length := by
    by_contra hge
    rw [get_bits, get_bits_loop] at h
    simp [Nat.not_lt.mp hge, show n ≠ 0 by omega] at h
  simp only [bit_offset] at hpos
  simp only [golomb_fuel]
  rw [hdata] at hin ⊢
  omega

/-- The bound on the number of passes of the loop of `get_bytes` is never
reached: allowing more passes than `golomb_fuel` returns the same, from every
state. -/
theorem get_bytes_loop_fuel (m : Nat) :
    ∀ (r : bit_reader_c) (idx n : Nat) (buf : List (Fin 256)) (f1 f2 : Nat),
      r.golomb_fuel ≤ m → r.golomb_fuel ≤ f1 → r.golomb_fuel ≤ f2 →
      get_bytes_loop f1 r idx n buf = get_bytes_loop f2 r idx n buf := by
  induction m with
  | zero => intro r idx n buf f1 f2 hm; simp only [golomb_fuel] at hm; omega
  | succ m ih =>
    intro r idx n buf f1 f2 hm h1 h2
    have hpos : 1 ≤ r.golomb_fuel := by simp only [golomb_fuel]; omega
    obtain ⟨f1, rfl⟩ : ∃ f, f1 = f + 1 := ⟨f1 - 1, by omega⟩
    obtain ⟨f2, rfl⟩ : ∃ f, f2 = f + 1 := ⟨f2 - 1, by omega⟩
    rw [get_bytes_loop, get_bytes_loop]
    split
    · rcases hg : r.get_bits 8 with ⟨_ | value, r1⟩
      · rfl
      · simp only
        have hlt := golomb_fuel_get_bits r r1 8 value (by decide) hg
        exact ih r1 _ n _ f1 f2 (by omega) (by omega) (by omega)
    · rfl

/-- One call of `get_bits(8)` from a byte boundary inside the buffer: the
byte under the cursor. -/
theorem get_bits_8_aligned (r : bit_reader_c) (h8 : 8 = r.m_bits_valid)
    (hlt : r.m_byte_position < r.data.length) :
    r.get_bits 8 = (.ok (r.data.getD r.m_byte_position 0).val,
      { r with m_byte_position := r.m_byte_position + 1 }) := by
  have hand : ∀ b : Nat, b < 256 → b &&& 255 = b := by
    intro b hb
    rw [show (255 : Nat) = 2 ^ 8 - 1 by rfl, Nat.and_pow_two_sub_one_eq_mod]
    exact Nat.mod_eq_of_lt hb
  cases r with
  | mk data bp bv flag =>
    simp only at h8 hlt
    subst h8
    simp [get_bits, get_bits_loop, Nat.not_le.mpr hlt]
    exact hand _ (Fin.isLt _)

/-- One call of `get_bits(8)` at the end of the buffer. -/
theorem get_bits_8_at_end (r : bit_reader_c) (hge : r.data.length ≤ r.m_byte_position) :
    r.get_bits 8 = (.error .end_of_file_x, { r with m_out_of_data := true }) := by
  simp [get_bits, get_bits_loop, hge]

/-- What `n` successive calls of `get_bits(8)` do from a byte boundary. -/
theorem successive_get_bits_8_aligned (n : Nat) :
    ∀ (r : bit_reader_c), 8 = r.m_bits_valid → r.m_byte_position ≤ r.data.length →
      successive_get_bits_8 n r = r.get_bytes_byte_aligned n := by
  induction n with
  | zero =>
    intro r _ _
    simp [successive_get_bits_8, get_bytes_byte_aligned]
  | succ n ih =>
    intro r h8 hle
    by_cases hlt : r.m_byte_position < r.data.length
    · have hget : r.data.getD r.m_byte_position 0 = r.data[r.m_byte_position] := by
        simp [List.getD_eq_getElem?_getD, List.getElem?_eq_getElem hlt]
      have hof : (Fin.ofNat (r.data[r.m_byte_position]).val : Fin 256)
          = r.data[r.m_byte_position] :=
        Fin.ext (Nat.mod_eq_of_lt (r.data[r.m_byte_position]).isLt)
      have hmin : min (n + 1) (r.data.length - r.m_byte_position)
          = min n (r.data.length - (r.m_byte_position + 1)) + 1 := by omega
      simp only [successive_get_bits_8, get_bits_8_aligned r h8 hlt, hget, hof]
      rw [ih { r with m_byte_position := r.m_byte_position + 1 } h8 (Nat.succ_le_of_lt hlt)]
      simp only [get_bytes_byte_aligned, hmin, List.drop_eq_getElem_cons hlt, List.take_succ_cons]
      have hiff : (min n (r.data.length - (r.m_byte_position + 1)) + 1 < n + 1)
          ↔ (min n (r.data.length - (r.m_byte_position + 1)) < n) := by omega
      by_cases hc : min n (r.data.length - (r.m_byte_position + 1)) < n
      · simp [hc, Nat.add_assoc, Nat.add_comm 1]
      · simp [hc, Nat.add_assoc, Nat.add_comm 1]
    · have hzero : r.data.length - r.m_byte_position = 0 := by omega
      simp [successive_get_bits_8, get_bits_8_at_end r (by omega), get_bytes_byte_aligned, hzero]

/-- For `n` below `2 ^ 32` the loop of `get_bytes` is `n` successive calls of
`get_bits(8)`: with `k` passes to go and the bytes `buf` stored, it stores
behind them what `k` calls deliver. -/
theorem get_bytes_loop_eq (k : Nat) :
    ∀ (fuel : Nat) (r : bit_reader_c) (n : Nat) (buf : List (Fin 256)), n < 2 ^ 32 →
      buf.length + k = n → r.golomb_fuel ≤ fuel →
      get_bytes_loop fuel r buf.length n buf
        = ((successive_get_bits_8 k r).1, buf ++ (successive_get_bits_8 k r).2.1,
            (successive_get_bits_8 k r).2.2) := by
  induction k with
  | zero =>
    intro fuel r n buf _ hk hf
    have hpos : 1 ≤ r.golomb_fuel := by simp only [golomb_fuel]; omega
    obtain ⟨fuel, rfl⟩ : ∃ f, fuel = f + 1 := ⟨fuel - 1, by omega⟩
    simp only [get_bytes_loop, successive_get_bits_8, List.append_nil]
    rw [if_neg (by omega)]
  | succ k ih =>
    intro fuel r n buf hn hk hf
    have hpos : 1 ≤ r.golomb_fuel := by simp only [golomb_fuel]; omega
    obtain ⟨fuel, rfl⟩ : ∃ f, fuel = f + 1 := ⟨fuel - 1, by omega⟩
    simp only [get_bytes_loop, successive_get_bits_8]
    rw [if_pos (by omega)]
    rcases hg : r.get_bits 8 with ⟨_ | value, r1⟩
    · simp
    · simp only
      have hlt := golomb_fuel_get_bits r r1 8 value (by decide) hg
      have hstore : store_byte buf buf.length (Fin.ofNat value) = buf ++ [Fin.ofNat value] := by
        simp [store_byte]
      have hidx : (buf.length + 1) % 2 ^ 32 = (buf ++ [(Fin.ofNat value : Fin 256)]).length := by
        rw [Nat.mod_eq_of_lt (by omega)]
        simp
      rw [hstore, hidx, ih fuel r1 n _ hn (by simp; omega) (by omega)]
      simp

/-- For `n` from `2 ^ 32` on the loop of `get_bytes` is not left by its
test: whatever the number of passes, it ends with `end_of_file_x`. -/
theorem get_bytes_loop_wraps (fuel : Nat) :
    ∀ (r : bit_reader_c) (idx n : Nat) (buf : List (Fin 256)), 2 ^ 32 ≤ n → idx < 2 ^ 32 →
      (get_bytes_loop fuel r idx n buf).1 = .error .end_of_file_x := by
  induction fuel with
  | zero =>
    intro r idx n buf _ _
    rfl
  | succ fuel ih =>
    intro r idx n buf hn hidx
    simp only [get_bytes_loop]
    rw [if_pos (by omega)]
    rcases hg : r.get_bits 8 with ⟨_ | value, r1⟩
    · rename_i e
      simp only
      rw [get_bits_loop_error 9 r 8 0 e r1 hg]
    · simp only
      exact ih r1 _ n _ hn (Nat.mod_lt _ (by decide))

/-- With `8 n` bits behind the cursor, `n` successive calls of `get_bits(8)`
all return, and leave the cursor `8 n` bits further. -/
theorem successive_get_bits_8_inside (r : bit_reader_c) (n : Nat) :
    ∀ q : Nat, q + 8 * n ≤ 8 * r.data.length →
      (successive_get_bits_8 n (r.at_bit q)).1 = .ok ()
        ∧ (successive_get_bits_8 n (r.at_bit q)).2.2 = r.at_bit (q + 8 * n) := by
  induction n with
  | zero =>
    intro q _
    exact ⟨rfl, rfl⟩
  | succ n ih =>
    intro q hq
    have hget := get_bits_ok (r.at_bit q) (valid_at_bit r q (by omega)) q 8
      (bit_offset_at_bit r q) (by simp only [at_bit]; omega)
    have hstate : (r.at_bit q).at_bit (q + 8) = r.at_bit (q + 8) := rfl
    rw [hstate] at hget
    simp only [successive_get_bits_8, hget]
    obtain ⟨h1, h2⟩ := ih (q + 8) (by omega)
    refine ⟨h1, ?_⟩
    rw [h2]
    congr 1
    omega

end bit_reader_c

/-- What `get_bytes` does right. From a valid reader on a byte boundary
(`m_bits_valid = 8`), `get_bytes n` raises `end_of_file_x` exactly when fewer
than `n` bytes are left behind the cursor, and otherwise returns with the
same `n` bytes stored and the reader in the same state as `n` successive
calls of `get_bits(8)` from the same state; the two agree on the raising path
as well. Off a byte boundary `get_bytes n` is `n` successive calls of
`get_bits(8)` for every `n` below `2 ^ 32`; from `2 ^ 32` on it raises,
whatever the number of bytes left. -/
theorem get_bytes_spec (r : bit_reader_c) (n : Nat) (hv : r.valid) :
    (8 = r.m_bits_valid →
        ((r.get_bytes n).1 = .error .end_of_file_x ↔ r.data.length - r.m_byte_position < n)
          ∧ (¬ (r.data.length - r.m_byte_position < n) →
              r.get_bytes n = (.ok (), (r.data.drop r.m_byte_position).take n,
                { r with m_byte_position := r.m_byte_position + n }))
          ∧ r.get_bytes n = successive_get_bits_8 n r)
      ∧ (8 ≠ r.m_bits_valid → n < 2 ^ 32 → r.get_bytes n = successive_get_bits_8 n r)
      ∧ (8 ≠ r.m_bits_valid → 2 ^ 32 ≤ n → (r.get_bytes n).1 = .error .end_of_file_x) := by
  refine ⟨?_, ?_, ?_⟩
  · intro h8
    have hmin : min n (r.data.length - r.m_byte_position) < n
        ↔ r.data.length - r.m_byte_position < n := by omega
    refine ⟨?_, ?_, ?_⟩
    · simp only [bit_reader_c.get_bytes, h8, if_true, bit_reader_c.get_bytes_byte_aligned]
      by_cases hc : r.data.length - r.m_byte_position < n
      · simp [hmin.mpr hc, hc]
      · simp [mt hmin.mp hc, hc]
    · intro hc
      simp only [bit_reader_c.get_bytes, h8, if_true, bit_reader_c.get_bytes_byte_aligned,
        if_neg (mt hmin.mp hc)]
      rw [Nat.min_eq_left (by omega)]
    · simp only [bit_reader_c.get_bytes, h8, if_true]
      exact (bit_reader_c.successive_get_bits_8_aligned n r h8 hv.1).symm
  · intro h8 hn
    simp only [bit_reader_c.get_bytes, if_neg h8]
    have h := bit_reader_c.get_bytes_loop_eq n r.golomb_fuel r n [] hn (by simp) (le_refl _)
    simpa using h
  · intro h8 hn
    simp only [bit_reader_c.get_bytes, if_neg h8]
    exact bit_reader_c.get_bytes_loop_wraps _ r 0 n [] hn (by decide)

/-- The bulk read on the buffer `01 02 03`: two bytes from the start, four
bytes from the start (one too many), and two bytes from bit 4. -/
theorem get_bytes_spec_examples :
    (bit_reader_c.init [1, 2, 3]).get_bytes 2 = (.ok (), [1, 2], ⟨[1, 2, 3], 2, 8, false⟩)
      ∧ successive_get_bits_8 2 (bit_reader_c.init [1, 2, 3])
          = (.ok (), [1, 2], ⟨[1, 2, 3], 2, 8, false⟩)
      ∧ (bit_reader_c.init [1, 2, 3]).get_bytes 4
          = (.error .end_of_file_x, [1, 2, 3], ⟨[1, 2, 3], 3, 8, true⟩)
      ∧ successive_get_bits_8 4 (bit_reader_c.init [1, 2, 3])
          = (.error .end_of_file_x, [1, 2, 3], ⟨[1, 2, 3], 3, 8, true⟩)
      ∧ (⟨[1, 2, 3], 0, 4, false⟩ : bit_reader_c).get_bytes 2
          = (.ok (), [0x10, 0x20], ⟨[1, 2, 3], 2, 4, false⟩) := by
  decide

/-- C22 at `n = 2 ^ 32` off a byte boundary. Over a buffer of `2 ^ 32 + 1`
bytes, from the reader set to bit 4, `2 ^ 32` successive calls of
`get_bits(8)` all return, the last one ending at bit `2 ^ 35 + 4` of the
`2 ^ 35 + 8` bits of the buffer. `get_bytes` with `n = 2 ^ 32` counts its
passes in a 32-bit `unsigned int`, which is 0 again after `2 ^ 32` passes, so
that the loop goes on and is left by the `end_of_file_x` of a further
`get_bits(8)`. -/
theorem get_bytes_index_wraps :
    ((bit_reader_c.init huge_buffer).set_bit_position 4).1 = .ok ()
      ∧ ((bit_reader_c.init huge_buffer).set_bit_position 4).2.m_bits_valid = 4
      ∧ 4 + 8 * 2 ^ 32 ≤ 8 * huge_buffer.length
      ∧ (successive_get_bits_8 (2 ^ 32)
          ((bit_reader_c.init huge_buffer).set_bit_position 4).2).1 = .ok ()
      ∧ (((bit_reader_c.init huge_buffer).set_bit_position 4).2.get_bytes (2 ^ 32)).1
          = .error .end_of_file_x := by
  have hlen : (bit_reader_c.init huge_buffer).data.length = 2 ^ 32 + 1 := huge_buffer_length
  have hset := bit_reader_c.set_bit_position_at (bit_reader_c.init huge_buffer) 4
    (by rw [hlen]; decide)
  have hbv : ((bit_reader_c.init huge_buffer).at_bit 4).m_bits_valid = 4 := rfl
  have hsucc := (bit_reader_c.successive_get_bits_8_inside (bit_reader_c.init huge_buffer)
    (2 ^ 32) 4 (by rw [hlen]; decide)).1
  have hwrap := (get_bytes_spec ((bit_reader_c.init huge_buffer).at_bit 4) (2 ^ 32)
    (bit_reader_c.valid_at_bit _ 4 (by rw [hlen]; decide))).2.2 (by rw [hbv]; decide)
    (le_refl _)
  rw [hset]
  exact ⟨rfl, hbv, by rw [huge_buffer_length]; decide, hsucc, hwrap⟩
